import Mathlib

/-!
# LogicLab — formal model of the Boolean-expression pipeline

This file embeds the core expression-processing pipeline of the LogicLab
repository in Lean 4 and proves the specification's claims about it:

* the Quine-McCluskey minimizer (`src/client/src/lib/logic/simplifier.js`,
  mirrored in `src/server/src/logic/index.js`),
* the truth-table generator and evaluator of the TypeScript engine
  (`src/engine/evaluator/evaluator.ts`, `src/engine/truthTable/...`),
* the TypeScript lexer/parser (`src/engine/parser/lexer.ts`,
  `src/engine/parser/parser.ts`) with its `astToString` printer,
* the plain-JavaScript lexer/parser used by the client `lib/logic` and the
  server (`lexer.js`, `parser.js`, `server/src/logic/index.js`).

JavaScript numbers are embedded as `Nat` (all quantities involved are small
non-negative integers: minterm indices below `2^numVars`, popcounts, list
lengths), strings as `String`/`List Char`, JS objects used as string-keyed
maps as association lists whose lookup takes the *last* binding (JS
assignment overwrites), and JS `Set`s as lists with membership-guarded
insertion.  Functions that `throw` are embedded with `Except`.  `while`
loops are embedded as fuel recursion, with the fuel chosen at the call site
large enough that it is never exhausted (proved where a claim depends on
it).
-/

/-! ## Small generic helpers -/

/-- Insertion into a JS `Set` modeled as a list: append iff not present. -/
def setAdd {α : Type} [BEq α] (l : List α) (x : α) : List α :=
  if l.contains x then l else l ++ [x]

/-- Spread of a JS `Set` built from a list: de-duplication keeping first
occurrences (`[...new Set(list)]`). -/
def dedupFirst {α : Type} [BEq α] (l : List α) : List α :=
  l.foldl setAdd []

/-- Ordered insertion (structural helper for the sorts below). -/
def insertLe {α : Type} (le : α → α → Bool) (x : α) : List α → List α
  | [] => [x]
  | y :: ys => if le x y then x :: y :: ys else y :: insertLe le x ys

/-- JS `Array.prototype.sort` with a total comparator, embedded as an
insertion sort (only the sortedness of the output matters to callers). -/
def sortLe {α : Type} (le : α → α → Bool) (l : List α) : List α :=
  l.foldr (insertLe le) []

/-- Code-unit comparison of character lists: `Array.prototype.sort` with
no comparator orders strings by their code units, which for the
identifier strings sorted here coincides with code-point order. -/
def charsLe : List Char → List Char → Bool
  | [], _ => true
  | _ :: _, [] => false
  | a :: as, b :: bs =>
    if a.val < b.val then true
    else if b.val < a.val then false
    else charsLe as bs

/-- The default lexicographic string order used by `sort()`. -/
def strLe (a b : String) : Bool :=
  charsLe a.data b.data

/-! ## Binary strings

`m.toString(2)` in JavaScript renders a natural number in binary, most
significant digit first, with no leading zeroes (and renders `0` as "0");
`padStart(numVars, '0')` then left-pads with zeroes.  `natToString2` and
`padStart` embed these; `bitChars` is the closed form used in proofs. -/

/-- Binary digits, fuel-recursive so the kernel can evaluate it (`m` units
of fuel always suffice, as proved below). -/
def natBinDigitsGo : Nat → Nat → List Char
  | 0, _ => []
  | fuel + 1, m =>
    if m = 0 then []
    else natBinDigitsGo fuel (m / 2) ++ [if m % 2 = 1 then '1' else '0']

/-- Binary digits of `m`, most significant first; empty for `0`
(auxiliary form of JS `m.toString(2)`). -/
def natBinDigitsAux (m : Nat) : List Char :=
  natBinDigitsGo m m

/-- JS `m.toString(2)` as a list of characters. -/
def natToString2 (m : Nat) : List Char :=
  if m = 0 then ['0'] else natBinDigitsAux m

/-- JS `s.padStart(n, c)` (no-op when `s` is already at least `n` long). -/
def padStart (s : List Char) (n : Nat) (c : Char) : List Char :=
  List.replicate (n - s.length) c ++ s

/-- The `n`-character binary rendering of `m` (most significant bit first),
as used for seeds and for `covers`' minterm rendering. -/
def toBinary (m n : Nat) : List Char :=
  padStart (natToString2 m) n '0'

/-- Closed form of `toBinary m n` for `m < 2^n`: character `i` is bit
`n-1-i` of `m`. -/
def bitChars (m n : Nat) : List Char :=
  (List.range n).map (fun i => if m.testBit (n - 1 - i) then '1' else '0')

/-! ## Implicants (`simplifier.js`, class `Implicant`)

`minterms` is the (sorted, de-duplicated) list of minterm indices the
implicant was built from; `binary` its pattern over `{'0','1','-'}`;
`mask` marks the dash positions (display-only).  The constructor
`new Implicant(minterms, binary)` defaults the mask to all-`false`. -/

structure Implicant where
  minterms : List Nat
  binary : List Char
  mask : List Bool
deriving DecidableEq, Repr

/-- Constructor `new Implicant(minterms, binary)` with the default mask. -/
def Implicant.make (minterms : List Nat) (binary : List Char) : Implicant :=
  ⟨minterms, binary, binary.map (fun _ => false)⟩

/-- Method `countOnes`: number of '1' characters in the pattern. -/
def Implicant.countOnes (pi : Implicant) : Nat :=
  (pi.binary.filter (fun c => c = '1')).length

/-- Loop body of `canCombineWith`: walk both patterns; positions where
either side is a dash must agree exactly; otherwise at most one differing
position is allowed, whose index is the result. -/
def canCombineAux : List Char → List Char → Nat → Option Nat → Option Nat
  | [], [], _, acc => acc
  | a :: as, b :: bs, i, acc =>
    if a = '-' ∨ b = '-' then
      if a ≠ b then none else canCombineAux as bs (i + 1) acc
    else if a ≠ b then
      match acc with
      | none => canCombineAux as bs (i + 1) (some i)
      | some _ => none
    else canCombineAux as bs (i + 1) acc
  | _, _, _, _ => none

/-- Method `canCombineWith`: `some diffIndex` iff the patterns have equal
length, agree on dash positions, and differ in exactly one (non-dash)
position. -/
def Implicant.canCombineWith (a b : Implicant) : Option Nat :=
  if a.binary.length ≠ b.binary.length then none
  else canCombineAux a.binary b.binary 0 none

/-- Method `combineWith`: union of minterm sets (sorted, de-duplicated),
pattern with the differing position dashed out. -/
def Implicant.combineWith (a b : Implicant) (diffIndex : Nat) : Implicant :=
  { minterms := sortLe (fun x y => decide (x ≤ y))
      (dedupFirst (a.minterms ++ b.minterms)),
    binary := a.binary.set diffIndex '-',
    mask := a.mask.set diffIndex true }

/-- Loop body of `covers`: every non-dash pattern character must equal the
corresponding character of the minterm's binary rendering (an exhausted
rendering — JS `undefined` — matches nothing). -/
def coversAux : List Char → List Char → Bool
  | [], _ => true
  | c :: cs, [] => if c = '-' then coversAux cs [] else false
  | c :: cs, d :: ds => if c ≠ '-' ∧ c ≠ d then false else coversAux cs ds

/-- Method `covers`: does this implicant's pattern cover minterm `m`
(rendered on `numVars` bits)? -/
def Implicant.covers (pi : Implicant) (m numVars : Nat) : Bool :=
  coversAux pi.binary (toBinary m numVars)

/-- Literals of `toTerm`: pattern position `i` yields the bare variable for
'1', the negated variable for '0', nothing for '-'.  A missing variable
name (pattern longer than the list) is JS `undefined`, rendered
"undefined". -/
def termLitsAux : List Char → List String → List (String × Bool)
  | [], _ => []
  | c :: cs, v :: vs =>
    if c = '1' then (v, true) :: termLitsAux cs vs
    else if c = '0' then (v, false) :: termLitsAux cs vs
    else termLitsAux cs vs
  | c :: cs, [] =>
    if c = '1' then ("undefined", true) :: termLitsAux cs []
    else if c = '0' then ("undefined", false) :: termLitsAux cs []
    else termLitsAux cs []

/-- Literal list of method `toTerm` (second component: `true` for a bare
variable, `false` for a primed one). -/
def Implicant.toTermLits (pi : Implicant) (vars : List String) :
    List (String × Bool) :=
  termLitsAux pi.binary vars

/-- Method `toTerm`: the product term as a string — literals concatenated,
a '0' position rendered with a trailing prime; "1" when no literal
remains. -/
def Implicant.toTerm (pi : Implicant) (vars : List String) : String :=
  let lits := pi.toTermLits vars
  if lits.length > 0 then
    String.join (lits.map (fun l => if l.2 then l.1 else l.1 ++ "\x27"))
  else "1"

/-! ## Quine-McCluskey (`simplifier.js`, `quineMcCluskey`) -/

/-- Inner body of the pairwise-combination loop: on success, push the
combined implicant unless an equal pattern is already present, and mark
both parents used. -/
def qmPairStep (acc : List Implicant × List Implicant)
    (imp1 imp2 : Implicant) : List Implicant × List Implicant :=
  match imp1.canCombineWith imp2 with
  | some d =>
    let combined := imp1.combineWith imp2 d
    let news :=
      if acc.1.any (fun ni => ni.binary == combined.binary) then acc.1
      else acc.1 ++ [combined]
    (news, setAdd (setAdd acc.2 imp1) imp2)
  | none => acc

/-- Group of implicants with popcount `k`, in list order. -/
def qmGroups (implicants : List Implicant) (k : Nat) : List Implicant :=
  implicants.filter (fun imp => imp.countOnes == k)

/-- The sorted distinct popcounts present (`Object.keys(groups)` sorted
ascending). -/
def qmGroupKeys (implicants : List Implicant) : List Nat :=
  (List.range ((implicants.map Implicant.countOnes).foldr max 0 + 1)).filter
    (fun k => (implicants.map Implicant.countOnes).contains k)

/-- One round of the combination loop: compare every pair drawn from
adjacent popcount groups; return (new implicants, used implicants). -/
def qmRound (implicants : List Implicant) :
    List Implicant × List Implicant :=
  let keys := qmGroupKeys implicants
  (keys.zip keys.tail).foldl
    (fun acc kk =>
      (qmGroups implicants kk.1).foldl
        (fun acc1 imp1 =>
          (qmGroups implicants kk.2).foldl
            (fun acc2 imp2 => qmPairStep acc2 imp1 imp2) acc1)
        acc)
    ([], [])

/-- The `while (implicants.length > 0)` loop: each round collects the
implicants not used in a combination as prime implicants and continues on
the newly formed ones.  Fuel recursion; `numVars + 2` rounds always
suffice (each round strictly increases the dash count). -/
def qmLoop : Nat → List Implicant → List Implicant → List Implicant
  | 0, _, primes => primes
  | fuel + 1, implicants, primes =>
    if implicants.isEmpty then primes
    else
      let r := qmRound implicants
      qmLoop fuel r.1
        (primes ++ implicants.filter (fun imp => ¬ r.2.contains imp))

/-- De-duplication of the accumulated prime implicants by pattern, keeping
first occurrences. -/
def dedupByBinary (primes : List Implicant) : List Implicant :=
  primes.foldl
    (fun acc pi =>
      if acc.any (fun q => q.binary == pi.binary) then acc else acc ++ [pi])
    []

/-- First pass of `findEssentialPrimeImplicants`: a minterm covered by
exactly one prime implicant makes that implicant essential; its minterms
are marked covered. -/
def findEssentialFirstPass (primeImplicants : List Implicant)
    (minterms : List Nat) (numVars : Nat) :
    List Implicant × List Nat :=
  minterms.foldl
    (fun st m =>
      match primeImplicants.filter (fun pi => pi.covers m numVars) with
      | [pi] =>
        if st.1.contains pi then st
        else (st.1 ++ [pi], pi.minterms.foldl setAdd st.2)
      | _ => st)
    ([], [])

/-- Scan for the unselected prime implicant covering the most currently
uncovered minterms (first strict improvement wins). -/
def qmFindBest (remainingPIs : List Implicant) (uncovered : List Nat)
    (numVars : Nat) : Option Implicant × Nat :=
  remainingPIs.foldl
    (fun best pi =>
      let count := (uncovered.filter (fun m => pi.covers m numVars)).length
      if count > best.2 then (some pi, count) else best)
    (none, 0)

/-- Greedy covering loop of `findEssentialPrimeImplicants` (fuel recursion;
`uncovered.length + 1` steps suffice since each pass removes at least one
uncovered minterm). -/
def qmGreedy : Nat → List Implicant → List Nat → List Implicant → Nat →
    List Implicant
  | 0, _, _, essential, _ => essential
  | fuel + 1, remainingPIs, uncovered, essential, numVars =>
    if uncovered.length > 0 ∧ remainingPIs.length > 0 then
      match qmFindBest remainingPIs uncovered numVars with
      | (some bestPI, bestCount) =>
        if bestCount > 0 then
          qmGreedy fuel (remainingPIs.erase bestPI)
            (uncovered.filter (fun m => ¬ bestPI.covers m numVars))
            (essential ++ [bestPI]) numVars
        else essential
      | (none, _) => essential
    else essential

/-- Function `findEssentialPrimeImplicants`: the two-pass essential/greedy
selection. -/
def findEssentialPrimeImplicants (primeImplicants : List Implicant)
    (minterms : List Nat) (numVars : Nat) : List Implicant :=
  if primeImplicants.isEmpty then []
  else
    let fp := findEssentialFirstPass primeImplicants minterms numVars
    let uncovered := minterms.filter (fun m => ¬ fp.2.contains m)
    let remainingPIs :=
      primeImplicants.filter (fun pi => ¬ fp.1.contains pi)
    qmGreedy (uncovered.length + 1) remainingPIs uncovered fp.1 numVars

/-- Result record of `quineMcCluskey` (the display-only `steps` trace is
omitted). -/
structure QMResult where
  primeImplicants : List Implicant
  essentialImplicants : List Implicant
  expression : String
deriving Repr

/-- Function `quineMcCluskey`: degenerate empty/full cases, seeding,
combination rounds, pattern de-duplication, essential selection, and the
rendered SOP expression. -/
def quineMcCluskey (minterms : List Nat) (numVars : Nat)
    (vars : List String) : QMResult :=
  if minterms.length = 0 then ⟨[], [], "0"⟩
  else if minterms.length = 2 ^ numVars then ⟨[], [], "1"⟩
  else
    let implicants :=
      minterms.map (fun m => Implicant.make [m] (toBinary m numVars))
    let primeImplicants := dedupByBinary (qmLoop (numVars + 2) implicants [])
    let essentialImplicants :=
      findEssentialPrimeImplicants primeImplicants minterms numVars
    let terms := essentialImplicants.map (fun ei => ei.toTerm vars)
    ⟨primeImplicants, essentialImplicants,
      if terms.length > 0 then String.intercalate " + " terms else "0"⟩

/-! ## Semantics of the rendered SOP expression

The expression returned by `quineMcCluskey` is the terms of the selected
essential implicants joined with " + ".  Under the pipeline's grammar this
string denotes the OR of its terms; a term is the AND of its literals,
where a bare variable reads the binding and a primed one negates it (the
term "1" — an all-dash implicant — is the constant true, and the empty
expression "0" the constant false).  `evalSOP` is this denotation, applied
to the implicants' literal lists. -/

/-- JS object lookup on an association list: the *last* binding wins. -/
def lookupBinding (binding : List (String × Bool)) (name : String) :
    Option Bool :=
  (binding.reverse.find? (fun p => p.1 == name)).map (fun p => p.2)

/-- Value of one product term under a binding: all literals satisfied. -/
def evalTermLits (lits : List (String × Bool))
    (binding : List (String × Bool)) : Bool :=
  lits.all (fun l => lookupBinding binding l.1 == some l.2)

/-- Value of the rendered SOP expression under a binding: some term
satisfied. -/
def evalSOP (implicants : List Implicant) (vars : List String)
    (binding : List (String × Bool)) : Bool :=
  implicants.any (fun pi => evalTermLits (pi.toTermLits vars) binding)

/-- Function `mintermToBinding` (`evaluator.ts`): variable `i` receives bit
`n-1-i` of the minterm (most significant bit first). -/
def mintermToBinding (minterm : Nat) (vars : List String) :
    List (String × Bool) :=
  (List.range vars.length).map
    (fun i =>
      (vars.getD i "",
        decide (((minterm >>> (vars.length - 1 - i)) &&& 1) ≠ 0)))

/-! ## TypeScript engine: AST, evaluator, truth tables

`@/types` defines the AST as a tagged union with a per-node `id` assigned
by the parser (`nanoid(8)`).  The id plays no semantic role in evaluation
or table generation, so the core is modeled id-free (`CoreAST`); ids are
reattached by `assignIds` below (used for the determinism claims). -/

/-- Kinds of binary AST nodes (`ASTNodeType`, binary cases). -/
inductive BinKind where
  | and | or | xor | nand | nor | xnor
deriving DecidableEq, Repr

/-- The TS AST (`ASTNode` union), without the display-only `id` field. -/
inductive CoreAST where
  | var (name : String)
  | lit (value : Bool)
  | notN (operand : CoreAST)
  | bin (kind : BinKind) (left right : CoreAST)
deriving DecidableEq, Repr

/-- Function `evaluate` (`evaluator.ts`): structural recursion; a variable
absent from the bindings throws.  JS `&&`/`||` short-circuit, so the right
operand of AND/OR/NAND/NOR is only evaluated when the left one does not
decide the result. -/
def evaluate : CoreAST → List (String × Bool) → Except String Bool
  | .var name, bindings =>
    match lookupBinding bindings name with
    | some v => .ok v
    | none => .error ("Undefined variable: " ++ name)
  | .lit v, _ => .ok v
  | .notN o, b => do
    let ov ← evaluate o b
    pure (! ov)
  | .bin .and l r, b => do
    let lv ← evaluate l b
    if lv then evaluate r b else pure false
  | .bin .or l r, b => do
    let lv ← evaluate l b
    if lv then pure true else evaluate r b
  | .bin .xor l r, b => do
    let lv ← evaluate l b
    let rv ← evaluate r b
    pure (lv != rv)
  | .bin .nand l r, b => do
    let lv ← evaluate l b
    if lv then do
      let rv ← evaluate r b
      pure (! rv)
    else pure true
  | .bin .nor l r, b => do
    let lv ← evaluate l b
    if lv then pure false
    else do
      let rv ← evaluate r b
      pure (! rv)
  | .bin .xnor l r, b => do
    let lv ← evaluate l b
    let rv ← evaluate r b
    pure (lv == rv)

/-- Function `generateCombinations` (`evaluator.ts`): the `2^n` bindings in
minterm order, `variables[j]` receiving bit `n-1-j` of the row index (MSB
first). -/
def generateCombinations (vars : List String) :
    List (List (String × Bool)) :=
  (List.range (2 ^ vars.length)).map
    (fun i =>
      (List.range vars.length).map
        (fun j =>
          (vars.getD j "",
            decide (((i >>> (vars.length - 1 - j)) &&& 1) ≠ 0))))

/-- Function `getMintermNumber` (`evaluator.ts`): rebuild the row index
from a binding, `variables[i]` contributing bit `n-1-i` (a missing binding
reads as `undefined`, hence false). -/
def getMintermNumber (binding : List (String × Bool))
    (vars : List String) : Nat :=
  (List.range vars.length).foldl
    (fun minterm i =>
      if (lookupBinding binding (vars.getD i "")).getD false then
        minterm ||| (1 <<< (vars.length - 1 - i))
      else minterm)
    0

/-- Function `getMaxtermNumber` (`evaluator.ts`): the body only delegates
to `getMintermNumber` ("Maxterm is the complement of minterm numbering" —
but no complement is applied). -/
def getMaxtermNumber (binding : List (String × Bool))
    (vars : List String) : Nat :=
  getMintermNumber binding vars

/-- Row of the TS `TruthTable` (`types.ts`). -/
structure TruthTableRow where
  inputs : List (String × Bool)
  output : Bool
  minterm : Nat
  maxterm : Nat
deriving DecidableEq, Repr

/-- The TS `TruthTable` (`types.ts`). -/
structure TruthTable where
  vars : List String
  rows : List TruthTableRow
  expression : String
deriving DecidableEq, Repr

/-- Constant `MAX_VARIABLES` of the client table generator. -/
def MAX_VARIABLES : Nat := 8

/-- Function `generateTruthTable` (client `truthTable.ts`): reject more
than `MAX_VARIABLES` variables, then one row per combination with
`maxterm = 2^n - 1 - minterm`. -/
def generateTruthTable (ast : CoreAST) (vars : List String)
    (expression : String) : Except String TruthTable :=
  if vars.length > MAX_VARIABLES then
    .error ("Too many variables (" ++ toString vars.length ++
      "). Maximum supported: " ++ toString MAX_VARIABLES)
  else do
    let rows ← (generateCombinations vars).mapM
      (fun inputs => do
        let output ← evaluate ast inputs
        pure (TruthTableRow.mk inputs output (getMintermNumber inputs vars)
          (2 ^ vars.length - 1 - getMintermNumber inputs vars)))
    pure ⟨vars, rows, expression⟩

/-! ## JavaScript AST and the server pipeline (`server/src/logic/index.js`)

The JS side models AST nodes as classes with a static incrementing id
counter (`node_${++ASTNode.idCounter}`), reset by `Parser.parse` via
`ASTNode.resetIds()`.  The counter is threaded explicitly.  `evaluate`
works on 0/1 numbers with JS truthiness (a missing variable reads as
`undefined`, which is falsy). -/

/-- The JS AST class hierarchy, as a sum; `id` is the `node_k` string. -/
inductive JSAst where
  | variableNode (id : String) (name : String)
  | constantNode (id : String) (value : Nat)
  | notNode (id : String) (operand : JSAst)
  | binNode (id : String) (kind : BinKind) (left right : JSAst)
deriving DecidableEq, Repr

/-- Id produced by `node_${++ASTNode.idCounter}` (pre-increment). -/
def jsFresh (ctr : Nat) : String × Nat :=
  ("node_" ++ toString (ctr + 1), ctr + 1)

/-- Lookup in a JS object holding 0/1 numbers; `undefined` is falsy, so a
missing key reads as 0. -/
def jsLookupNum (values : List (String × Nat)) (name : String) : Nat :=
  ((values.reverse.find? (fun p => p.1 == name)).map (fun p => p.2)).getD 0

/-- Method `evaluate` of the JS node classes: 0/1 arithmetic over
truthiness. -/
def JSAst.evaluate : JSAst → List (String × Nat) → Nat
  | .variableNode _ name, values =>
    if jsLookupNum values name ≠ 0 then 1 else 0
  | .constantNode _ v, _ => v
  | .notNode _ o, v => if o.evaluate v ≠ 0 then 0 else 1
  | .binNode _ .and l r, v =>
    if l.evaluate v ≠ 0 ∧ r.evaluate v ≠ 0 then 1 else 0
  | .binNode _ .or l r, v =>
    if l.evaluate v ≠ 0 ∨ r.evaluate v ≠ 0 then 1 else 0
  | .binNode _ .xor l r, v => if l.evaluate v ≠ r.evaluate v then 1 else 0
  | .binNode _ .nand l r, v =>
    if l.evaluate v ≠ 0 ∧ r.evaluate v ≠ 0 then 0 else 1
  | .binNode _ .nor l r, v =>
    if l.evaluate v ≠ 0 ∨ r.evaluate v ≠ 0 then 0 else 1
  | .binNode _ .xnor l r, v => if l.evaluate v = r.evaluate v then 1 else 0

/-- Occurrences of variable names, left to right (`getVariables` builds
the same set by recursive union). -/
def JSAst.varOccurrences : JSAst → List String
  | .variableNode _ name => [name]
  | .constantNode _ _ => []
  | .notNode _ o => o.varOccurrences
  | .binNode _ _ l r => l.varOccurrences ++ r.varOccurrences

/-- `Array.from(ast.getVariables()).sort()`: the distinct names, sorted
lexicographically. -/
def JSAst.sortedVariables (ast : JSAst) : List String :=
  sortLe strLe (dedupFirst ast.varOccurrences)

/-- Keyword rendering of the binary node kinds (`toString`). -/
def BinKind.keyword : BinKind → String
  | .and => "AND"
  | .or => "OR"
  | .xor => "XOR"
  | .nand => "NAND"
  | .nor => "NOR"
  | .xnor => "XNOR"

/-- Method `toString` of the JS node classes. -/
def JSAst.render : JSAst → String
  | .variableNode _ name => name
  | .constantNode _ v => toString v
  | .notNode _ o => "~(" ++ o.render ++ ")"
  | .binNode _ k l r =>
    "(" ++ l.render ++ " " ++ k.keyword ++ " " ++ r.render ++ ")"

/-- Row of the server truth table: `{ index, inputs, output }` (the
`error` field of the client copy is always `null` here since the JS
`evaluate` is total). -/
structure ServerRow where
  index : Nat
  inputs : List (String × Nat)
  output : Nat
deriving DecidableEq, Repr

/-- The `stats` record of the server truth table. -/
structure ServerStats where
  totalRows : Nat
  trueCount : Nat
  falseCount : Nat
deriving DecidableEq, Repr

/-- The server truth table. -/
structure ServerTruthTable where
  vars : List String
  rows : List ServerRow
  stats : ServerStats
  expression : String
deriving DecidableEq, Repr

/-- Function `generateTruthTable` of `server/src/logic/index.js` (same
algorithm as the client `truthTable.js`): no variable-count cap; always
`2^n` rows, `variables[j]` receiving bit `n-1-j` of the row index. -/
def serverGenerateTruthTable (ast : JSAst)
    (variableOrder : Option (List String)) : ServerTruthTable :=
  let vars :=
    match variableOrder with
    | some v => v
    | none => ast.sortedVariables
  let totalRows := 2 ^ vars.length
  let rows := (List.range totalRows).map
    (fun i =>
      let inputs := (List.range vars.length).map
        (fun j => (vars.getD j "", (i >>> (vars.length - 1 - j)) &&& 1))
      ServerRow.mk i inputs (ast.evaluate inputs))
  ServerTruthTable.mk vars rows
    (ServerStats.mk rows.length
      (rows.filter (fun r => r.output == 1)).length
      (rows.filter (fun r => r.output == 0)).length)
    ast.render

/-- Function `getMinterms` (server): indices of rows with output 1. -/
def serverGetMinterms (tt : ServerTruthTable) : List Nat :=
  (tt.rows.filter (fun r => r.output == 1)).map (fun r => r.index)

/-- Result of the server `simplifyExpression` (statistics, always zero
there, omitted). -/
structure ServerSimplification where
  original : String
  simplified : String
deriving DecidableEq, Repr

/-- Function `simplifyExpression` (server): Quine-McCluskey on the table's
minterms.  The server's `quineMcCluskey` is a verbatim copy of the
client's minus the display-only mask and steps, so the shared embedding is
used. -/
def serverSimplifyExpression (tt : ServerTruthTable) :
    ServerSimplification :=
  let qmResult :=
    quineMcCluskey (serverGetMinterms tt) tt.vars.length tt.vars
  ⟨tt.expression, qmResult.expression⟩

/-! ## Character classes shared by both lexers -/

/-- JS regex `\s` (the inputs at issue are ASCII). -/
def isWSChar (c : Char) : Bool := c.isWhitespace

/-- JS regex `[a-zA-Z0-9_]`. -/
def isWordChar (c : Char) : Bool := c.isAlpha || c.isDigit || c == '_'

/-- JS `.toUpperCase()` on the ASCII identifiers at issue. -/
def jsToUpperCase (s : String) : String := ⟨s.data.map Char.toUpper⟩

/-! ## The JavaScript lexer (`lexer.js`, mirrored in the server) -/

/-- Token types of the JS lexer (`TokenType`). -/
inductive JSTokenType where
  | VARIABLE | AND | OR | NOT | XOR | NAND | NOR | XNOR
  | LPAREN | RPAREN | CONSTANT | EOF
deriving DecidableEq, Repr

/-- Token values: strings for operators/variables, 0/1 numbers for
constants. -/
inductive JSTokenValue where
  | str (s : String)
  | num (n : Nat)
deriving DecidableEq, Repr

/-- Rendering of a token value in an error message template. -/
def JSTokenValue.render : JSTokenValue → String
  | .str s => s
  | .num n => toString n

/-- The JS `Token` class. -/
structure JSToken where
  type : JSTokenType
  value : JSTokenValue
  position : Nat
deriving DecidableEq, Repr

/-- The JS `LexerError`. -/
structure JSLexError where
  message : String
  position : Nat
deriving DecidableEq, Repr

/-- Method `readIdentifier`: map the keyword table over the *uppercased*
identifier; `TRUE`/`FALSE` (and the unreachable "0"/"1") become constants;
anything else is a variable token carrying the identifier in its
*original* case. -/
def jsReadIdentifier (value : String) (startPos : Nat) : JSToken :=
  let upperValue := jsToUpperCase value
  if upperValue = "AND" then ⟨.AND, .str upperValue, startPos⟩
  else if upperValue = "OR" then ⟨.OR, .str upperValue, startPos⟩
  else if upperValue = "NOT" then ⟨.NOT, .str upperValue, startPos⟩
  else if upperValue = "XOR" then ⟨.XOR, .str upperValue, startPos⟩
  else if upperValue = "NAND" then ⟨.NAND, .str upperValue, startPos⟩
  else if upperValue = "NOR" then ⟨.NOR, .str upperValue, startPos⟩
  else if upperValue = "XNOR" then ⟨.XNOR, .str upperValue, startPos⟩
  else if upperValue = "TRUE" ∨ value = "1" then ⟨.CONSTANT, .num 1, startPos⟩
  else if upperValue = "FALSE" ∨ value = "0" then ⟨.CONSTANT, .num 0, startPos⟩
  else ⟨.VARIABLE, .str value, startPos⟩

/-- Main loop of method `tokenize` (fuel recursion; each iteration consumes
at least one character, so `input.length + 1` steps suffice). -/
def jsTokenizeLoop : Nat → List Char → Nat → List JSToken →
    Except JSLexError (List JSToken)
  | 0, _, pos, _ => .error ⟨"lexer out of fuel", pos⟩
  | fuel + 1, chars, pos, toks =>
    let ws := chars.takeWhile isWSChar
    let rest := chars.drop ws.length
    let pos1 := pos + ws.length
    match rest with
    | [] => .ok (toks ++ [⟨.EOF, .str "", pos1⟩])
    | c :: cs =>
      if c = '(' then
        jsTokenizeLoop fuel cs (pos1 + 1) (toks ++ [⟨.LPAREN, .str "(", pos1⟩])
      else if c = ')' then
        jsTokenizeLoop fuel cs (pos1 + 1) (toks ++ [⟨.RPAREN, .str ")", pos1⟩])
      else if c = '&' then
        jsTokenizeLoop fuel cs (pos1 + 1) (toks ++ [⟨.AND, .str "&", pos1⟩])
      else if c = '|' then
        jsTokenizeLoop fuel cs (pos1 + 1) (toks ++ [⟨.OR, .str "|", pos1⟩])
      else if c = '~' ∨ c = '!' then
        jsTokenizeLoop fuel cs (pos1 + 1) (toks ++ [⟨.NOT, .str "~", pos1⟩])
      else if c = '^' then
        jsTokenizeLoop fuel cs (pos1 + 1) (toks ++ [⟨.XOR, .str "^", pos1⟩])
      else if c = '+' then
        jsTokenizeLoop fuel cs (pos1 + 1) (toks ++ [⟨.OR, .str "+", pos1⟩])
      else if c = '.' then
        jsTokenizeLoop fuel cs (pos1 + 1) (toks ++ [⟨.AND, .str ".", pos1⟩])
      else if c = '*' then
        jsTokenizeLoop fuel cs (pos1 + 1) (toks ++ [⟨.AND, .str "*", pos1⟩])
      else if c = '\x27' then
        jsTokenizeLoop fuel cs (pos1 + 1) (toks ++ [⟨.NOT, .str "\x27", pos1⟩])
      else if c = '⊕' then
        jsTokenizeLoop fuel cs (pos1 + 1) (toks ++ [⟨.XOR, .str "⊕", pos1⟩])
      else if c = '0' then
        jsTokenizeLoop fuel cs (pos1 + 1) (toks ++ [⟨.CONSTANT, .num 0, pos1⟩])
      else if c = '1' then
        jsTokenizeLoop fuel cs (pos1 + 1) (toks ++ [⟨.CONSTANT, .num 1, pos1⟩])
      else if c.isAlpha ∨ c = '_' then
        let value := (c :: cs).takeWhile isWordChar
        jsTokenizeLoop fuel ((c :: cs).drop value.length) (pos1 + value.length)
          (toks ++ [jsReadIdentifier ⟨value⟩ pos1])
      else
        .error ⟨"Unexpected character \x27" ++ String.mk [c] ++ "\x27", pos1⟩

/-- Method `tokenize` of the JS `Lexer`. -/
def jsTokenize (input : String) : Except JSLexError (List JSToken) :=
  jsTokenizeLoop (input.length + 1) input.data 0 []

/-! ## The JavaScript parser (`parser.js`, mirrored in the server)

The parser consumes the token list from the front (the source tracks an
index; `advance` never moves past the trailing EOF sentinel).  The static
id counter is explicit: every `new ...Node` takes and returns it.  Fuel
recursion; the entry point supplies fuel larger than the total number of
parser calls on its token list. -/

/-- The JS `ParserError` (carries the offending token). -/
structure JSParseError where
  message : String
  token : JSToken
deriving DecidableEq, Repr

/-- Method `peek` (a well-formed stream always ends with EOF). -/
def jsPeekTok (ts : List JSToken) : JSToken := ts.headD ⟨.EOF, .str "", 0⟩

/-- Method `isAtEnd`. -/
def jsAtEnd (ts : List JSToken) : Bool := (jsPeekTok ts).type == .EOF

/-- Method `check`. -/
def jsCheckTok (ts : List JSToken) (ty : JSTokenType) : Bool :=
  !(jsAtEnd ts) && ((jsPeekTok ts).type == ty)

/-- Method `match`: on success returns the consumed token and the rest. -/
def jsMatchTok (ts : List JSToken) (types : List JSTokenType) :
    Option (JSToken × List JSToken) :=
  if types.any (fun ty => jsCheckTok ts ty) then some (jsPeekTok ts, ts.tail)
  else none

/-- Postfix-prime loop of method `postfix`: consume NOT tokens only while
they are apostrophes (the source backs up and breaks on a prefix-style
NOT). -/
def jsApostropheLoop : List JSToken → JSAst → Nat → JSAst × List JSToken × Nat
  | [], node, ctr => (node, [], ctr)
  | t :: rest, node, ctr =>
    if t.type == JSTokenType.NOT ∧ t.value == JSTokenValue.str "\x27" then
      let f := jsFresh ctr
      jsApostropheLoop rest (.notNode f.1 node) f.2
    else (node, t :: rest, ctr)

mutual

/-- Method `orExpression` (also `expression`): the OR/NOR level. -/
def jsOrExpr (fuel : Nat) (ts : List JSToken) (ctr : Nat) :
    Except JSParseError (JSAst × List JSToken × Nat) :=
  match fuel with
  | 0 => .error ⟨"parser out of fuel", jsPeekTok ts⟩
  | fuel + 1 => do
    let (left, ts1, c1) ← jsXorExpr fuel ts ctr
    jsOrLoop fuel left ts1 c1
termination_by structural fuel

/-- The `while (match(OR, NOR))` loop of `orExpression`. -/
def jsOrLoop (fuel : Nat) (left : JSAst) (ts : List JSToken) (ctr : Nat) :
    Except JSParseError (JSAst × List JSToken × Nat) :=
  match fuel with
  | 0 => .error ⟨"parser out of fuel", jsPeekTok ts⟩
  | fuel + 1 =>
    match jsMatchTok ts [.OR, .NOR] with
    | some (op, ts1) => do
      let (right, ts2, c2) ← jsXorExpr fuel ts1 ctr
      let f := jsFresh c2
      jsOrLoop fuel
        (.binNode f.1 (if op.type == .OR then .or else .nor) left right)
        ts2 f.2
    | none => .ok (left, ts, ctr)
termination_by structural fuel

/-- Method `xorExpression`: the XOR/XNOR level. -/
def jsXorExpr (fuel : Nat) (ts : List JSToken) (ctr : Nat) :
    Except JSParseError (JSAst × List JSToken × Nat) :=
  match fuel with
  | 0 => .error ⟨"parser out of fuel", jsPeekTok ts⟩
  | fuel + 1 => do
    let (left, ts1, c1) ← jsAndExpr fuel ts ctr
    jsXorLoop fuel left ts1 c1
termination_by structural fuel

/-- The `while (match(XOR, XNOR))` loop of `xorExpression`. -/
def jsXorLoop (fuel : Nat) (left : JSAst) (ts : List JSToken) (ctr : Nat) :
    Except JSParseError (JSAst × List JSToken × Nat) :=
  match fuel with
  | 0 => .error ⟨"parser out of fuel", jsPeekTok ts⟩
  | fuel + 1 =>
    match jsMatchTok ts [.XOR, .XNOR] with
    | some (op, ts1) => do
      let (right, ts2, c2) ← jsAndExpr fuel ts1 ctr
      let f := jsFresh c2
      jsXorLoop fuel
        (.binNode f.1 (if op.type == .XOR then .xor else .xnor) left right)
        ts2 f.2
    | none => .ok (left, ts, ctr)
termination_by structural fuel

/-- Method `andExpression`: the AND/NAND level — the explicit-operator
loop, then the implicit-AND loop (never back). -/
def jsAndExpr (fuel : Nat) (ts : List JSToken) (ctr : Nat) :
    Except JSParseError (JSAst × List JSToken × Nat) :=
  match fuel with
  | 0 => .error ⟨"parser out of fuel", jsPeekTok ts⟩
  | fuel + 1 => do
    let (left, ts1, c1) ← jsUnaryExpr fuel ts ctr
    let (left2, ts2, c2) ← jsAndLoop fuel left ts1 c1
    jsImplicitLoop fuel left2 ts2 c2
termination_by structural fuel

/-- The `while (match(AND, NAND))` loop of `andExpression`. -/
def jsAndLoop (fuel : Nat) (left : JSAst) (ts : List JSToken) (ctr : Nat) :
    Except JSParseError (JSAst × List JSToken × Nat) :=
  match fuel with
  | 0 => .error ⟨"parser out of fuel", jsPeekTok ts⟩
  | fuel + 1 =>
    match jsMatchTok ts [.AND, .NAND] with
    | some (op, ts1) => do
      let (right, ts2, c2) ← jsUnaryExpr fuel ts1 ctr
      let f := jsFresh c2
      jsAndLoop fuel
        (.binNode f.1 (if op.type == .AND then .and else .nand) left right)
        ts2 f.2
    | none => .ok (left, ts, ctr)
termination_by structural fuel

/-- The implicit-AND loop of `andExpression`: juxtaposition continues
while the next token is a VARIABLE, LPAREN or CONSTANT (NOT is **not**
among the checked types). -/
def jsImplicitLoop (fuel : Nat) (left : JSAst) (ts : List JSToken)
    (ctr : Nat) : Except JSParseError (JSAst × List JSToken × Nat) :=
  match fuel with
  | 0 => .error ⟨"parser out of fuel", jsPeekTok ts⟩
  | fuel + 1 =>
    if jsCheckTok ts .VARIABLE ∨ jsCheckTok ts .LPAREN ∨
        jsCheckTok ts .CONSTANT then do
      let (right, ts1, c1) ← jsUnaryExpr fuel ts ctr
      let f := jsFresh c1
      jsImplicitLoop fuel (.binNode f.1 .and left right) ts1 f.2
    else .ok (left, ts, ctr)
termination_by structural fuel

/-- Method `unary`: prefix NOT, else postfix. -/
def jsUnaryExpr (fuel : Nat) (ts : List JSToken) (ctr : Nat) :
    Except JSParseError (JSAst × List JSToken × Nat) :=
  match fuel with
  | 0 => .error ⟨"parser out of fuel", jsPeekTok ts⟩
  | fuel + 1 =>
    match jsMatchTok ts [.NOT] with
    | some (_, ts1) => do
      let (operand, ts2, c2) ← jsUnaryExpr fuel ts1 ctr
      let f := jsFresh c2
      .ok (.notNode f.1 operand, ts2, f.2)
    | none => jsPostfixExpr fuel ts ctr
termination_by structural fuel

/-- Method `postfix`: a primary followed by the apostrophe loop. -/
def jsPostfixExpr (fuel : Nat) (ts : List JSToken) (ctr : Nat) :
    Except JSParseError (JSAst × List JSToken × Nat) :=
  match fuel with
  | 0 => .error ⟨"parser out of fuel", jsPeekTok ts⟩
  | fuel + 1 => do
    let (node, ts1, c1) ← jsPrimaryExpr fuel ts ctr
    .ok (jsApostropheLoop ts1 node c1)
termination_by structural fuel

/-- Method `primary`: constant, variable, or parenthesized expression. -/
def jsPrimaryExpr (fuel : Nat) (ts : List JSToken) (ctr : Nat) :
    Except JSParseError (JSAst × List JSToken × Nat) :=
  match fuel with
  | 0 => .error ⟨"parser out of fuel", jsPeekTok ts⟩
  | fuel + 1 =>
    match jsMatchTok ts [.CONSTANT] with
    | some (t, ts1) =>
      let v := match t.value with | .num n => n | .str _ => 0
      let f := jsFresh ctr
      .ok (.constantNode f.1 (if v ≠ 0 then 1 else 0), ts1, f.2)
    | none =>
      match jsMatchTok ts [.VARIABLE] with
      | some (t, ts1) =>
        let name := match t.value with | .str s => s | .num n => toString n
        let f := jsFresh ctr
        .ok (.variableNode f.1 name, ts1, f.2)
      | none =>
        match jsMatchTok ts [.LPAREN] with
        | some (_, ts1) => do
          let (expr, ts2, c2) ← jsOrExpr fuel ts1 ctr
          match jsMatchTok ts2 [.RPAREN] with
          | some (_, ts3) => .ok (expr, ts3, c2)
          | none =>
            .error ⟨"Expected \x27)\x27 after expression", jsPeekTok ts2⟩
        | none =>
          .error ⟨"Expected variable, constant, or \x27(\x27 but found \x27" ++
            (jsPeekTok ts).value.render ++ "\x27", jsPeekTok ts⟩
termination_by structural fuel

end

/-- Method `parse` of the JS `Parser`: `ASTNode.resetIds()` (the id
counter restarts at 0 whatever its prior value `ctr`), parse an
expression, and reject unconsumed tokens. -/
def jsParse (tokens : List JSToken) (ctr : Nat) : Except JSParseError JSAst :=
  let _ := ctr
  match jsOrExpr (3 * tokens.length + 8) tokens 0 with
  | .ok (ast, ts, _) =>
    if !(jsAtEnd ts) then
      .error ⟨"Unexpected token \x27" ++ (jsPeekTok ts).value.render ++
        "\x27 after expression", jsPeekTok ts⟩
    else .ok ast
  | .error e => .error e

/-- Result record of the server `processExpression` (tokens and AST
omitted from the compared surface; `statistics` are constant zeros). -/
structure ProcessResult where
  expression : String
  vars : List String
  truthTable : ServerTruthTable
  simplification : Option ServerSimplification
deriving DecidableEq, Repr

/-- Function `processExpression` (`server/src/logic/index.js`): lex,
parse, tabulate, and simplify only when at most 6 variables occur. -/
def processExpression (expression : String) :
    Except (JSLexError ⊕ JSParseError) ProcessResult :=
  do
    let tokens ← (jsTokenize expression).mapError Sum.inl
    let ast ← (jsParse tokens 0).mapError Sum.inr
    let vars := ast.sortedVariables
    let truthTable := serverGenerateTruthTable ast (some vars)
    let simplification :=
      if vars.length ≤ 6 then some (serverSimplifyExpression truthTable)
      else none
    pure ⟨expression, vars, truthTable, simplification⟩

/-! ## The TypeScript lexer (`src/engine/parser/lexer.ts`)

`TOKEN_PATTERNS` is an ordered list of anchored regexes; `nextToken` takes
the first match.  Each pattern is embedded below in the same order;
`normalizeValue` uppercases variables and canonicalizes literals. -/

/-- Token types of the TS lexer. -/
inductive TSTokenType where
  | VARIABLE | LITERAL | AND | OR | XOR | NAND | NOR | XNOR | NOT
  | LPAREN | RPAREN | EOF
deriving DecidableEq, Repr

/-- The TS `Token`. -/
structure TSToken where
  type : TSTokenType
  value : String
  position : Nat
  length : Nat
deriving DecidableEq, Repr

/-- The TS `ParseError` shape, shared by lexer and parser failures. -/
structure TSParseError where
  message : String
  position : Nat
  length : Nat
  suggestion : Option String
deriving DecidableEq, Repr

/-- Case-insensitive prefix test (regex `^kw` with flag `i`). -/
def startsWithCI : List Char → List Char → Bool
  | [], _ => true
  | _ :: _, [] => false
  | k :: ks, c :: cs => k.toLower == c.toLower && startsWithCI ks cs

/-- Word boundary after the first `n` characters (regex `\b`, and also the
negative lookahead `(?![a-zA-Z0-9_])`). -/
def hasWordBoundaryAfter (n : Nat) (s : List Char) : Bool :=
  match s.drop n with
  | [] => true
  | d :: _ => !(isWordChar d)

/-- Keyword regex `^kw\b` with flag `i`. -/
def matchKeyword (kw : List Char) (s : List Char) : Bool :=
  startsWithCI kw s && hasWordBoundaryAfter kw.length s

/-- Method `getSuggestion`: advisory hints for common mistakes. -/
def tsSuggestion (c : Char) : Option String :=
  if c = '[' ∨ c = ']' then some "Use parentheses () instead of brackets []"
  else if c = '\x7b' ∨ c = '\x7d' then
    some "Use parentheses () instead of braces \x7b\x7d"
  else if c = '=' then some "Use AND (&), OR (|), or XOR (^) operators"
  else if c = '<' then some "Invalid operator. Did you mean NOR (↓)?"
  else if c = '>' then some "Invalid operator. Did you mean NAND (↑)?"
  else if c = '@' ∨ c = '#' ∨ c = '$' then
    some "Unknown symbol. Supported: AND (&), OR (|), NOT (~), XOR (^)"
  else none

/-- JS `.toLowerCase()` on the ASCII inputs at issue. -/
def jsToLowerCase (s : String) : String := ⟨s.data.map Char.toLower⟩

/-- One entry of `TOKEN_PATTERNS`: an anchored regex, embedded as the
length of its match at the head of the input (`none` when it does not
match), together with the produced token type (`none` for skipped
whitespace). -/
structure TokenPattern where
  matchLen : List Char → Option Nat
  type : Option TSTokenType

/-- A single-character class regex (e.g. `^[&∧]`). -/
def charClass1 (p : Char → Bool) (s : List Char) : Option Nat :=
  match s with
  | c :: _ => if p c then some 1 else none
  | [] => none

/-- The ordered `TOKEN_PATTERNS` list of the TS lexer. -/
def TOKEN_PATTERNS : List TokenPattern := [
  ⟨fun s => match s with
    | c :: _ =>
      if isWSChar c then some (s.takeWhile isWSChar).length else none
    | [] => none, none⟩,
  ⟨fun s => if matchKeyword "XNOR".data s then some 4 else none, some .XNOR⟩,
  ⟨fun s => if matchKeyword "NAND".data s then some 4 else none, some .NAND⟩,
  ⟨fun s => if matchKeyword "NOR".data s then some 3 else none, some .NOR⟩,
  ⟨fun s => if matchKeyword "XOR".data s then some 3 else none, some .XOR⟩,
  ⟨fun s => if matchKeyword "AND".data s then some 3 else none, some .AND⟩,
  ⟨fun s => if matchKeyword "OR".data s then some 2 else none, some .OR⟩,
  ⟨fun s => if matchKeyword "NOT".data s then some 3 else none, some .NOT⟩,
  ⟨fun s => match s with
    | c :: _ =>
      if (c = '0' ∨ c = '1') ∧ hasWordBoundaryAfter 1 s then some 1 else none
    | [] => none, some .LITERAL⟩,
  ⟨fun s =>
    if matchKeyword "true".data s then some 4
    else if matchKeyword "false".data s then some 5
    else none, some .LITERAL⟩,
  ⟨fun s => match s with
    | c :: _ =>
      if c.isAlpha then some (s.takeWhile isWordChar).length else none
    | [] => none, some .VARIABLE⟩,
  ⟨charClass1 (fun c => c == '('), some .LPAREN⟩,
  ⟨charClass1 (fun c => c == ')'), some .RPAREN⟩,
  ⟨charClass1 (fun c => c == '&' || c == '∧'), some .AND⟩,
  ⟨fun s => match s with
    | c :: rest =>
      if c == '.' && (match rest with | [] => true | d :: _ => !d.isDigit)
      then some 1 else none
    | [] => none, some .AND⟩,
  ⟨charClass1 (fun c => c == '*'), some .AND⟩,
  ⟨charClass1 (fun c => c == '|' || c == '∨'), some .OR⟩,
  ⟨charClass1 (fun c => c == '+'), some .OR⟩,
  ⟨charClass1 (fun c => c == '~' || c == '!' || c == '¬'), some .NOT⟩,
  ⟨charClass1 (fun c => c == '\x27'), some .NOT⟩,
  ⟨charClass1 (fun c => c == '^' || c == '⊕'), some .XOR⟩,
  ⟨charClass1 (fun c => c == '↑'), some .NAND⟩,
  ⟨charClass1 (fun c => c == '↓'), some .NOR⟩,
  ⟨charClass1 (fun c => c == '⊙' || c == '↔'), some .XNOR⟩]

/-- Method `normalizeValue`: uppercase variables, canonicalize literals to
"0"/"1", leave everything else as matched. -/
def normalizeValue (ty : TSTokenType) (value : String) : String :=
  match ty with
  | .VARIABLE => jsToUpperCase value
  | .LITERAL =>
    if jsToLowerCase value = "true" ∨ jsToLowerCase value = "1" then "1"
    else "0"
  | _ => value

/-- The pattern loop of method `nextToken`: first matching pattern wins;
no match is the lexical error. -/
def tsNextTokenAux :
    List TokenPattern → List Char → Nat →
      Except TSParseError (Option TSToken × Nat)
  | [], s, pos =>
    .error ⟨"Unexpected character: \x27" ++ String.mk (s.take 1) ++ "\x27",
      pos, 1, match s with | c :: _ => tsSuggestion c | [] => none⟩
  | p :: ps, s, pos =>
    match p.matchLen s with
    | some len =>
      match p.type with
      | none => .ok (none, len)
      | some ty =>
        .ok (some ⟨ty, normalizeValue ty ⟨s.take len⟩, pos, len⟩, len)
    | none => tsNextTokenAux ps s pos

/-- Method `nextToken`. -/
def tsNextToken (s : List Char) (pos : Nat) :
    Except TSParseError (Option TSToken × Nat) :=
  tsNextTokenAux TOKEN_PATTERNS s pos

/-- Main loop of the TS `tokenize` (fuel recursion; every pattern matches
at least one character). -/
def tsTokenizeLoop : Nat → List Char → Nat → List TSToken →
    Except TSParseError (List TSToken)
  | 0, _, pos, _ => .error ⟨"lexer out of fuel", pos, 0, none⟩
  | _ + 1, [], pos, toks => .ok (toks ++ [⟨.EOF, "", pos, 0⟩])
  | fuel + 1, c :: cs, pos, toks =>
    match tsNextToken (c :: cs) pos with
    | .ok (some tok, len) =>
      tsTokenizeLoop fuel ((c :: cs).drop len) (pos + len) (toks ++ [tok])
    | .ok (none, len) =>
      tsTokenizeLoop fuel ((c :: cs).drop len) (pos + len) toks
    | .error e => .error e

/-- Function `tokenize` of the TS lexer. -/
def tsTokenize (input : String) : Except TSParseError (List TSToken) :=
  tsTokenizeLoop (input.length + 1) input.data 0 []

/-! ## The TypeScript parser (`part_001`, class `Parser`)

Produces the id-free `CoreAST`; ids are reattached by `assignIds` (the
parser calls `nanoid(8)` once per node constructed, and nodes are
constructed children-first, left to right — post-order — so the k-th
construction receives the k-th draw of the id stream). -/

/-- Method `peek` of the TS parser. -/
def tsPeek (ts : List TSToken) : TSToken := ts.headD ⟨.EOF, "", 0, 0⟩

/-- Method `isAtEnd` of the TS parser. -/
def tsAtEnd (ts : List TSToken) : Bool := (tsPeek ts).type == .EOF

/-- Method `check` of the TS parser. -/
def tsCheck (ts : List TSToken) (ty : TSTokenType) : Bool :=
  !(tsAtEnd ts) && ((tsPeek ts).type == ty)

/-- Method `match` of the TS parser. -/
def tsMatch (ts : List TSToken) (types : List TSTokenType) :
    Option (TSToken × List TSToken) :=
  if types.any (fun ty => tsCheck ts ty) then some (tsPeek ts, ts.tail)
  else none

/-- Postfix-prime loop of `parseUnary`: `while (check(NOT) &&
peek().value === "'")`. -/
def tsPostLoop : List TSToken → CoreAST → CoreAST × List TSToken
  | [], node => (node, [])
  | t :: rest, node =>
    if t.type == TSTokenType.NOT ∧ t.value == "\x27" then
      tsPostLoop rest (.notN node)
    else (node, t :: rest)

mutual

/-- Method `parseExpression`: the OR/NOR level. -/
def tsParseExpression : Nat → List TSToken →
    Except TSParseError (CoreAST × List TSToken)
  | 0, ts => .error ⟨"parser out of fuel", (tsPeek ts).position, 0, none⟩
  | fuel + 1, ts => do
    let (left, ts1) ← tsParseTerm fuel ts
    tsOrLoop fuel left ts1

/-- The `while (match(OR, NOR))` loop. -/
def tsOrLoop : Nat → CoreAST → List TSToken →
    Except TSParseError (CoreAST × List TSToken)
  | 0, _, ts => .error ⟨"parser out of fuel", (tsPeek ts).position, 0, none⟩
  | fuel + 1, left, ts =>
    match tsMatch ts [.OR, .NOR] with
    | some (op, ts1) => do
      let (right, ts2) ← tsParseTerm fuel ts1
      tsOrLoop fuel (.bin (if op.type == .OR then .or else .nor) left right)
        ts2
    | none => .ok (left, ts)

/-- Method `parseTerm`: the XOR/XNOR level. -/
def tsParseTerm : Nat → List TSToken →
    Except TSParseError (CoreAST × List TSToken)
  | 0, ts => .error ⟨"parser out of fuel", (tsPeek ts).position, 0, none⟩
  | fuel + 1, ts => do
    let (left, ts1) ← tsParseFactor fuel ts
    tsXorLoop fuel left ts1

/-- The `while (match(XOR, XNOR))` loop. -/
def tsXorLoop : Nat → CoreAST → List TSToken →
    Except TSParseError (CoreAST × List TSToken)
  | 0, _, ts => .error ⟨"parser out of fuel", (tsPeek ts).position, 0, none⟩
  | fuel + 1, left, ts =>
    match tsMatch ts [.XOR, .XNOR] with
    | some (op, ts1) => do
      let (right, ts2) ← tsParseFactor fuel ts1
      tsXorLoop fuel (.bin (if op.type == .XOR then .xor else .xnor) left right)
        ts2
    | none => .ok (left, ts)

/-- Method `parseFactor`: the AND/NAND level — explicit loop, then the
implicit-AND loop (which also fires on NOT and LITERAL). -/
def tsParseFactor : Nat → List TSToken →
    Except TSParseError (CoreAST × List TSToken)
  | 0, ts => .error ⟨"parser out of fuel", (tsPeek ts).position, 0, none⟩
  | fuel + 1, ts => do
    let (left, ts1) ← tsParseUnary fuel ts
    let (left2, ts2) ← tsAndLoop fuel left ts1
    tsImplicitLoop fuel left2 ts2

/-- The `while (match(AND, NAND))` loop. -/
def tsAndLoop : Nat → CoreAST → List TSToken →
    Except TSParseError (CoreAST × List TSToken)
  | 0, _, ts => .error ⟨"parser out of fuel", (tsPeek ts).position, 0, none⟩
  | fuel + 1, left, ts =>
    match tsMatch ts [.AND, .NAND] with
    | some (op, ts1) => do
      let (right, ts2) ← tsParseUnary fuel ts1
      tsAndLoop fuel (.bin (if op.type == .AND then .and else .nand) left right)
        ts2
    | none => .ok (left, ts)

/-- The implicit-AND loop of `parseFactor`: juxtaposition continues while
the next token is a VARIABLE, LPAREN, NOT or LITERAL. -/
def tsImplicitLoop : Nat → CoreAST → List TSToken →
    Except TSParseError (CoreAST × List TSToken)
  | 0, _, ts => .error ⟨"parser out of fuel", (tsPeek ts).position, 0, none⟩
  | fuel + 1, left, ts =>
    if tsCheck ts .VARIABLE ∨ tsCheck ts .LPAREN ∨ tsCheck ts .NOT ∨
        tsCheck ts .LITERAL then do
      let (right, ts1) ← tsParseUnary fuel ts
      tsImplicitLoop fuel (.bin .and left right) ts1
    else .ok (left, ts)

/-- Method `parseUnary`: prefix NOT recursion, else a primary with its
postfix primes. -/
def tsParseUnary : Nat → List TSToken →
    Except TSParseError (CoreAST × List TSToken)
  | 0, ts => .error ⟨"parser out of fuel", (tsPeek ts).position, 0, none⟩
  | fuel + 1, ts =>
    match tsMatch ts [.NOT] with
    | some (_, ts1) => do
      let (operand, ts2) ← tsParseUnary fuel ts1
      .ok (.notN operand, ts2)
    | none => do
      let (node, ts1) ← tsParsePrimary fuel ts
      .ok (tsPostLoop ts1 node)

/-- Method `parsePrimary`: literal, variable, or parenthesized
expression. -/
def tsParsePrimary : Nat → List TSToken →
    Except TSParseError (CoreAST × List TSToken)
  | 0, ts => .error ⟨"parser out of fuel", (tsPeek ts).position, 0, none⟩
  | fuel + 1, ts =>
    match tsMatch ts [.LITERAL] with
    | some (t, ts1) => .ok (.lit (t.value == "1"), ts1)
    | none =>
      match tsMatch ts [.VARIABLE] with
      | some (t, ts1) => .ok (.var t.value, ts1)
      | none =>
        match tsMatch ts [.LPAREN] with
        | some (_, ts1) => do
          let (expr, ts2) ← tsParseExpression fuel ts1
          match tsMatch ts2 [.RPAREN] with
          | some (_, ts3) => .ok (expr, ts3)
          | none =>
            .error ⟨"Missing closing parenthesis", (tsPeek ts2).position,
              (tsPeek ts2).length, some "Add a ) to close the parenthesis"⟩
        | none =>
          let t := tsPeek ts
          .error ⟨if t.type == TSTokenType.EOF then "Unexpected end of expression"
            else "Expected variable or value, got: " ++ t.value,
            t.position, t.length, none⟩

end

/-- Occurrences of variable names in a `CoreAST`, left to right (the
parser inserts each VARIABLE token's value into its `variables` set in
this order). -/
def varOccurrences : CoreAST → List String
  | .var n => [n]
  | .lit _ => []
  | .notN o => varOccurrences o
  | .bin _ l r => varOccurrences l ++ varOccurrences r

/-- `Array.from(set).sort()`: insertion-order de-duplication, then
lexicographic sort. -/
def sortDedupStr (l : List String) : List String :=
  sortLe strLe (dedupFirst l)

/-- Fuel supplied by the `parse` entry point (an over-approximation of the
total number of parser calls on a token list: proved sufficient where a
claim needs it). -/
def tsParserFuel (tokens : List TSToken) : Nat := 10 * tokens.length + 10

/-- Method `parse` of the TS `Parser`: empty-input check, tokenize, parse
one expression, reject unconsumed tokens, and return the sorted
de-duplicated variable list alongside the AST. -/
def tsParse (expression : String) :
    Except TSParseError (CoreAST × List String) :=
  if expression.data.all isWSChar then
    .error ⟨"Expression cannot be empty", 0, 0, none⟩
  else do
    let tokens ← tsTokenize expression
    let (ast, ts) ← tsParseExpression (tsParserFuel tokens) tokens
    if !(tsAtEnd ts) then
      .error ⟨"Unexpected token: " ++ (tsPeek ts).value,
        (tsPeek ts).position, (tsPeek ts).length, none⟩
    else .ok (ast, sortDedupStr (varOccurrences ast))

/-! ## The printer `astToString` and node ids -/

/-- Operand test of the NOT case of `astToString`: parens unless the
operand is a variable or a literal. -/
def isComplexOperand : CoreAST → Bool
  | .var _ => false
  | .lit _ => false
  | _ => true

/-- Function `getOperatorSymbol`. -/
def opSymbol : BinKind → String
  | .and => "∧"
  | .or => "∨"
  | .xor => "⊕"
  | .nand => "↑"
  | .nor => "↓"
  | .xnor => "⊙"

/-- Function `astToString`: infix rendering with every binary node
parenthesized. -/
def astToString : CoreAST → String
  | .var n => n
  | .lit v => if v then "1" else "0"
  | .notN o =>
    if isComplexOperand o then "~(" ++ astToString o ++ ")"
    else "~" ++ astToString o
  | .bin k l r =>
    "(" ++ astToString l ++ " " ++ opSymbol k ++ " " ++ astToString r ++ ")"

/-- The TS AST with its `id` field (`ASTNode` union of `types.ts`). -/
inductive TSAst where
  | var (name : String) (id : String)
  | lit (value : Bool) (id : String)
  | notN (operand : TSAst) (id : String)
  | bin (kind : BinKind) (left right : TSAst) (id : String)
deriving DecidableEq, Repr

/-- Post-order id assignment: node constructions happen children-first,
left to right, each drawing the next value of the nanoid stream
`supply`. -/
def assignIds (supply : Nat → String) : CoreAST → Nat → TSAst × Nat
  | .var n, k => (.var n (supply k), k + 1)
  | .lit v, k => (.lit v (supply k), k + 1)
  | .notN o, k =>
    let r := assignIds supply o k
    (.notN r.1 (supply r.2), r.2 + 1)
  | .bin kd l r, k =>
    let rl := assignIds supply l k
    let rr := assignIds supply r rl.2
    (.bin kd rl.1 rr.1 (supply rr.2), rr.2 + 1)

/-- Parsing with node ids: the id-free parse followed by the post-order
draws from the nanoid stream active at this invocation. -/
def tsParseWithIds (supply : Nat → String) (expression : String) :
    Except TSParseError (TSAst × List String) :=
  (tsParse expression).map (fun r => ((assignIds supply r.1 0).1, r.2))

/-- Forgetting the ids again. -/
def eraseIds : TSAst → CoreAST
  | .var n _ => .var n
  | .lit v _ => .lit v
  | .notN o _ => .notN (eraseIds o)
  | .bin k l r _ => .bin k (eraseIds l) (eraseIds r)

/-! ## Verification predicates for the render/re-parse round trip

Specification-side notions: the identifier shape every VARIABLE token
value produced by the TS lexer has (`goodName`), the ASTs all of whose
variable names have that shape (`wfNames`), the type/value skeleton of
the token stream a rendered AST re-tokenizes to (`utoks`), agreement of a
concrete token list with such a skeleton up to positions (`Shaped`), and
a node count (`nsize`) for fuel bookkeeping. -/

/-- The shape of a lexed variable identifier: non-empty, starting with a
letter, all word characters, already uppercased, and not
(case-insensitively) a keyword or boolean literal name. -/
def goodName (n : String) : Bool :=
  match n.data with
  | [] => false
  | c :: cs =>
    c.isAlpha && (c :: cs).all isWordChar && (jsToUpperCase n == n) &&
    !(jsToLowerCase n == "xnor" || jsToLowerCase n == "nand" ||
      jsToLowerCase n == "nor" || jsToLowerCase n == "xor" ||
      jsToLowerCase n == "and" || jsToLowerCase n == "or" ||
      jsToLowerCase n == "not" || jsToLowerCase n == "true" ||
      jsToLowerCase n == "false")

/-- Every variable name of the AST is a lexed identifier shape. -/
def wfNames : CoreAST → Bool
  | .var n => goodName n
  | .lit _ => true
  | .notN o => wfNames o
  | .bin _ l r => wfNames l && wfNames r

/-- Node count. -/
def nsize : CoreAST → Nat
  | .var _ => 1
  | .lit _ => 1
  | .notN o => nsize o + 1
  | .bin _ l r => nsize l + nsize r + 1

/-- The token type the lexer assigns to each rendered operator symbol. -/
def opTokType : BinKind → TSTokenType
  | .and => .AND
  | .or => .OR
  | .xor => .XOR
  | .nand => .NAND
  | .nor => .NOR
  | .xnor => .XNOR

/-- Type/value skeleton of the token stream `astToString` re-tokenizes
to. -/
def utoks : CoreAST → List (TSTokenType × String)
  | .var n => [(.VARIABLE, n)]
  | .lit v => [(.LITERAL, if v then "1" else "0")]
  | .notN o =>
    if isComplexOperand o then
      (.NOT, "~") :: (.LPAREN, "(") :: (utoks o ++ [(.RPAREN, ")")])
    else (.NOT, "~") :: utoks o
  | .bin k l r =>
    (.LPAREN, "(") ::
      (utoks l ++ (opTokType k, opSymbol k) ::
        (utoks r ++ [(.RPAREN, ")")]))

/-- A concrete token list matches a skeleton when types and values agree
pointwise (positions are irrelevant to the parser's accepting runs). -/
def Shaped : List TSToken → List (TSTokenType × String) → Prop
  | [], [] => True
  | tok :: ts, p :: ps => tok.type = p.1 ∧ tok.value = p.2 ∧ Shaped ts ps
  | _, _ => False

/-- Token lists whose VARIABLE tokens all carry lexed identifier
shapes. -/
def TokGood (ts : List TSToken) : Prop :=
  ∀ tok ∈ ts, tok.type = .VARIABLE → goodName tok.value = true

/-- Continuation tokens at which a unary parse stops cleanly: closing
parenthesis, end of input, or any binary operator. -/
def stopU (ty : TSTokenType) : Prop :=
  ty = .RPAREN ∨ ty = .EOF ∨ ty = .OR ∨ ty = .NOR ∨ ty = .XOR ∨
  ty = .XNOR ∨ ty = .AND ∨ ty = .NAND

/-- Continuation tokens at which the AND level stops cleanly. -/
def stopF (ty : TSTokenType) : Prop :=
  ty = .RPAREN ∨ ty = .EOF ∨ ty = .OR ∨ ty = .NOR ∨ ty = .XOR ∨
  ty = .XNOR

/-- Continuation tokens at which the XOR level stops cleanly. -/
def stopT (ty : TSTokenType) : Prop :=
  ty = .RPAREN ∨ ty = .EOF ∨ ty = .OR ∨ ty = .NOR

/-- Continuation tokens at which the OR level stops cleanly. -/
def stopE (ty : TSTokenType) : Prop :=
  ty = .RPAREN ∨ ty = .EOF

/-- Stop predicates applied to the next unconsumed token (the default
peek of an empty stream is an EOF token, which always stops). -/
def StopU (ts : List TSToken) : Prop := stopU (tsPeek ts).type

/-- `stopF` at the next unconsumed token. -/
def StopF (ts : List TSToken) : Prop := stopF (tsPeek ts).type

/-- `stopT` at the next unconsumed token. -/
def StopT (ts : List TSToken) : Prop := stopT (tsPeek ts).type

/-- `stopE` at the next unconsumed token. -/
def StopE (ts : List TSToken) : Prop := stopE (tsPeek ts).type

/-! ## Verification predicates for the Quine-McCluskey development

These are specification-side notions (not part of the program): the
invariant every implicant manipulated by `quineMcCluskey` maintains, the
dash count driving the combination rounds, and the invariant of one
round's accumulator. -/

/-- An implicant over `n` variables and source minterm list `M`: pattern of
length `n` over `{0,1,-}` whose minterm list lists exactly the covered
inputs, all drawn from `M`. -/
def WfImp (n : Nat) (M : List Nat) (imp : Implicant) : Prop :=
  imp.binary.length = n ∧
  (∀ c ∈ imp.binary, c = '0' ∨ c = '1' ∨ c = '-') ∧
  (∀ x ∈ imp.minterms, x ∈ M) ∧
  (∀ m, m < 2 ^ n → (imp.covers m n = true ↔ m ∈ imp.minterms))

/-- Number of dash positions of a pattern (grows by one per combination
round). -/
def dashCount (imp : Implicant) : Nat :=
  (imp.binary.filter (fun c => c = '-')).length

/-- Invariant of the accumulator of `qmRound`'s nested folds over a source
list `src`: every collected implicant is a combination of two source
implicants, and every implicant marked used is covered by some collected
one. -/
def RoundInv (n : Nat) (src : List Implicant)
    (acc : List Implicant × List Implicant) : Prop :=
  (∀ ni ∈ acc.1, ∃ imp1 imp2 d, imp1 ∈ src ∧ imp2 ∈ src ∧
    imp1.canCombineWith imp2 = some d ∧ ni = imp1.combineWith imp2 d) ∧
  (∀ u ∈ acc.2, ∃ ni ∈ acc.1, ∀ m, m < 2 ^ n →
    u.covers m n = true → ni.covers m n = true)

/-! # Theorems

## Binary-string basics -/

/-- Continuations a rendered chunk can be followed by: a space, a closing
parenthesis, or the end of the input. -/
def ChunkRest (rest : List Char) : Prop :=
  rest = [] ∨ ∃ d ds, rest = d :: ds ∧ (d = ' ' ∨ d = ')')

/-- Length of the closed form. -/
theorem bitChars_length (m n : Nat) : (bitChars m n).length = n := by
  simp [bitChars]

/-- All-zero rendering of 0. -/
theorem bitChars_zero_left (n : Nat) :
    bitChars 0 n = List.replicate n '0' := by
  simp [bitChars, Nat.zero_testBit, List.map_const']

/-- The digit recursion ignores its fuel once sufficient. -/
theorem natBinDigitsGo_congr :
    ∀ (f1 m : Nat), m ≤ f1 → ∀ f2, m ≤ f2 →
      natBinDigitsGo f1 m = natBinDigitsGo f2 m := by
  intro f1
  induction f1 with
  | zero =>
    intro m h f2 h2
    have hm : m = 0 := by omega
    subst hm
    cases f2 with
    | zero => rfl
    | succ f => simp [natBinDigitsGo]
  | succ f ih =>
    intro m h f2 h2
    cases f2 with
    | zero =>
      have hm : m = 0 := by omega
      subst hm
      simp [natBinDigitsGo]
    | succ f2p =>
      simp only [natBinDigitsGo]
      by_cases hm : m = 0
      · simp [hm]
      · rw [if_neg hm, if_neg hm,
          ih (m / 2) (by omega) f2p (by omega)]

/-- Base unfolding of the digit recursion. -/
theorem natBinDigitsAux_zero : natBinDigitsAux 0 = [] := by
  rfl

/-- Step unfolding of the digit recursion. -/
theorem natBinDigitsAux_ne (m : Nat) (h : m ≠ 0) :
    natBinDigitsAux m =
      natBinDigitsAux (m / 2) ++ [if m % 2 = 1 then '1' else '0'] := by
  unfold natBinDigitsAux
  obtain ⟨f, rfl⟩ : ∃ f, m = f + 1 := ⟨m - 1, by omega⟩
  simp only [natBinDigitsGo, if_neg h]
  rw [natBinDigitsGo_congr f ((f + 1) / 2) (by omega) ((f + 1) / 2)
    (le_refl _)]

/-- One digit for 1. -/
theorem natBinDigitsAux_one : natBinDigitsAux 1 = ['1'] := by
  rw [natBinDigitsAux_ne 1 (by omega)]
  norm_num [natBinDigitsAux_zero]

/-- Peeling the least significant bit off the closed form. -/
theorem bitChars_succ (m n : Nat) :
    bitChars m (n + 1) =
      bitChars (m / 2) n ++ [if m % 2 = 1 then '1' else '0'] := by
  simp only [bitChars, List.range_succ, List.map_append, List.map_cons,
    List.map_nil]
  congr 1
  · apply List.map_congr_left
    intro i hi
    simp only [List.mem_range] at hi
    have h1 : n + 1 - 1 - i = (n - 1 - i) + 1 := by omega
    rw [h1, Nat.testBit_add_one]
  · have h0 : n + 1 - 1 - n = 0 := by omega
    rw [h0, Nat.testBit_zero]
    by_cases h : m % 2 = 1 <;> simp [h]

/-- For `m < 2^n` (and `n > 0`) the padded JS rendering agrees with the
closed form. -/
theorem toBinary_eq_bitChars (n : Nat) :
    ∀ m, 0 < n → m < 2 ^ n → toBinary m n = bitChars m n := by
  induction n with
  | zero => intro m h; omega
  | succ n ih =>
    intro m _ hm
    by_cases hm0 : m = 0
    · subst hm0
      rw [toBinary, show natToString2 0 = ['0'] from by simp [natToString2],
        padStart, bitChars_zero_left]
      simp only [List.length_singleton]
      rw [show n + 1 - 1 = n by omega, List.replicate_succ']
    · by_cases hm1 : m = 1
      · subst hm1
        rw [toBinary,
          show natToString2 1 = ['1'] from by
            simp [natToString2, natBinDigitsAux_one],
          padStart, bitChars_succ,
          show (1 : Nat) / 2 = 0 by omega, bitChars_zero_left]
        simp only [List.length_singleton]
        rw [show n + 1 - 1 = n by omega]
        norm_num
      · have hd0 : m / 2 ≠ 0 := by omega
        have hn0 : 0 < n := by
          rcases Nat.eq_zero_or_pos n with h | h
          · exfalso; subst h; simp at hm; omega
          · exact h
        have hdiv : m / 2 < 2 ^ n := by
          have h2 : m < 2 ^ n * 2 := by rw [← pow_succ]; exact hm
          omega
        have hkey : toBinary m (n + 1) =
            toBinary (m / 2) n ++ [if m % 2 = 1 then '1' else '0'] := by
          rw [toBinary, toBinary,
            show natToString2 m =
                natToString2 (m / 2) ++ [if m % 2 = 1 then '1' else '0'] from by
              rw [show natToString2 (m / 2) = natBinDigitsAux (m / 2) from by
                simp [natToString2, hd0]]
              simp [natToString2, hm0, natBinDigitsAux_ne m hm0],
            padStart, padStart, List.length_append, List.length_singleton]
          rw [show n + 1 - ((natToString2 (m / 2)).length + 1) =
              n - (natToString2 (m / 2)).length by omega,
            ← List.append_assoc]
        rw [hkey, bitChars_succ, ih (m / 2) hn0 hdiv]

/-- Element access into the closed form. -/
theorem bitChars_getD (m n i : Nat) (hi : i < n) :
    (bitChars m n).getD i ' ' =
      (if m.testBit (n - 1 - i) then '1' else '0') := by
  simp [bitChars, List.getD_eq_getElem?_getD, List.getElem?_map,
    List.getElem?_range, hi]

/-- `n`-bit renderings are injective below `2^n`. -/
theorem bitChars_inj {m x n : Nat} (hm : m < 2 ^ n) (hx : x < 2 ^ n)
    (h : bitChars m n = bitChars x n) : m = x := by
  apply Nat.eq_of_testBit_eq
  intro j
  by_cases hj : j < n
  · have hget := congrArg (fun l => l.getD (n - 1 - j) ' ') h
    simp only at hget
    rw [bitChars_getD m n _ (by omega), bitChars_getD x n _ (by omega)] at hget
    have harith : n - 1 - (n - 1 - j) = j := by omega
    rw [harith] at hget
    by_cases hb : m.testBit j <;> by_cases hc : x.testBit j <;>
      simp [hb, hc] at hget ⊢
  · have h1 : m.testBit j = false :=
      Nat.testBit_lt_two_pow
        (lt_of_lt_of_le hm (Nat.pow_le_pow_right (by omega) (by omega)))
    have h2 : x.testBit j = false :=
      Nat.testBit_lt_two_pow
        (lt_of_lt_of_le hx (Nat.pow_le_pow_right (by omega) (by omega)))
    rw [h1, h2]

/-- Bits of a multiple of a power of two. -/
theorem testBit_two_pow_mul (n a j : Nat) :
    (2 ^ n * a).testBit j = (decide (j ≥ n) && a.testBit (j - n)) := by
  rw [show 2 ^ n * a = a <<< n from by rw [Nat.shiftLeft_eq]; ring]
  exact Nat.testBit_shiftLeft a

/-- Bitwise-or of a multiple of `2^n` with something below `2^n` is plain
addition. -/
theorem two_pow_mul_lor_eq_add (n a b : Nat) (hb : b < 2 ^ n) :
    (2 ^ n * a) ||| b = 2 ^ n * a + b := by
  apply Nat.eq_of_testBit_eq
  intro j
  rw [Nat.testBit_lor]
  by_cases hj : j < n
  · have h1 : (2 ^ n * a + b) % 2 ^ n = b := by
      rw [Nat.add_comm, Nat.mul_comm, Nat.add_mul_mod_self_right]
      exact Nat.mod_eq_of_lt hb
    have h2 : b.testBit j = (2 ^ n * a + b).testBit j := by
      have h3 := Nat.testBit_mod_two_pow (2 ^ n * a + b) n j
      rw [h1] at h3
      simpa [hj] using h3
    rw [← h2, testBit_two_pow_mul]
    simp [Nat.not_le.mpr hj]
  · have hbj : b.testBit j = false :=
      Nat.testBit_lt_two_pow
        (lt_of_lt_of_le hb (Nat.pow_le_pow_right (by omega) (by omega)))
    have hdiv : (2 ^ n * a + b) / 2 ^ j = a / 2 ^ (j - n) := by
      have hsplit : (2 : Nat) ^ j = 2 ^ n * 2 ^ (j - n) := by
        rw [← pow_add]
        congr 1
        omega
      rw [hsplit, ← Nat.div_div_eq_div_mul,
        Nat.mul_add_div (Nat.two_pow_pos n), Nat.div_eq_of_lt hb,
        Nat.add_zero]
    rw [testBit_two_pow_mul, hbj, Bool.or_false]
    conv_rhs => rw [Nat.testBit_to_div_mod]
    rw [hdiv, ← Nat.testBit_to_div_mod]
    simp [Nat.le_of_not_lt hj]

/-- Or-ing in bit `k` below a number whose low `k+1` bits are clear is
plain addition. -/
theorem lor_two_pow_of_mod (a k : Nat) (h : a % 2 ^ (k + 1) = 0) :
    a ||| 2 ^ k = a + 2 ^ k := by
  obtain ⟨q, hq⟩ := Nat.dvd_of_mod_eq_zero h
  subst hq
  exact two_pow_mul_lor_eq_add (k + 1) q (2 ^ k)
    (Nat.pow_lt_pow_right (by omega) (by omega))

/-- Fold congruence along the list elements. -/
theorem foldl_congr_mem {α β : Type} {l : List β} {f g : α → β → α}
    (h : ∀ acc x, x ∈ l → f acc x = g acc x) :
    ∀ a, l.foldl f a = l.foldl g a := by
  induction l with
  | nil => intro a; rfl
  | cons x xs ih =>
    intro a
    simp only [List.foldl_cons]
    rw [h a x (by simp)]
    exact ih (fun acc y hy => h acc y (by simp [hy])) _

/-- The or-accumulation of `getMintermNumber` reconstructs the number from
its bits (MSB first), on top of any accumulator with clear low bits. -/
theorem foldRange_or_bits :
    ∀ (n i acc : Nat), i < 2 ^ n → acc % 2 ^ n = 0 →
      (List.range n).foldl
        (fun a k =>
          if i.testBit (n - 1 - k) then a ||| (1 <<< (n - 1 - k)) else a)
        acc = acc + i := by
  intro n
  induction n with
  | zero =>
    intro i acc hi _
    interval_cases i
    simp
  | succ n ih =>
    intro i acc hi hacc
    rw [List.range_succ_eq_map, List.foldl_cons, List.foldl_map]
    have hone : (1 : Nat) <<< n = 2 ^ n := by
      rw [Nat.shiftLeft_eq, one_mul]
    have hmodn : acc % 2 ^ n = 0 := by
      have hdvd : (2 : Nat) ^ n ∣ acc :=
        dvd_trans (pow_dvd_pow 2 (by omega)) (Nat.dvd_of_mod_eq_zero hacc)
      exact Nat.mod_eq_zero_of_dvd hdvd
    set acc1 := if i.testBit (n + 1 - 1 - 0) then acc ||| 1 <<< (n + 1 - 1 - 0)
      else acc with hacc1
    have hsimp0 : n + 1 - 1 - 0 = n := by omega
    have hacc1eq : acc1 = acc + (if i.testBit n then 2 ^ n else 0) := by
      rw [hacc1, hsimp0, hone]
      by_cases hb : i.testBit n
      · simp only [hb, if_true]
        exact lor_two_pow_of_mod acc n hacc
      · simp [hb]
    have hrw : ∀ (a k : Nat), k ∈ List.range n →
        (if i.testBit (n + 1 - 1 - (k + 1)) then
          a ||| 1 <<< (n + 1 - 1 - (k + 1)) else a) =
        (if (i % 2 ^ n).testBit (n - 1 - k) then
          a ||| 1 <<< (n - 1 - k) else a) := by
      intro a k hk
      simp only [List.mem_range] at hk
      have h1 : n + 1 - 1 - (k + 1) = n - 1 - k := by omega
      have h2 : (i % 2 ^ n).testBit (n - 1 - k) = i.testBit (n - 1 - k) := by
        rw [Nat.testBit_mod_two_pow]
        simp [show n - 1 - k < n by omega]
      rw [h1, h2]
    rw [foldl_congr_mem (fun a k hk => hrw a k hk)]
    rw [ih (i % 2 ^ n) acc1 (Nat.mod_lt _ (Nat.two_pow_pos n)) ?hmod]
    case hmod =>
      rw [hacc1eq]
      by_cases hb : i.testBit n <;> simp [hb, Nat.add_mod_right, hmodn]
    have hdm := Nat.div_add_mod i (2 ^ n)
    have hlt2 : i / 2 ^ n < 2 := by
      have h3 : i < 2 ^ n * 2 := by rw [← pow_succ]; exact hi
      exact Nat.div_lt_of_lt_mul h3
    have htb : i.testBit n = decide (i / 2 ^ n % 2 = 1) :=
      Nat.testBit_to_div_mod
    have hiftb : (if i.testBit n then 2 ^ n else 0) = 2 ^ n * (i / 2 ^ n) := by
      have h01 : i / 2 ^ n = 0 ∨ i / 2 ^ n = 1 := by
        cases hq : i / 2 ^ n with
        | zero => exact Or.inl rfl
        | succ k =>
          rw [hq] at hlt2
          omega
      rcases h01 with h | h <;> rw [htb, h] <;> simp
    rw [hacc1eq, hiftb]
    omega

/-! ## Association lists and `mapM` -/

/-- On an association list with distinct keys, lookup finds the stored
value. -/
theorem lookupBinding_some_of_mem_nodup :
    ∀ (l : List (String × Bool)), (l.map Prod.fst).Nodup →
      ∀ (name : String) (v : Bool), (name, v) ∈ l →
        lookupBinding l name = some v := by
  intro l
  induction l with
  | nil => intro _ name v h; cases h
  | cons p rest ih =>
    intro hnd name v h
    rw [List.map_cons, List.nodup_cons] at hnd
    rw [List.mem_cons] at h
    rcases h with h | h
    · subst h
      have hnone :
          (rest.reverse.find? (fun q => q.1 == name)) = none := by
        rw [List.find?_eq_none]
        intro q hq
        simp only [beq_iff_eq]
        intro hc
        have hq2 : q.1 ∈ rest.map Prod.fst :=
          List.mem_map_of_mem Prod.fst (List.mem_reverse.mp hq)
        rw [hc] at hq2
        exact hnd.1 hq2
      simp [lookupBinding, List.reverse_cons, List.find?_append, hnone]
    · have hres := ih hnd.2 name v h
      simp only [lookupBinding] at hres ⊢
      obtain ⟨q, hq1, hq2⟩ := Option.map_eq_some'.mp hres
      rw [List.reverse_cons, List.find?_append, hq1]
      simp [hq2]

/-- Keys of the generated binding are exactly the variable list. -/
theorem combo_keys (vars : List String) (f : Nat → Bool) :
    ((List.range vars.length).map
      (fun k => (vars.getD k "", f k))).map Prod.fst = vars := by
  rw [List.map_map]
  apply List.ext_getElem
  · simp
  · intro i h1 h2
    simp [List.getElem_map, List.getElem_range, List.getD_eq_getElem?_getD,
      List.getElem?_eq_getElem h2]

/-- Lookup into the generated binding reads off the generating
function. -/
theorem lookupBinding_combo (vars : List String) (hnd : vars.Nodup)
    (f : Nat → Bool) (j : Nat) (hj : j < vars.length) :
    lookupBinding
      ((List.range vars.length).map (fun k => (vars.getD k "", f k)))
      (vars.getD j "") = some (f j) := by
  apply lookupBinding_some_of_mem_nodup
  · rw [combo_keys]; exact hnd
  · exact List.mem_map.mpr ⟨j, by simp [List.mem_range, hj]⟩

/-- A pointwise-ok function maps through `mapM` into `.ok` of the map. -/
theorem mapM_except_ok {α β E : Type} :
    ∀ (l : List α) (f : α → Except E β) (g : α → β),
      (∀ a ∈ l, f a = .ok (g a)) → l.mapM f = .ok (l.map g) := by
  intro l
  induction l with
  | nil => intro f g _; rfl
  | cons a rest ih =>
    intro f g h
    rw [List.mapM_cons, h a (by simp), ih f g (fun x hx => h x (by simp [hx]))]
    rfl

/-- Members of a successful `mapM` image come from members of the
source. -/
theorem mapM_except_mem {α β E : Type} :
    ∀ (l : List α) (f : α → Except E β) (res : List β),
      l.mapM f = .ok res → ∀ b ∈ res, ∃ a ∈ l, f a = .ok b := by
  intro l
  induction l with
  | nil =>
    intro f res h b hb
    simp only [List.mapM_nil] at h
    cases h
    cases hb
  | cons a rest ih =>
    intro f res h b hb
    rw [List.mapM_cons] at h
    cases hfa : f a with
    | error e => rw [hfa] at h; cases h
    | ok b0 =>
      rw [hfa] at h
      cases hrest : rest.mapM f with
      | error e =>
        rw [hrest] at h
        cases h
      | ok bs =>
        rw [hrest] at h
        have hres : res = b0 :: bs := by
          cases h
          rfl
        subst hres
        rcases List.mem_cons.mp hb with h1 | h1
        · exact ⟨a, by simp, h1 ▸ hfa⟩
        · obtain ⟨x, hx1, hx2⟩ := ih f bs hrest b h1
          exact ⟨x, by simp [hx1], hx2⟩

/-- JS `Boolean((i >> k) & 1)` is bit `k`. -/
theorem shift_and_one_testBit (i k : Nat) :
    decide (((i >>> k) &&& 1) ≠ 0) = i.testBit k := by
  rw [Nat.and_one_is_mod, Nat.shiftRight_eq_div_pow, Nat.testBit_to_div_mod]
  rcases Nat.mod_two_eq_zero_or_one (i / 2 ^ k) with h | h <;> simp [h]

/-- Lookup succeeds as soon as some entry carries the key. -/
theorem lookupBinding_isSome (l : List (String × Bool)) (name : String)
    (h : ∃ p ∈ l, p.1 = name) : (lookupBinding l name).isSome := by
  obtain ⟨p, hp, hpe⟩ := h
  have hfind : (l.reverse.find? (fun q => q.1 == name)).isSome :=
    List.find?_isSome.mpr ⟨p, List.mem_reverse.mpr hp, by simp [hpe]⟩
  rw [lookupBinding]
  cases hf : l.reverse.find? (fun q => q.1 == name) with
  | none => rw [hf] at hfind; simp at hfind
  | some q => simp [hf]

/-- `getMintermNumber` inverts `generateCombinations`: row `i`'s binding
maps back to `i`. -/
theorem getMintermNumber_combo (vars : List String) (hnd : vars.Nodup)
    (i : Nat) (hi : i < 2 ^ vars.length) :
    getMintermNumber
      ((List.range vars.length).map
        (fun j =>
          (vars.getD j "",
            decide (((i >>> (vars.length - 1 - j)) &&& 1) ≠ 0))))
      vars = i := by
  unfold getMintermNumber
  rw [foldl_congr_mem (g := fun a k =>
      if i.testBit (vars.length - 1 - k) then
        a ||| (1 <<< (vars.length - 1 - k)) else a)]
  · simpa using foldRange_or_bits vars.length i 0 hi (by simp)
  · intro acc k hk
    simp only [List.mem_range] at hk
    rw [lookupBinding_combo vars hnd _ k hk]
    simp only [Option.getD_some]
    rw [shift_and_one_testBit]

/-- The evaluator succeeds whenever every referenced variable is bound. -/
theorem evaluate_total (ast : CoreAST) :
    ∀ binding : List (String × Bool),
      (∀ name ∈ varOccurrences ast, (lookupBinding binding name).isSome) →
      ∃ b, evaluate ast binding = .ok b := by
  induction ast with
  | var n =>
    intro binding h
    have h1 := h n (by simp [varOccurrences])
    cases hv : lookupBinding binding n with
    | none => rw [hv] at h1; simp at h1
    | some v => exact ⟨v, by simp [evaluate, hv]⟩
  | lit v => intro binding _; exact ⟨v, rfl⟩
  | notN o ih =>
    intro binding h
    obtain ⟨b, hb⟩ := ih binding (fun nm hnm => h nm (by
      simp only [varOccurrences]; exact hnm))
    exact ⟨!b, by simp [evaluate, hb]⟩
  | bin k l r ihl ihr =>
    intro binding h
    obtain ⟨lv, hl⟩ := ihl binding (fun nm hnm => h nm (by
      simp only [varOccurrences, List.mem_append]; exact Or.inl hnm))
    obtain ⟨rv, hr⟩ := ihr binding (fun nm hnm => h nm (by
      simp only [varOccurrences, List.mem_append]; exact Or.inr hnm))
    cases k <;> cases lv <;>
      exact ⟨_, by simp [evaluate, hl, hr, Bind.bind, Except.bind]; rfl⟩

/-- Successful shape of the client `generateTruthTable` under the cap,
with every referenced variable in the (duplicate-free) list. -/
theorem generateTruthTable_ok (ast : CoreAST) (vars : List String)
    (expr : String) (hnd : vars.Nodup) (hlen : vars.length ≤ MAX_VARIABLES)
    (hsub : ∀ name ∈ varOccurrences ast, name ∈ vars) :
    generateTruthTable ast vars expr = .ok
      ⟨vars,
        (generateCombinations vars).map
          (fun inputs =>
            ⟨inputs, (evaluate ast inputs).toOption.getD false,
              getMintermNumber inputs vars,
              2 ^ vars.length - 1 - getMintermNumber inputs vars⟩),
        expr⟩ := by
  have htotal : ∀ inputs ∈ generateCombinations vars,
      evaluate ast inputs = .ok ((evaluate ast inputs).toOption.getD false) := by
    intro inputs hin
    obtain ⟨i, hi, hieq⟩ := List.mem_map.mp hin
    obtain ⟨b, hb⟩ := evaluate_total ast inputs (by
      intro name hname
      obtain ⟨j, hj, hjeq⟩ := List.mem_iff_getElem.mp (hsub name hname)
      rw [← hieq]
      apply lookupBinding_isSome
      refine ⟨(vars.getD j "", decide (((i >>> (vars.length - 1 - j)) &&& 1) ≠ 0)), ?_, ?_⟩
      · exact List.mem_map.mpr ⟨j, by simp [List.mem_range, hj]⟩
      · rw [List.getD_eq_getElem?_getD, List.getElem?_eq_getElem hj,
          Option.getD_some, hjeq])
    rw [hb]
    rfl
  unfold generateTruthTable
  rw [if_neg (by omega)]
  rw [mapM_except_ok (generateCombinations vars) _
    (fun inputs =>
      TruthTableRow.mk inputs ((evaluate ast inputs).toOption.getD false)
        (getMintermNumber inputs vars)
        (2 ^ vars.length - 1 - getMintermNumber inputs vars))
    (by
      intro inputs hin
      show (do
        let output ← evaluate ast inputs
        pure (TruthTableRow.mk inputs output (getMintermNumber inputs vars)
          (2 ^ vars.length - 1 - getMintermNumber inputs vars))) = _
      rw [htotal inputs hin]
      rfl)]
  rfl

/-- A computation known to succeed equals `.ok` of its extracted value. -/
theorem except_ok_toOption {E β : Type} (e : Except E β) (d : β)
    (h : ∃ b, e = .ok b) : e = .ok (e.toOption.getD d) := by
  obtain ⟨b, hb⟩ := h
  rw [hb]
  rfl

/-- Any listed variable is bound in the generated binding. -/
theorem lookup_combo_isSome (vars : List String) (f : Nat → Bool)
    (name : String) (h : name ∈ vars) :
    (lookupBinding
      ((List.range vars.length).map (fun k => (vars.getD k "", f k)))
      name).isSome := by
  obtain ⟨j, hj, hjeq⟩ := List.mem_iff_getElem.mp h
  apply lookupBinding_isSome
  refine ⟨(vars.getD j "", f j),
    List.mem_map.mpr ⟨j, by simp [List.mem_range, hj]⟩, ?_⟩
  rw [List.getD_eq_getElem?_getD, List.getElem?_eq_getElem hj,
    Option.getD_some, hjeq]

/-- C2: for every AST whose variables all occur in the (duplicate-free)
variable list of length at most 8, `generateTruthTable` succeeds with
exactly `2^n` rows; row `i` has `minterm = i`, `maxterm = 2^n - 1 - i`,
binds `variables[j]` to bit `n-1-j` of `i` (bit 0 of the row index being
the most significant, aligned to `variables[0]`), and stores as output
exactly the evaluation of the AST under that binding. -/
theorem truthTable_rows_minterm_order
    (ast : CoreAST) (vars : List String) (expr : String)
    (hnd : vars.Nodup) (hlen : vars.length ≤ 8)
    (hsub : ∀ name ∈ varOccurrences ast, name ∈ vars) :
    ∃ tt, generateTruthTable ast vars expr = .ok tt ∧
      tt.rows.length = 2 ^ vars.length ∧
      ∀ i, i < 2 ^ vars.length →
        (tt.rows.getD i ⟨[], false, 0, 0⟩).minterm = i ∧
        (tt.rows.getD i ⟨[], false, 0, 0⟩).maxterm =
          2 ^ vars.length - 1 - i ∧
        (∀ j, j < vars.length →
          lookupBinding (tt.rows.getD i ⟨[], false, 0, 0⟩).inputs
            (vars.getD j "") =
            some (i.testBit (vars.length - 1 - j))) ∧
        evaluate ast (tt.rows.getD i ⟨[], false, 0, 0⟩).inputs =
          .ok (tt.rows.getD i ⟨[], false, 0, 0⟩).output := by
  refine ⟨_, generateTruthTable_ok ast vars expr hnd hlen hsub, ?_, ?_⟩
  · simp [generateCombinations]
  · intro i hi
    have hrow :
        ((generateCombinations vars).map
          (fun inputs =>
            TruthTableRow.mk inputs ((evaluate ast inputs).toOption.getD false)
              (getMintermNumber inputs vars)
              (2 ^ vars.length - 1 - getMintermNumber inputs vars))).getD i
          ⟨[], false, 0, 0⟩ =
        (fun inputs =>
            TruthTableRow.mk inputs ((evaluate ast inputs).toOption.getD false)
              (getMintermNumber inputs vars)
              (2 ^ vars.length - 1 - getMintermNumber inputs vars))
          ((List.range vars.length).map
            (fun j =>
              (vars.getD j "",
                decide (((i >>> (vars.length - 1 - j)) &&& 1) ≠ 0)))) := by
      simp [generateCombinations, List.map_map, List.getD_eq_getElem?_getD,
        List.getElem?_map, List.getElem?_range, hi]
    rw [hrow]
    simp only
    have hmint := getMintermNumber_combo vars hnd i hi
    refine ⟨hmint, by rw [hmint], ?_, ?_⟩
    · intro j hj
      have hlook := lookupBinding_combo vars hnd
        (fun j => decide (((i >>> (vars.length - 1 - j)) &&& 1) ≠ 0)) j hj
      simp only at hlook
      rw [hlook, shift_and_one_testBit]
    · apply except_ok_toOption
      apply evaluate_total
      intro name hname
      exact lookup_combo_isSome vars _ name (hsub name hname)

/-- Witness for C2 at the two-variable conjunction. -/
theorem truthTable_rows_minterm_order_witness :
    (["A", "B"] : List String).Nodup ∧
    (["A", "B"] : List String).length ≤ 8 ∧
    (∀ name ∈ varOccurrences (CoreAST.bin .and (.var "A") (.var "B")),
      name ∈ (["A", "B"] : List String)) ∧
    (∃ tt, generateTruthTable (CoreAST.bin .and (.var "A") (.var "B"))
        ["A", "B"] "A AND B" = .ok tt ∧
      tt.rows.length = 2 ^ (["A", "B"] : List String).length ∧
      ∀ i, i < 2 ^ (["A", "B"] : List String).length →
        (tt.rows.getD i ⟨[], false, 0, 0⟩).minterm = i ∧
        (tt.rows.getD i ⟨[], false, 0, 0⟩).maxterm =
          2 ^ (["A", "B"] : List String).length - 1 - i ∧
        (∀ j, j < (["A", "B"] : List String).length →
          lookupBinding (tt.rows.getD i ⟨[], false, 0, 0⟩).inputs
            ((["A", "B"] : List String).getD j "") =
            some (i.testBit ((["A", "B"] : List String).length - 1 - j))) ∧
        evaluate (CoreAST.bin .and (.var "A") (.var "B"))
            (tt.rows.getD i ⟨[], false, 0, 0⟩).inputs =
          .ok (tt.rows.getD i ⟨[], false, 0, 0⟩).output) :=
  ⟨by decide, by decide, by decide,
    truthTable_rows_minterm_order (CoreAST.bin .and (.var "A") (.var "B"))
      ["A", "B"] "A AND B" (by decide) (by decide) (by decide)⟩

/-- C9: `getMaxtermNumber` returns exactly `getMintermNumber`'s value — no
complement is applied — even though the generated truth-table rows store
`maxterm = 2^n - 1 - minterm`. -/
theorem getMaxtermNumber_no_complement :
    (∀ (binding : List (String × Bool)) (vars : List String),
      getMaxtermNumber binding vars = getMintermNumber binding vars) ∧
    (∀ (ast : CoreAST) (vars : List String) (expr : String)
        (tt : TruthTable), generateTruthTable ast vars expr = .ok tt →
      ∀ row ∈ tt.rows, row.maxterm = 2 ^ vars.length - 1 - row.minterm) := by
  constructor
  · intro binding vars
    rfl
  · intro ast vars expr tt h row hrow
    unfold generateTruthTable at h
    by_cases hc : vars.length > MAX_VARIABLES
    · rw [if_pos hc] at h
      cases h
    · rw [if_neg hc] at h
      simp only [Bind.bind] at h
      cases hm : (generateCombinations vars).mapM
          (fun inputs =>
            (evaluate ast inputs).bind fun output =>
              pure (TruthTableRow.mk inputs output
                (getMintermNumber inputs vars)
                (2 ^ vars.length - 1 - getMintermNumber inputs vars))) with
      | error e =>
        rw [hm] at h
        simp [Except.bind] at h
      | ok rows =>
        rw [hm] at h
        simp only [Except.bind] at h
        have htt : tt = ⟨vars, rows, expr⟩ := by
          cases h
          rfl
        subst htt
        obtain ⟨inputs, hin, hfi⟩ := mapM_except_mem _ _ _ hm row hrow
        cases he : evaluate ast inputs with
        | error e =>
          rw [he] at hfi
          simp [Except.bind] at hfi
        | ok out =>
          rw [he] at hfi
          simp only [Except.bind] at hfi
          have hrw : TruthTableRow.mk inputs out (getMintermNumber inputs vars)
              (2 ^ vars.length - 1 - getMintermNumber inputs vars) = row := by
            cases hfi
            rfl
          rw [← hrw]

/-- Witness for C9 on the one-variable identity table. -/
theorem getMaxtermNumber_no_complement_witness :
    getMaxtermNumber [("A", true)] ["A"] =
      getMintermNumber [("A", true)] ["A"] ∧
    (generateTruthTable (CoreAST.var "A") ["A"] "A" = .ok
      ⟨["A"],
        [⟨[("A", false)], false, 0, 1⟩, ⟨[("A", true)], true, 1, 0⟩],
        "A"⟩) ∧
    (⟨[("A", false)], false, 0, 1⟩ : TruthTableRow).maxterm =
      2 ^ (["A"] : List String).length - 1 -
        (⟨[("A", false)], false, 0, 1⟩ : TruthTableRow).minterm :=
  ⟨getMaxtermNumber_no_complement.1 [("A", true)] ["A"],
    by rfl,
    getMaxtermNumber_no_complement.2 (CoreAST.var "A") ["A"] "A"
      ⟨["A"],
        [⟨[("A", false)], false, 0, 1⟩, ⟨[("A", true)], true, 1, 0⟩],
        "A"⟩
      (by rfl) ⟨[("A", false)], false, 0, 1⟩ (by decide)⟩

/-! ## Parser behavior: implicit AND, postfix primes, trailing operators -/

/-- C3 counterexample: on the token stream of "A ~B" the client/server JS
parser does **not** synthesize an implicit AND — a NOT token cannot begin
the juxtaposed operand there, and the parse fails with a syntax error
(the claim, as stated for every parser and token stream, predicts
`A AND (NOT B)`). -/
theorem implicitAnd_not_starter_counterexample :
    jsParse
      [⟨.VARIABLE, .str "A", 0⟩, ⟨.NOT, .str "~", 2⟩,
       ⟨.VARIABLE, .str "B", 3⟩, ⟨.EOF, .str "", 4⟩] 0 =
      .error ⟨"Unexpected token \x27~\x27 after expression",
        ⟨.NOT, .str "~", 2⟩⟩ := rfl

/-- C3 (amended): immediately after an AND-tier operand, the TS parser
synthesizes an implicit AND when the next token is a variable, a literal,
a NOT token, or an opening parenthesis (so juxtaposed variables chain
left-associatively and a NOT token may begin the juxtaposed operand);
the client/server JS parser synthesizes it only for a variable, a
constant, or an opening parenthesis — a NOT token there ends the
expression and parsing fails on the unconsumed token. -/
theorem implicitAnd_starters :
    (∀ a b : String,
      tsParseExpression
        (tsParserFuel [⟨.VARIABLE, a, 0, 1⟩, ⟨.VARIABLE, b, 2, 1⟩,
          ⟨.EOF, "", 3, 0⟩])
        [⟨.VARIABLE, a, 0, 1⟩, ⟨.VARIABLE, b, 2, 1⟩, ⟨.EOF, "", 3, 0⟩] =
        .ok (.bin .and (.var a) (.var b), [⟨.EOF, "", 3, 0⟩])) ∧
    (∀ a b : String,
      tsParseExpression
        (tsParserFuel [⟨.VARIABLE, a, 0, 1⟩, ⟨.NOT, "~", 2, 1⟩,
          ⟨.VARIABLE, b, 3, 1⟩, ⟨.EOF, "", 4, 0⟩])
        [⟨.VARIABLE, a, 0, 1⟩, ⟨.NOT, "~", 2, 1⟩, ⟨.VARIABLE, b, 3, 1⟩,
         ⟨.EOF, "", 4, 0⟩] =
        .ok (.bin .and (.var a) (.notN (.var b)), [⟨.EOF, "", 4, 0⟩])) ∧
    (∀ v : String,
      tsParseExpression
        (tsParserFuel [⟨.VARIABLE, v, 0, 1⟩, ⟨.LITERAL, "1", 2, 1⟩,
          ⟨.EOF, "", 3, 0⟩])
        [⟨.VARIABLE, v, 0, 1⟩, ⟨.LITERAL, "1", 2, 1⟩, ⟨.EOF, "", 3, 0⟩] =
        .ok (.bin .and (.var v) (.lit true), [⟨.EOF, "", 3, 0⟩])) ∧
    (∀ a b c : String,
      tsParseExpression
        (tsParserFuel [⟨.VARIABLE, a, 0, 1⟩, ⟨.VARIABLE, b, 2, 1⟩,
          ⟨.VARIABLE, c, 4, 1⟩, ⟨.EOF, "", 5, 0⟩])
        [⟨.VARIABLE, a, 0, 1⟩, ⟨.VARIABLE, b, 2, 1⟩, ⟨.VARIABLE, c, 4, 1⟩,
         ⟨.EOF, "", 5, 0⟩] =
        .ok (.bin .and (.bin .and (.var a) (.var b)) (.var c),
          [⟨.EOF, "", 5, 0⟩])) ∧
    (∀ a b : String,
      jsParse [⟨.VARIABLE, .str a, 0⟩, ⟨.VARIABLE, .str b, 2⟩,
          ⟨.EOF, .str "", 3⟩] 0 =
        .ok (.binNode "node_3" .and (.variableNode "node_1" a)
          (.variableNode "node_2" b))) ∧
    (∀ a b : String,
      jsParse [⟨.VARIABLE, .str a, 0⟩, ⟨.NOT, .str "~", 2⟩,
          ⟨.VARIABLE, .str b, 3⟩, ⟨.EOF, .str "", 4⟩] 0 =
        .error ⟨"Unexpected token \x27~\x27 after expression",
          ⟨.NOT, .str "~", 2⟩⟩) :=
  ⟨fun _ _ => rfl, fun _ _ => rfl, fun _ => rfl, fun _ _ _ => rfl,
    fun _ _ => rfl, fun _ _ => rfl⟩

/-- C4: postfix primes chain (`A''` is NOT(NOT(A))) and bind tighter than
prefix NOT — a prefix NOT consumes a full unary expression including its
postfix primes, so `~A'` is NOT(NOT(A)) — in both the TS parser and the
JS parser (shown at the token level for arbitrary variable names, and on
the concrete strings through the lexers). -/
theorem postfix_prime_binds_tighter :
    (∀ v : String,
      tsParseExpression
        (tsParserFuel [⟨.VARIABLE, v, 0, 1⟩, ⟨.NOT, "\x27", 1, 1⟩,
          ⟨.NOT, "\x27", 2, 1⟩, ⟨.EOF, "", 3, 0⟩])
        [⟨.VARIABLE, v, 0, 1⟩, ⟨.NOT, "\x27", 1, 1⟩, ⟨.NOT, "\x27", 2, 1⟩,
         ⟨.EOF, "", 3, 0⟩] =
        .ok (.notN (.notN (.var v)), [⟨.EOF, "", 3, 0⟩])) ∧
    (∀ v : String,
      tsParseExpression
        (tsParserFuel [⟨.NOT, "~", 0, 1⟩, ⟨.VARIABLE, v, 1, 1⟩,
          ⟨.NOT, "\x27", 2, 1⟩, ⟨.EOF, "", 3, 0⟩])
        [⟨.NOT, "~", 0, 1⟩, ⟨.VARIABLE, v, 1, 1⟩, ⟨.NOT, "\x27", 2, 1⟩,
         ⟨.EOF, "", 3, 0⟩] =
        .ok (.notN (.notN (.var v)), [⟨.EOF, "", 3, 0⟩])) ∧
    tsParse "A\x27\x27" = .ok (.notN (.notN (.var "A")), ["A"]) ∧
    tsParse "~A\x27" = .ok (.notN (.notN (.var "A")), ["A"]) ∧
    (∀ v : String,
      jsParse [⟨.VARIABLE, .str v, 0⟩, ⟨.NOT, .str "\x27", 1⟩,
          ⟨.NOT, .str "\x27", 2⟩, ⟨.EOF, .str "", 3⟩] 0 =
        .ok (.notNode "node_3" (.notNode "node_2"
          (.variableNode "node_1" v)))) ∧
    (∀ v : String,
      jsParse [⟨.NOT, .str "~", 0⟩, ⟨.VARIABLE, .str v, 1⟩,
          ⟨.NOT, .str "\x27", 2⟩, ⟨.EOF, .str "", 3⟩] 0 =
        .ok (.notNode "node_3" (.notNode "node_2"
          (.variableNode "node_1" v)))) :=
  ⟨fun _ => rfl, fun _ => rfl, rfl, rfl, fun _ => rfl, fun _ => rfl⟩

/-- C10: an explicit AND keyword after an operand already joined by
implicit AND — "A B AND C" — makes parsing fail with an
"Unexpected token" syntax error in both parsers: after the implicit-AND
juxtaposition loop the parser never re-enters the explicit AND/NAND
loop, so the AND token is left unconsumed. -/
theorem explicit_and_after_implicit_fails :
    tsParse "A B AND C" =
      .error ⟨"Unexpected token: AND", 4, 3, none⟩ ∧
    jsTokenize "A B AND C" = .ok
      [⟨.VARIABLE, .str "A", 0⟩, ⟨.VARIABLE, .str "B", 2⟩,
       ⟨.AND, .str "AND", 4⟩, ⟨.VARIABLE, .str "C", 8⟩,
       ⟨.EOF, .str "", 9⟩] ∧
    jsParse
      [⟨.VARIABLE, .str "A", 0⟩, ⟨.VARIABLE, .str "B", 2⟩,
       ⟨.AND, .str "AND", 4⟩, ⟨.VARIABLE, .str "C", 8⟩,
       ⟨.EOF, .str "", 9⟩] 0 =
      .error ⟨"Unexpected token \x27AND\x27 after expression",
        ⟨.AND, .str "AND", 4⟩⟩ :=
  ⟨rfl, rfl, rfl⟩

/-! ## Lexer case normalization -/

/-- ASCII uppercasing is idempotent. -/
theorem toUpper_idem (c : Char) : c.toUpper.toUpper = c.toUpper := by
  unfold Char.toUpper
  by_cases h : c.toNat ≥ 97 ∧ c.toNat ≤ 122
  · rw [if_pos h]
    obtain ⟨h1, h2⟩ := h
    set n := c.toNat with hn
    interval_cases n <;> decide
  · rw [if_neg h, if_neg h]

/-- String uppercasing is idempotent. -/
theorem jsToUpperCase_idem (x : String) :
    jsToUpperCase (jsToUpperCase x) = jsToUpperCase x := by
  have hfun : (Char.toUpper ∘ Char.toUpper) = Char.toUpper :=
    funext fun c => toUpper_idem c
  simp [jsToUpperCase, List.map_map, hfun]

/-- Every token the pattern loop produces carries a
`normalizeValue`-normalized text; for a VARIABLE token that text is fixed
by uppercasing. -/
theorem tsNextTokenAux_var_upper :
    ∀ (ps : List TokenPattern) (s : List Char) (pos : Nat) (tok : TSToken)
      (len : Nat), tsNextTokenAux ps s pos = .ok (some tok, len) →
      tok.type = TSTokenType.VARIABLE →
      jsToUpperCase tok.value = tok.value := by
  intro ps
  induction ps with
  | nil => intro s pos tok len h; simp [tsNextTokenAux] at h
  | cons p ps ih =>
    intro s pos tok len h hv
    simp only [tsNextTokenAux] at h
    cases hm : p.matchLen s with
    | none =>
      rw [hm] at h
      exact ih s pos tok len h hv
    | some l =>
      rw [hm] at h
      cases hty : p.type with
      | none => rw [hty] at h; simp at h
      | some ty =>
        rw [hty] at h
        simp only [Except.ok.injEq, Prod.mk.injEq, Option.some.injEq] at h
        obtain ⟨h1, h2⟩ := h
        subst h1
        simp only at hv
        subst hv
        simp only [normalizeValue]
        exact jsToUpperCase_idem _

/-- Every VARIABLE token a single TS-lexer step produces has
uppercase-normalized text. -/
theorem tsNextToken_var_upper (s : List Char) (pos : Nat) (tok : TSToken)
    (len : Nat) (h : tsNextToken s pos = .ok (some tok, len))
    (hv : tok.type = .VARIABLE) : jsToUpperCase tok.value = tok.value :=
  tsNextTokenAux_var_upper TOKEN_PATTERNS s pos tok len h hv

/-- Every VARIABLE token of the TS tokenize loop has uppercase-normalized
text (given the invariant for the accumulator). -/
theorem tsTokenizeLoop_var_upper :
    ∀ (fuel : Nat) (chars : List Char) (pos : Nat) (toks0 : List TSToken),
      (∀ tok ∈ toks0, tok.type = TSTokenType.VARIABLE →
        jsToUpperCase tok.value = tok.value) →
      ∀ toks, tsTokenizeLoop fuel chars pos toks0 = .ok toks →
        ∀ tok ∈ toks, tok.type = TSTokenType.VARIABLE →
          jsToUpperCase tok.value = tok.value := by
  intro fuel
  induction fuel with
  | zero => intro chars pos toks0 _ toks h; simp [tsTokenizeLoop] at h
  | succ fuel ih =>
    intro chars pos toks0 hinv toks h tok htok hv
    cases chars with
    | nil =>
      simp only [tsTokenizeLoop] at h
      cases h
      rcases List.mem_append.mp htok with h1 | h1
      · exact hinv tok h1 hv
      · simp only [List.mem_singleton] at h1
        subst h1
        simp at hv
    | cons c cs =>
      simp only [tsTokenizeLoop] at h
      cases hn : tsNextToken (c :: cs) pos with
      | error e => rw [hn] at h; cases h
      | ok r =>
        rw [hn] at h
        obtain ⟨otok, len⟩ := r
        cases otok with
        | none =>
          exact ih _ _ _ hinv toks h tok htok hv
        | some newTok =>
          refine ih _ _ _ ?_ toks h tok htok hv
          intro t ht htv
          rcases List.mem_append.mp ht with h1 | h1
          · exact hinv t h1 htv
          · simp only [List.mem_singleton] at h1
            subst h1
            exact tsNextToken_var_upper _ _ _ _ hn htv

/-- C5 (amended): the TS engine lexer normalizes every variable token to
uppercase ("a" and "A" denote the same variable there), but the JS lexer
used by the client and server preserves the identifier's original case in
its VARIABLE tokens, so "a" and "A" denote distinct variables there. -/
theorem variable_token_case_normalization :
    (∀ (s : String) (toks : List TSToken), tsTokenize s = .ok toks →
      ∀ tok ∈ toks, tok.type = TSTokenType.VARIABLE →
        jsToUpperCase tok.value = tok.value) ∧
    tsTokenize "a" = .ok [⟨.VARIABLE, "A", 0, 1⟩, ⟨.EOF, "", 1, 0⟩] ∧
    jsTokenize "a" = .ok [⟨.VARIABLE, .str "a", 0⟩, ⟨.EOF, .str "", 1⟩] ∧
    jsTokenize "A" = .ok [⟨.VARIABLE, .str "A", 0⟩, ⟨.EOF, .str "", 1⟩] := by
  refine ⟨?_, rfl, rfl, rfl⟩
  intro s toks h
  exact tsTokenizeLoop_var_upper _ _ _ [] (by simp) toks h

/-- Witness for the TS half of C5 at the input "a". -/
theorem variable_token_case_normalization_witness :
    tsTokenize "a" = .ok [⟨.VARIABLE, "A", 0, 1⟩, ⟨.EOF, "", 1, 0⟩] ∧
    jsToUpperCase "A" = "A" :=
  ⟨rfl,
    variable_token_case_normalization.1 "a"
      [⟨.VARIABLE, "A", 0, 1⟩, ⟨.EOF, "", 1, 0⟩] rfl
      ⟨.VARIABLE, "A", 0, 1⟩ (by simp) rfl⟩

/-- C5 counterexample: the JS lexer's VARIABLE token for the input "a"
keeps the lowercase text — it is not normalized to uppercase. -/
theorem variable_lowercase_preserved_counterexample :
    jsTokenize "a" = .ok [⟨.VARIABLE, .str "a", 0⟩, ⟨.EOF, .str "", 1⟩] ∧
    jsToUpperCase "a" ≠ "a" :=
  ⟨rfl, by decide⟩

/-! ## Caps and determinism -/

/-- Successful `mapM` preserves length. -/
theorem mapM_except_length {α β E : Type} :
    ∀ (l : List α) (f : α → Except E β) (res : List β),
      l.mapM f = .ok res → res.length = l.length := by
  intro l
  induction l with
  | nil =>
    intro f res h
    simp only [List.mapM_nil] at h
    cases h
    rfl
  | cons a rest ih =>
    intro f res h
    rw [List.mapM_cons] at h
    cases hfa : f a with
    | error e => rw [hfa] at h; cases h
    | ok b0 =>
      rw [hfa] at h
      cases hrest : rest.mapM f with
      | error e => rw [hrest] at h; cases h
      | ok bs =>
        rw [hrest] at h
        cases h
        simp [ih f bs hrest]

/-- C6 (amended): the client engine's table generator rejects more than 8
variables with an error and otherwise returns the full `2^n`-row table
(no truncation); the server's generator applies no cap and always returns
the full `2^n`-row table; the server refuses minimization — the processed
result carries no simplification — exactly when the variable count
exceeds 6. -/
theorem variable_caps :
    (∀ (ast : CoreAST) (vars : List String) (expr : String),
      vars.length > 8 →
        generateTruthTable ast vars expr =
          .error ("Too many variables (" ++ toString vars.length ++
            "). Maximum supported: " ++ toString MAX_VARIABLES)) ∧
    (∀ (ast : CoreAST) (vars : List String) (expr : String)
        (tt : TruthTable), generateTruthTable ast vars expr = .ok tt →
      tt.rows.length = 2 ^ vars.length) ∧
    (∀ (ast : JSAst) (vo : Option (List String)),
      (serverGenerateTruthTable ast vo).rows.length =
        2 ^ (serverGenerateTruthTable ast vo).vars.length) ∧
    (∀ (s : String) (r : ProcessResult), processExpression s = .ok r →
      (r.simplification = none ↔ r.vars.length > 6)) := by
  refine ⟨?_, ?_, ?_, ?_⟩
  · intro ast vars expr hlen
    unfold generateTruthTable
    rw [if_pos (by simpa [MAX_VARIABLES] using hlen)]
  · intro ast vars expr tt h
    unfold generateTruthTable at h
    by_cases hc : vars.length > MAX_VARIABLES
    · rw [if_pos hc] at h; cases h
    · rw [if_neg hc] at h
      simp only [Bind.bind] at h
      cases hm : (generateCombinations vars).mapM
          (fun inputs =>
            (evaluate ast inputs).bind fun output =>
              pure (TruthTableRow.mk inputs output
                (getMintermNumber inputs vars)
                (2 ^ vars.length - 1 - getMintermNumber inputs vars))) with
      | error e => rw [hm] at h; simp [Except.bind] at h
      | ok rows =>
        rw [hm] at h
        simp only [Except.bind] at h
        have htt : tt = ⟨vars, rows, expr⟩ := by cases h; rfl
        subst htt
        have hlen := mapM_except_length _ _ _ hm
        simp only [hlen]
        simp [generateCombinations]
  · intro ast vo
    simp [serverGenerateTruthTable]
  · intro s r h
    unfold processExpression at h
    cases ht : jsTokenize s with
    | error e =>
      rw [ht] at h
      simp [Bind.bind, Except.bind, Except.mapError] at h
    | ok toks =>
      rw [ht] at h
      simp only [Bind.bind, Except.bind, Except.mapError] at h
      cases hp : jsParse toks 0 with
      | error e =>
        rw [hp] at h
        simp [Bind.bind, Except.bind, Except.mapError] at h
      | ok ast =>
        rw [hp] at h
        simp only [Bind.bind, Except.bind, Except.mapError] at h
        have hr : r = ⟨s, ast.sortedVariables,
            serverGenerateTruthTable ast (some ast.sortedVariables),
            if ast.sortedVariables.length ≤ 6 then
              some (serverSimplifyExpression
                (serverGenerateTruthTable ast (some ast.sortedVariables)))
            else none⟩ := by
          cases h
          rfl
        subst hr
        by_cases hle : ast.sortedVariables.length ≤ 6
        · simp [hle]
          try omega
        · simp [hle]
          try omega

/-- Witness for C6 at a one-variable expression and a nine-variable
list. -/
theorem variable_caps_witness :
    generateTruthTable (CoreAST.var "A")
        ["V1", "V2", "V3", "V4", "V5", "V6", "V7", "V8", "V9"] "x" =
      .error ("Too many variables (9). Maximum supported: 8") ∧
    generateTruthTable (CoreAST.var "A") ["A"] "A" = .ok
      ⟨["A"],
        [⟨[("A", false)], false, 0, 1⟩, ⟨[("A", true)], true, 1, 0⟩],
        "A"⟩ ∧
    (⟨["A"],
        [⟨[("A", false)], false, 0, 1⟩, ⟨[("A", true)], true, 1, 0⟩],
        "A"⟩ : TruthTable).rows.length = 2 ^ (["A"] : List String).length ∧
    (∃ r, processExpression "A" = .ok r ∧
      (r.simplification = none ↔ r.vars.length > 6)) := by
  refine ⟨?_, by rfl, ?_, ?_⟩
  · have h := variable_caps.1 (CoreAST.var "A")
      ["V1", "V2", "V3", "V4", "V5", "V6", "V7", "V8", "V9"] "x"
      (by decide)
    simpa using h
  · exact variable_caps.2.1 (CoreAST.var "A") ["A"] "A" _ (by rfl)
  · cases hpe : processExpression "A" with
    | error e => exact absurd hpe (by rw [show processExpression "A" =
        .ok ⟨"A", ["A"],
          serverGenerateTruthTable (.variableNode "node_1" "A") (some ["A"]),
          some (serverSimplifyExpression
            (serverGenerateTruthTable (.variableNode "node_1" "A")
              (some ["A"])))⟩ from rfl]; simp)
    | ok r =>
      exact ⟨r, rfl, variable_caps.2.2.2 "A" r hpe⟩

set_option maxRecDepth 8192

/-- C6 counterexample: the server truth-table generator applies no
variable cap — on a nine-variable AST it returns the full 512-row table
instead of failing (the claim says table generation fails with an error
whenever the variable count exceeds 8). -/
theorem server_table_no_cap_counterexample :
    (serverGenerateTruthTable
      (.binNode "n8" .or (.binNode "n7" .or (.binNode "n6" .or
        (.binNode "n5" .or (.binNode "n4" .or (.binNode "n3" .or
          (.binNode "n2" .or (.binNode "n1" .or
            (.variableNode "vA" "A") (.variableNode "vB" "B"))
            (.variableNode "vC" "C")) (.variableNode "vD" "D"))
          (.variableNode "vE" "E")) (.variableNode "vF" "F"))
        (.variableNode "vG" "G")) (.variableNode "vH" "H"))
      (.variableNode "vI" "I")) none).vars.length = 9 ∧
    (serverGenerateTruthTable
      (.binNode "n8" .or (.binNode "n7" .or (.binNode "n6" .or
        (.binNode "n5" .or (.binNode "n4" .or (.binNode "n3" .or
          (.binNode "n2" .or (.binNode "n1" .or
            (.variableNode "vA" "A") (.variableNode "vB" "B"))
            (.variableNode "vC" "C")) (.variableNode "vD" "D"))
          (.variableNode "vE" "E")) (.variableNode "vF" "F"))
        (.variableNode "vG" "G")) (.variableNode "vH" "H"))
      (.variableNode "vI" "I")) none).rows.length = 512 := by
  constructor
  · rfl
  · rfl

/-! ## Node ids and determinism -/

/-- Stripping the ids assigned from any supply recovers the id-free
tree. -/
theorem eraseIds_assignIds (supply : Nat → String) :
    ∀ (t : CoreAST) (k : Nat), eraseIds (assignIds supply t k).1 = t := by
  intro t
  induction t with
  | var n => intro k; rfl
  | lit v => intro k; rfl
  | notN o ih =>
    intro k
    simp [assignIds, eraseIds, ih]
  | bin kd l r ihl ihr =>
    intro k
    simp [assignIds, eraseIds, ihl, ihr]

/-- C8 counterexample: the TS parser labels nodes with nanoid values, so
two invocations of parse on the same input at different states of the
random id stream return ASTs that differ in their node identifiers — the
outputs are not identical as the claim requires. -/
theorem parse_ids_not_deterministic_counterexample :
    tsParseWithIds (fun _ => "x") "A" = .ok (.var "A" "x", ["A"]) ∧
    tsParseWithIds (fun _ => "y") "A" = .ok (.var "A" "y", ["A"]) ∧
    (TSAst.var "A" "x") ≠ (TSAst.var "A" "y") := by
  refine ⟨by rfl, by rfl, by decide⟩

/-- C8 (amended): each pipeline stage is deterministic up to node ids —
the TS parse result is independent of the id supply once ids are erased
(structure, values and the variable list never depend on it), and the JS
parser's output is independent of the static `idCounter` state at entry
(parse resets it before building nodes). -/
theorem pipeline_deterministic_up_to_ids :
    (∀ (supply1 supply2 : Nat → String) (s : String),
      (tsParseWithIds supply1 s).map (fun r => (eraseIds r.1, r.2)) =
        (tsParseWithIds supply2 s).map (fun r => (eraseIds r.1, r.2))) ∧
    (∀ (tokens : List JSToken) (c1 c2 : Nat),
      jsParse tokens c1 = jsParse tokens c2) := by
  constructor
  · intro supply1 supply2 s
    unfold tsParseWithIds
    cases h : tsParse s with
    | error e => simp [Except.map]
    | ok r => simp [Except.map, eraseIds_assignIds]
  · intro tokens c1 c2
    rfl

/-! ## Quine-McCluskey: list toolbox -/

/-- A predicate preserved by every step of a fold holds of its result. -/
theorem foldl_inv {α β : Type} (P : β → Prop) :
    ∀ (l : List α) (f : β → α → β) (init : β), P init →
      (∀ b a, a ∈ l → P b → P (f b a)) → P (l.foldl f init) := by
  intro l
  induction l with
  | nil => intro f init h _; exact h
  | cons a rest ih =>
    intro f init h hstep
    simp only [List.foldl_cons]
    exact ih f (f init a) (hstep init a (by simp) h)
      (fun b x hx hb => hstep b x (by simp [hx]) hb)

/-- Membership in a `Set.add` insertion. -/
theorem mem_setAdd {α : Type} [BEq α] [LawfulBEq α] (l : List α) (a x : α) :
    x ∈ setAdd l a ↔ x ∈ l ∨ x = a := by
  unfold setAdd
  by_cases h : l.contains a
  · rw [if_pos h]
    have ha : a ∈ l := List.elem_iff.mp h
    constructor
    · exact fun hx => Or.inl hx
    · rintro (hx | hx)
      · exact hx
      · exact hx ▸ ha
  · rw [if_neg h]
    simp

/-- Membership after folding `Set.add` over a list. -/
theorem mem_foldl_setAdd {α : Type} [BEq α] [LawfulBEq α] :
    ∀ (l s : List α) (x : α), x ∈ l.foldl setAdd s ↔ x ∈ s ∨ x ∈ l := by
  intro l
  induction l with
  | nil => intro s x; simp
  | cons a rest ih =>
    intro s x
    simp only [List.foldl_cons]
    rw [ih, mem_setAdd]
    simp only [List.mem_cons]
    tauto

/-- Spreading a `Set` keeps exactly the original elements. -/
theorem mem_dedupFirst {α : Type} [BEq α] [LawfulBEq α] (l : List α)
    (x : α) : x ∈ dedupFirst l ↔ x ∈ l := by
  unfold dedupFirst
  rw [mem_foldl_setAdd]
  simp

/-- Membership in an ordered insertion. -/
theorem mem_insertLe {α : Type} (le : α → α → Bool) (a x : α) :
    ∀ l : List α, x ∈ insertLe le a l ↔ x = a ∨ x ∈ l := by
  intro l
  induction l with
  | nil => simp [insertLe]
  | cons y ys ih =>
    unfold insertLe
    by_cases h : le a y
    · rw [if_pos h]
      exact List.mem_cons
    · rw [if_neg h]
      simp only [List.mem_cons, ih]
      tauto

/-- Sorting keeps exactly the original elements. -/
theorem mem_sortLe {α : Type} (le : α → α → Bool) (x : α) :
    ∀ l : List α, x ∈ sortLe le l ↔ x ∈ l := by
  intro l
  induction l with
  | nil => simp [sortLe]
  | cons y ys ih =>
    unfold sortLe
    simp only [List.foldr_cons]
    rw [mem_insertLe]
    unfold sortLe at ih
    simp only [List.mem_cons, ih]

/-- A filter of full length filters nothing: every element satisfies the
predicate. -/
theorem all_of_filter_length_eq {α : Type} (p : α → Bool) :
    ∀ l : List α, (l.filter p).length = l.length → ∀ a ∈ l, p a = true := by
  intro l
  induction l with
  | nil => intro _ a ha; cases ha
  | cons y ys ih =>
    intro h a ha
    by_cases hy : p y
    · rw [List.filter_cons_of_pos hy] at h
      simp only [List.length_cons, Nat.add_right_cancel_iff] at h
      rcases List.mem_cons.mp ha with rfl | ha2
      · exact hy
      · exact ih h a ha2
    · rw [List.filter_cons_of_neg hy] at h
      have := List.length_filter_le p ys
      simp only [List.length_cons] at h
      omega

/-! ## Characterizing `canCombineWith` -/

/-- Once a differing position is recorded, success forces the remaining
positions to agree exactly and returns the recorded index. -/
theorem canCombineAux_some_acc :
    ∀ (as bs : List Char) (i e d : Nat),
      canCombineAux as bs i (some e) = some d →
      d = e ∧ as.length = bs.length ∧
      ∀ j < as.length, as.getD j ' ' = bs.getD j ' ' := by
  intro as
  induction as with
  | nil =>
    intro bs i e d h
    cases bs with
    | nil =>
      simp only [canCombineAux, Option.some.injEq] at h
      exact ⟨h.symm, rfl, by intro j hj; simp at hj⟩
    | cons b bs => simp [canCombineAux] at h
  | cons a as ih =>
    intro bs i e d h
    cases bs with
    | nil => simp [canCombineAux] at h
    | cons b bs =>
      simp only [canCombineAux] at h
      split_ifs at h with h1 h2 h3
      · rcases ih bs (i + 1) e d h with ⟨hd, hlen, hall⟩
        have hab : a = b := by push_neg at h2; exact h2
        refine ⟨hd, by simp [hlen], ?_⟩
        intro j hj
        cases j with
        | zero => simpa using hab
        | succ j' =>
          simp only [List.getD_cons_succ]
          exact hall j' (by simpa using hj)
      · rcases ih bs (i + 1) e d h with ⟨hd, hlen, hall⟩
        have hab : a = b := by push_neg at h3; exact h3
        refine ⟨hd, by simp [hlen], ?_⟩
        intro j hj
        cases j with
        | zero => simpa using hab
        | succ j' =>
          simp only [List.getD_cons_succ]
          exact hall j' (by simpa using hj)

/-- Success from an empty accumulator: the patterns have equal length and
agree everywhere except at the (non-dash) returned position. -/
theorem canCombineAux_none_spec :
    ∀ (as bs : List Char) (i d : Nat),
      canCombineAux as bs i none = some d →
      as.length = bs.length ∧ i ≤ d ∧ d - i < as.length ∧
      as.getD (d - i) ' ' ≠ '-' ∧ bs.getD (d - i) ' ' ≠ '-' ∧
      as.getD (d - i) ' ' ≠ bs.getD (d - i) ' ' ∧
      ∀ j < as.length, j ≠ d - i → as.getD j ' ' = bs.getD j ' ' := by
  intro as
  induction as with
  | nil =>
    intro bs i d h
    cases bs with
    | nil => simp [canCombineAux] at h
    | cons b bs => simp [canCombineAux] at h
  | cons a as ih =>
    intro bs i d h
    cases bs with
    | nil => simp [canCombineAux] at h
    | cons b bs =>
      simp only [canCombineAux] at h
      split_ifs at h with h1 h2 h3
      · rcases ih bs (i + 1) d h with
          ⟨hlen, hle, hlt, hnd1, hnd2, hne, hall⟩
        have hab : a = b := by push_neg at h2; exact h2
        have hdi : d - i = (d - (i + 1)) + 1 := by omega
        refine ⟨by simp [hlen], by omega, by simp; omega, ?_, ?_, ?_, ?_⟩
        · rw [hdi, List.getD_cons_succ]; exact hnd1
        · rw [hdi, List.getD_cons_succ]; exact hnd2
        · rw [hdi, List.getD_cons_succ, List.getD_cons_succ]; exact hne
        · intro j hj hjd
          cases j with
          | zero => simpa using hab
          | succ j' =>
            simp only [List.getD_cons_succ]
            exact hall j' (by simpa using hj) (by omega)
      · rcases canCombineAux_some_acc as bs (i + 1) i d h with
          ⟨hd, hlen, hall⟩
        push_neg at h1
        subst hd
        refine ⟨by simp [hlen], le_refl d, by simp, ?_, ?_, ?_, ?_⟩
        · simpa using h1.1
        · simpa using h1.2
        · simpa using h3
        · intro j hj hjd
          cases j with
          | zero => omega
          | succ j' =>
            simp only [List.getD_cons_succ]
            exact hall j' (by simpa using hj)
      · rcases ih bs (i + 1) d h with
          ⟨hlen, hle, hlt, hnd1, hnd2, hne, hall⟩
        have hab : a = b := by push_neg at h3; exact h3
        have hdi : d - i = (d - (i + 1)) + 1 := by omega
        refine ⟨by simp [hlen], by omega, by simp; omega, ?_, ?_, ?_, ?_⟩
        · rw [hdi, List.getD_cons_succ]; exact hnd1
        · rw [hdi, List.getD_cons_succ]; exact hnd2
        · rw [hdi, List.getD_cons_succ, List.getD_cons_succ]; exact hne
        · intro j hj hjd
          cases j with
          | zero => simpa using hab
          | succ j' =>
            simp only [List.getD_cons_succ]
            exact hall j' (by simpa using hj) (by omega)

/-- The full characterization of a successful `canCombineWith`. -/
theorem canCombineWith_spec (a b : Implicant) (d : Nat)
    (h : a.canCombineWith b = some d) :
    a.binary.length = b.binary.length ∧ d < a.binary.length ∧
    a.binary.getD d ' ' ≠ '-' ∧ b.binary.getD d ' ' ≠ '-' ∧
    a.binary.getD d ' ' ≠ b.binary.getD d ' ' ∧
    ∀ j < a.binary.length, j ≠ d →
      a.binary.getD j ' ' = b.binary.getD j ' ' := by
  unfold Implicant.canCombineWith at h
  by_cases hl : a.binary.length ≠ b.binary.length
  · rw [if_pos hl] at h; cases h
  · rw [if_neg hl] at h
    push_neg at hl
    rcases canCombineAux_none_spec a.binary b.binary 0 d h with
      ⟨_, _, hlt, hnd1, hnd2, hne, hall⟩
    simp only [Nat.sub_zero] at hlt hnd1 hnd2 hne hall
    exact ⟨hl, hlt, hnd1, hnd2, hne, hall⟩

/-! ## Characterizing `covers` -/

/-- Reading a position of a `set` result. -/
theorem getD_set_lt {α : Type} (l : List α) (i : Nat) (c x : α)
    (hi : i < l.length) (j : Nat) (hj : j < l.length) :
    (l.set i c).getD j x = if j = i then c else l.getD j x := by
  rw [List.getD_eq_getElem (l.set i c) x (by simpa using hj),
    List.getElem_set]
  by_cases h : i = j
  · simp [h]
  · rw [if_neg h, if_neg (fun hc => h hc.symm),
      List.getD_eq_getElem l x hj]

/-- An in-range default read is a member. -/
theorem getD_mem {α : Type} (l : List α) (x : α) (i : Nat)
    (hi : i < l.length) : l.getD i x ∈ l := by
  rw [List.getD_eq_getElem l x hi]
  exact List.getElem_mem hi

/-- On same-length lists the covering walk checks every position: dash or
equal. -/
theorem coversAux_eq_all :
    ∀ (cs ds : List Char), cs.length = ds.length →
      (coversAux cs ds = true ↔
        ∀ i < cs.length, cs.getD i ' ' = '-' ∨ cs.getD i ' ' = ds.getD i ' ') := by
  intro cs
  induction cs with
  | nil =>
    intro ds _
    simp [coversAux]
  | cons c cs ih =>
    intro ds hlen
    cases ds with
    | nil => simp at hlen
    | cons d ds =>
      simp only [List.length_cons, Nat.add_right_cancel_iff] at hlen
      simp only [coversAux]
      by_cases hc : c ≠ '-' ∧ c ≠ d
      · rw [if_pos hc]
        constructor
        · intro h; cases h
        · intro h
          rcases h 0 (by simp) with h0 | h0 <;>
            simp only [List.getD_cons_zero] at h0 <;>
            [exact absurd h0 hc.1; exact absurd h0 hc.2]
      · rw [if_neg hc]
        rw [ih ds hlen]
        push_neg at hc
        constructor
        · intro h i hi
          cases i with
          | zero =>
            by_cases hd : c = '-'
            · exact Or.inl (by simpa using hd)
            · exact Or.inr (by simpa using hc hd)
          | succ i' =>
            simp only [List.getD_cons_succ]
            exact h i' (by simpa using hi)
        · intro h i hi
          have := h (i + 1) (by simpa using hi)
          simpa using this

/-- Positional characterization of `covers` against the bit rendering. -/
theorem covers_pos (imp : Implicant) (n m : Nat)
    (hlen : imp.binary.length = n) (hn : 0 < n) (hm : m < 2 ^ n) :
    (imp.covers m n = true ↔
      ∀ i < n, imp.binary.getD i ' ' = '-' ∨
        imp.binary.getD i ' ' = (bitChars m n).getD i ' ') := by
  unfold Implicant.covers
  rw [toBinary_eq_bitChars n m hn hm,
    coversAux_eq_all _ _ (by rw [hlen, bitChars_length]), hlen]

/-- `covers` depends only on the pattern. -/
theorem covers_binary_congr (p q : Implicant) (m n : Nat)
    (hb : p.binary = q.binary) : p.covers m n = q.covers m n := by
  unfold Implicant.covers
  rw [hb]

/-- The combined implicant covers exactly the union of what its parents
cover. -/
theorem covers_combine (imp1 imp2 : Implicant) (d n m : Nat)
    (h : imp1.canCombineWith imp2 = some d)
    (hlen : imp1.binary.length = n)
    (hwf1 : ∀ c ∈ imp1.binary, c = '0' ∨ c = '1' ∨ c = '-')
    (hwf2 : ∀ c ∈ imp2.binary, c = '0' ∨ c = '1' ∨ c = '-')
    (hn : 0 < n) (hm : m < 2 ^ n) :
    ((imp1.combineWith imp2 d).covers m n = true ↔
      imp1.covers m n = true ∨ imp2.covers m n = true) := by
  rcases canCombineWith_spec imp1 imp2 d h with
    ⟨hl, hd, hnd1, hnd2, hne, hall⟩
  have hlen2 : imp2.binary.length = n := by omega
  have hcomb : (imp1.combineWith imp2 d).binary = imp1.binary.set d '-' := rfl
  have hclen : (imp1.combineWith imp2 d).binary.length = n := by
    rw [hcomb, List.length_set, hlen]
  rw [covers_pos _ n m hclen hn hm, covers_pos _ n m hlen hn hm,
    covers_pos _ n m hlen2 hn hm]
  have hget : ∀ j < n, (imp1.combineWith imp2 d).binary.getD j ' ' =
      if j = d then '-' else imp1.binary.getD j ' ' := by
    intro j hj
    rw [hcomb]
    exact getD_set_lt imp1.binary d '-' ' ' (by omega) j (by omega)
  have hb1 : imp1.binary.getD d ' ' = '0' ∨ imp1.binary.getD d ' ' = '1' := by
    rcases hwf1 (imp1.binary.getD d ' ')
        (getD_mem imp1.binary ' ' d (by omega)) with h1 | h1 | h1
    · exact Or.inl h1
    · exact Or.inr h1
    · exact absurd h1 hnd1
  have hb2 : imp2.binary.getD d ' ' = '0' ∨ imp2.binary.getD d ' ' = '1' := by
    rcases hwf2 (imp2.binary.getD d ' ')
        (getD_mem imp2.binary ' ' d (by omega)) with h1 | h1 | h1
    · exact Or.inl h1
    · exact Or.inr h1
    · exact absurd h1 hnd2
  have hbc : (bitChars m n).getD d ' ' = '0' ∨
      (bitChars m n).getD d ' ' = '1' := by
    rw [bitChars_getD m n d (by omega)]
    by_cases ht : m.testBit (n - 1 - d)
    · exact Or.inr (by rw [if_pos ht])
    · exact Or.inl (by rw [if_neg ht])
  constructor
  · intro hC
    by_cases hcd : (bitChars m n).getD d ' ' = imp1.binary.getD d ' '
    · left
      intro i hi
      by_cases hid : i = d
      · exact Or.inr (by rw [hid]; exact hcd.symm)
      · have := hC i hi
        rw [hget i hi, if_neg hid] at this
        exact this
    · have hcd2 : (bitChars m n).getD d ' ' = imp2.binary.getD d ' ' := by
        rcases hb1 with h1 | h1 <;> rcases hb2 with h2 | h2 <;>
          rcases hbc with h3 | h3 <;> simp_all
      right
      intro i hi
      by_cases hid : i = d
      · exact Or.inr (by rw [hid]; exact hcd2.symm)
      · have := hC i hi
        rw [hget i hi, if_neg hid] at this
        rw [← hall i (by omega) hid]
        exact this
  · intro hC i hi
    rw [hget i hi]
    by_cases hid : i = d
    · exact Or.inl (by rw [if_pos hid])
    · rw [if_neg hid]
      rcases hC with hC | hC
      · exact hC i hi
      · rw [hall i (by omega) hid]
        exact hC i hi

/-! ## Seeds and combination preserve the implicant invariant -/

/-- Bit renderings use only '0' and '1'. -/
theorem bitChars_mem (m n : Nat) :
    ∀ c ∈ bitChars m n, c = '0' ∨ c = '1' := by
  intro c hc
  simp only [bitChars, List.mem_map] at hc
  rcases hc with ⟨i, _, hi⟩
  by_cases ht : m.testBit (n - 1 - i)
  · rw [if_pos ht] at hi; exact Or.inr hi.symm
  · rw [if_neg ht] at hi; exact Or.inl hi.symm

/-- A seed implicant covers exactly its own minterm. -/
theorem seed_covers (m x n : Nat) (hn : 0 < n) (hm : m < 2 ^ n)
    (hx : x < 2 ^ n) :
    ((Implicant.make [m] (toBinary m n)).covers x n = true ↔ x = m) := by
  have hb : (Implicant.make [m] (toBinary m n)).binary = bitChars m n := by
    simp [Implicant.make, toBinary_eq_bitChars n m hn hm]
  rw [covers_pos _ n x (by rw [hb, bitChars_length]) hn hx]
  constructor
  · intro h
    refine bitChars_inj hx hm ?_
    apply List.ext_getElem (by simp [bitChars_length])
    intro i h1 h2
    rw [bitChars_length] at h1
    have := h i h1
    rw [hb] at this
    rcases this with hcd | hcd
    · rcases bitChars_mem m n ((bitChars m n).getD i ' ')
          (getD_mem _ ' ' i (by rw [bitChars_length]; exact h1)) with h0 | h0 <;>
        simp_all
    · rw [← List.getD_eq_getElem (bitChars m n) ' '
          (by rw [bitChars_length]; exact h1),
        ← List.getD_eq_getElem (bitChars x n) ' '
          (by rw [bitChars_length]; exact h1)]
      exact hcd.symm
  · intro h i hi
    rw [hb, h]
    exact Or.inr rfl

/-- Well-formedness of a seed implicant, including its zero dash count. -/
theorem seed_wf (M : List Nat) (n m : Nat) (hn : 0 < n) (hmM : m ∈ M)
    (hlt : ∀ x ∈ M, x < 2 ^ n) :
    WfImp n M (Implicant.make [m] (toBinary m n)) ∧
      dashCount (Implicant.make [m] (toBinary m n)) = 0 := by
  have hm : m < 2 ^ n := hlt m hmM
  have hb : (Implicant.make [m] (toBinary m n)).binary = bitChars m n := by
    simp [Implicant.make, toBinary_eq_bitChars n m hn hm]
  refine ⟨⟨by rw [hb, bitChars_length], ?_, ?_, ?_⟩, ?_⟩
  · intro c hc
    rw [hb] at hc
    rcases bitChars_mem m n c hc with h | h
    · exact Or.inl h
    · exact Or.inr (Or.inl h)
  · intro x hx
    simp only [Implicant.make] at hx
    simp only [List.mem_singleton] at hx
    exact hx ▸ hmM
  · intro x hxlt
    rw [seed_covers m x n hn hm hxlt]
    simp [Implicant.make]
  · unfold dashCount
    rw [hb]
    rw [List.filter_eq_nil.mpr]
    · rfl
    · intro c hc
      rcases bitChars_mem m n c hc with h | h <;> simp [h]

/-- Minterm membership of a combined implicant. -/
theorem combine_minterms_mem (imp1 imp2 : Implicant) (d : Nat) (x : Nat) :
    x ∈ (imp1.combineWith imp2 d).minterms ↔
      x ∈ imp1.minterms ∨ x ∈ imp2.minterms := by
  simp only [Implicant.combineWith]
  rw [mem_sortLe, mem_dedupFirst, List.mem_append]

/-- Dashing out a non-dash position raises the dash count by one. -/
theorem filter_dash_set :
    ∀ (l : List Char) (d : Nat), d < l.length → l.getD d ' ' ≠ '-' →
      ((l.set d '-').filter (fun c => c = '-')).length =
        (l.filter (fun c => c = '-')).length + 1 := by
  intro l
  induction l with
  | nil => intro d h; simp at h
  | cons a as ih =>
    intro d hd hnd
    cases d with
    | zero =>
      simp only [List.getD_cons_zero] at hnd
      simp only [List.set_cons_zero]
      rw [List.filter_cons_of_pos (by simp),
        List.filter_cons_of_neg (by simpa using hnd)]
      simp
    | succ d' =>
      simp only [List.getD_cons_succ] at hnd
      simp only [List.set_cons_succ]
      by_cases ha : a = '-'
      · rw [List.filter_cons_of_pos (by simpa using ha),
          List.filter_cons_of_pos (by simpa using ha)]
        simp only [List.length_cons]
        rw [ih d' (by simpa using hd) hnd]
      · rw [List.filter_cons_of_neg (by simpa using ha),
          List.filter_cons_of_neg (by simpa using ha)]
        exact ih d' (by simpa using hd) hnd

/-- A combination of two invariant implicants with dash count `k` is an
invariant implicant with dash count `k + 1`. -/
theorem combine_wf (M : List Nat) (n k : Nat) (imp1 imp2 : Implicant)
    (d : Nat) (h : imp1.canCombineWith imp2 = some d)
    (hw1 : WfImp n M imp1) (hw2 : WfImp n M imp2)
    (hk : dashCount imp1 = k) (hn : 0 < n) :
    WfImp n M (imp1.combineWith imp2 d) ∧
      dashCount (imp1.combineWith imp2 d) = k + 1 := by
  rcases canCombineWith_spec imp1 imp2 d h with
    ⟨hl, hd, hnd1, hnd2, hne, hall⟩
  rcases hw1 with ⟨hlen1, hwf1, hsub1, hcov1⟩
  rcases hw2 with ⟨hlen2, hwf2, hsub2, hcov2⟩
  have hcomb : (imp1.combineWith imp2 d).binary = imp1.binary.set d '-' := rfl
  refine ⟨⟨?_, ?_, ?_, ?_⟩, ?_⟩
  · rw [hcomb, List.length_set, hlen1]
  · intro c hc
    rw [hcomb] at hc
    rcases List.mem_or_eq_of_mem_set hc with h1 | h1
    · exact hwf1 c h1
    · exact Or.inr (Or.inr h1)
  · intro x hx
    rcases (combine_minterms_mem imp1 imp2 d x).mp hx with h1 | h1
    · exact hsub1 x h1
    · exact hsub2 x h1
  · intro m hmlt
    rw [covers_combine imp1 imp2 d n m h hlen1 hwf1 hwf2 hn hmlt,
      combine_minterms_mem, hcov1 m hmlt, hcov2 m hmlt]
  · unfold dashCount
    rw [hcomb]
    have := filter_dash_set imp1.binary d (by omega) hnd1
    unfold dashCount at hk
    rw [this, hk]

/-! ## One combination round -/

/-- Group members come from the grouped list. -/
theorem mem_of_mem_qmGroups (implicants : List Implicant) (k : Nat)
    (imp : Implicant) (h : imp ∈ qmGroups implicants k) :
    imp ∈ implicants := by
  unfold qmGroups at h
  exact (List.mem_filter.mp h).1

/-- `qmPairStep` preserves the round invariant when fed source
implicants. -/
theorem qmPairStep_inv (n : Nat) (M : List Nat) (src : List Implicant)
    (hsrc : ∀ imp ∈ src, WfImp n M imp) (hn : 0 < n)
    (acc : List Implicant × List Implicant) (imp1 imp2 : Implicant)
    (h1 : imp1 ∈ src) (h2 : imp2 ∈ src) (hinv : RoundInv n src acc) :
    RoundInv n src (qmPairStep acc imp1 imp2) := by
  unfold qmPairStep
  cases hc : imp1.canCombineWith imp2 with
  | none => exact hinv
  | some d =>
    by_cases hany : acc.1.any
        (fun ni => ni.binary == (imp1.combineWith imp2 d).binary) = true
    · simp only [hany, if_true]
      constructor
      · exact hinv.1
      · intro u hu
        rcases (mem_setAdd _ imp2 u).mp hu with hu2 | hu2
        · rcases (mem_setAdd _ imp1 u).mp hu2 with hu3 | hu3
          · exact hinv.2 u hu3
          · rcases List.any_eq_true.mp hany with ⟨ni0, hni0, hb⟩
            refine ⟨ni0, hni0, ?_⟩
            intro m hm hcov
            have hbe : ni0.binary = (imp1.combineWith imp2 d).binary :=
              beq_iff_eq.mp hb
            rw [covers_binary_congr ni0 (imp1.combineWith imp2 d) m n hbe]
            rw [covers_combine imp1 imp2 d n m hc (hsrc imp1 h1).1
              (hsrc imp1 h1).2.1 (hsrc imp2 h2).2.1 hn hm]
            exact Or.inl (hu3 ▸ hcov)
        · rcases List.any_eq_true.mp hany with ⟨ni0, hni0, hb⟩
          refine ⟨ni0, hni0, ?_⟩
          intro m hm hcov
          have hbe : ni0.binary = (imp1.combineWith imp2 d).binary :=
            beq_iff_eq.mp hb
          rw [covers_binary_congr ni0 (imp1.combineWith imp2 d) m n hbe]
          rw [covers_combine imp1 imp2 d n m hc (hsrc imp1 h1).1
            (hsrc imp1 h1).2.1 (hsrc imp2 h2).2.1 hn hm]
          exact Or.inr (hu2 ▸ hcov)
    · simp only [hany, if_false]
      constructor
      · intro ni hni
        rcases List.mem_append.mp hni with hni2 | hni2
        · exact hinv.1 ni hni2
        · refine ⟨imp1, imp2, d, h1, h2, hc, ?_⟩
          simpa using hni2
      · intro u hu
        rcases (mem_setAdd _ imp2 u).mp hu with hu2 | hu2
        · rcases (mem_setAdd _ imp1 u).mp hu2 with hu3 | hu3
          · rcases hinv.2 u hu3 with ⟨ni, hni, hcov⟩
            exact ⟨ni, by simp [hni], hcov⟩
          · refine ⟨imp1.combineWith imp2 d, by simp, ?_⟩
            intro m hm hcov
            rw [covers_combine imp1 imp2 d n m hc (hsrc imp1 h1).1
              (hsrc imp1 h1).2.1 (hsrc imp2 h2).2.1 hn hm]
            exact Or.inl (hu3 ▸ hcov)
        · refine ⟨imp1.combineWith imp2 d, by simp, ?_⟩
          intro m hm hcov
          rw [covers_combine imp1 imp2 d n m hc (hsrc imp1 h1).1
            (hsrc imp1 h1).2.1 (hsrc imp2 h2).2.1 hn hm]
          exact Or.inr (hu2 ▸ hcov)

/-- The whole round maintains the invariant from the empty accumulator. -/
theorem qmRound_inv (n : Nat) (M : List Nat) (implicants : List Implicant)
    (hsrc : ∀ imp ∈ implicants, WfImp n M imp) (hn : 0 < n) :
    RoundInv n implicants (qmRound implicants) := by
  unfold qmRound
  apply foldl_inv (RoundInv n implicants)
  · exact ⟨by simp, by simp⟩
  · intro acc kk _ hacc
    apply foldl_inv (RoundInv n implicants)
    · exact hacc
    · intro acc1 imp1 himp1 hacc1
      apply foldl_inv (RoundInv n implicants)
      · exact hacc1
      · intro acc2 imp2 himp2 hacc2
        exact qmPairStep_inv n M implicants hsrc hn acc2 imp1 imp2
          (mem_of_mem_qmGroups _ _ _ himp1)
          (mem_of_mem_qmGroups _ _ _ himp2) hacc2

/-! ## The combination loop -/

/-- Folding `max` over zeroes. -/
theorem foldr_max_zero :
    ∀ l : List Nat, (∀ x ∈ l, x = 0) → l.foldr max 0 = 0 := by
  intro l
  induction l with
  | nil => intro _; rfl
  | cons a as ih =>
    intro h
    simp only [List.foldr_cons]
    rw [h a (by simp), ih (fun x hx => h x (by simp [hx]))]
    simp

/-- A list of length at most one zipped with its tail is empty. -/
theorem zip_tail_nil {α : Type} (l : List α) (h : l.length ≤ 1) :
    l.zip l.tail = [] := by
  cases l with
  | nil => rfl
  | cons a as =>
    cases as with
    | nil => rfl
    | cons b bs => simp at h

/-- With every popcount zero there is at most one group key. -/
theorem qmGroupKeys_length_le_one (implicants : List Implicant)
    (h : ∀ imp ∈ implicants, imp.countOnes = 0) :
    (qmGroupKeys implicants).length ≤ 1 := by
  unfold qmGroupKeys
  rw [foldr_max_zero (implicants.map Implicant.countOnes)
    (by intro x hx; rcases List.mem_map.mp hx with ⟨i, hi, rfl⟩; exact h i hi)]
  have : List.range (0 + 1) = [0] := rfl
  rw [this]
  cases hf : ([0].filter
      (fun k => (implicants.map Implicant.countOnes).contains k)) with
  | nil => simp
  | cons x xs =>
    have := List.length_filter_le
      (fun k => (implicants.map Implicant.countOnes).contains k) [0]
    rw [hf] at this
    simpa using this

/-- A round over all-dash implicants produces nothing and uses nothing. -/
theorem qmRound_allzero (implicants : List Implicant)
    (h : ∀ imp ∈ implicants, imp.countOnes = 0) :
    qmRound implicants = ([], []) := by
  simp only [qmRound]
  rw [zip_tail_nil _ (qmGroupKeys_length_le_one implicants h)]
  rfl

/-- The loop with no implicants left returns the primes at any fuel. -/
theorem qmLoop_nil (fuel : Nat) (primes : List Implicant) :
    qmLoop fuel [] primes = primes := by
  cases fuel with
  | zero => rfl
  | succ f => simp [qmLoop]

/-- The loop invariant: with uniformly dashed, invariant implicants and
enough fuel, the collected primes are invariant and preserve every
implicant's coverage. -/
theorem qmLoop_spec (n : Nat) (M : List Nat) (hn : 0 < n) :
    ∀ (fuel k : Nat) (implicants primes : List Implicant),
      (∀ imp ∈ implicants, WfImp n M imp ∧ dashCount imp = k) →
      (∀ p ∈ primes, WfImp n M p) →
      k ≤ n → n + 1 - k < fuel →
      (∀ p ∈ qmLoop fuel implicants primes, WfImp n M p) ∧
      (∀ imp, (imp ∈ implicants ∨ imp ∈ primes) →
        ∀ m, m < 2 ^ n → imp.covers m n = true →
          ∃ p ∈ qmLoop fuel implicants primes, p.covers m n = true) := by
  intro fuel
  induction fuel with
  | zero => intro k implicants primes _ _ _ hf; omega
  | succ f ih =>
    intro k implicants primes himp hpr hk hf
    by_cases hemp : implicants.isEmpty
    · have hnil : implicants = [] := by
        cases implicants with
        | nil => rfl
        | cons a as => simp [List.isEmpty] at hemp
      subst hnil
      rw [qmLoop_nil]
      refine ⟨hpr, ?_⟩
      intro imp himpm m hm hc
      rcases himpm with h | h
      · cases h
      · exact ⟨imp, h, hc⟩
    · have hstep : qmLoop (f + 1) implicants primes =
          qmLoop f (qmRound implicants).1
            (primes ++ implicants.filter
              (fun imp => ¬ (qmRound implicants).2.contains imp)) := by
        simp [qmLoop, hemp]
      rw [hstep]
      have hrinv := qmRound_inv n M implicants
        (fun i hi => (himp i hi).1) hn
      by_cases hkn : k < n
      · have hnew : ∀ ni ∈ (qmRound implicants).1,
            WfImp n M ni ∧ dashCount ni = k + 1 := by
          intro ni hni
          rcases hrinv.1 ni hni with ⟨i1, i2, d, hi1, hi2, hcc, rfl⟩
          exact combine_wf M n k i1 i2 d hcc (himp i1 hi1).1
            (himp i2 hi2).1 (himp i1 hi1).2 hn
        have hprimes2 : ∀ p ∈ primes ++ implicants.filter
            (fun imp => ¬ (qmRound implicants).2.contains imp),
            WfImp n M p := by
          intro p hp
          rcases List.mem_append.mp hp with hp2 | hp2
          · exact hpr p hp2
          · exact (himp p (List.mem_filter.mp hp2).1).1
        have hres := ih (k + 1) (qmRound implicants).1 _ hnew hprimes2
          (by omega) (by omega)
        refine ⟨hres.1, ?_⟩
        intro imp himpm m hm hc
        rcases himpm with h | h
        · by_cases hused : (qmRound implicants).2.contains imp = true
          · have hmem : imp ∈ (qmRound implicants).2 :=
              List.elem_iff.mp hused
            rcases hrinv.2 imp hmem with ⟨ni, hni, hcov⟩
            exact hres.2 ni (Or.inl hni) m hm (hcov m hm hc)
          · have hmem2 : imp ∈ primes ++ implicants.filter
                (fun imp => ¬ (qmRound implicants).2.contains imp) := by
              apply List.mem_append.mpr
              right
              apply List.mem_filter.mpr
              exact ⟨h, by simpa using hused⟩
            exact hres.2 imp (Or.inr hmem2) m hm hc
        · exact hres.2 imp
            (Or.inr (List.mem_append.mpr (Or.inl h))) m hm hc
      · have hkeq : k = n := by omega
        have hzero : ∀ imp ∈ implicants, imp.countOnes = 0 := by
          intro imp hi
          have hwf := (himp imp hi).1
          have hdc := (himp imp hi).2
          have hall : ∀ c ∈ imp.binary, (fun c => decide (c = '-')) c
              = true := by
            apply all_of_filter_length_eq
            unfold dashCount at hdc
            rw [hdc, hkeq, hwf.1]
          unfold Implicant.countOnes
          rw [List.filter_eq_nil.mpr]
          · rfl
          · intro c hc
            have := hall c hc
            simp only [decide_eq_true_eq] at this
            simp [this]
        rw [qmRound_allzero implicants hzero]
        have hfilt : implicants.filter
            (fun imp => ¬ (([], []) :
              List Implicant × List Implicant).2.contains imp)
            = implicants := by
          apply List.filter_eq_self.mpr
          intro a _
          simp [List.contains]
        rw [hfilt, qmLoop_nil]
        constructor
        · intro p hp
          rcases List.mem_append.mp hp with hp2 | hp2
          · exact hpr p hp2
          · exact (himp p hp2).1
        · intro imp himpm m hm hc
          refine ⟨imp, ?_, hc⟩
          rcases himpm with h | h
          · exact List.mem_append.mpr (Or.inr h)
          · exact List.mem_append.mpr (Or.inl h)

/-! ## Pattern de-duplication -/

/-- The dedup fold only ever appends, so the accumulator persists. -/
theorem dedup_foldl_mono :
    ∀ (l acc : List Implicant) (x : Implicant), x ∈ acc →
      x ∈ l.foldl
        (fun acc pi =>
          if acc.any (fun q => q.binary == pi.binary) then acc
          else acc ++ [pi]) acc := by
  intro l
  induction l with
  | nil => intro acc x hx; exact hx
  | cons p ps ih =>
    intro acc x hx
    simp only [List.foldl_cons]
    apply ih
    by_cases hc : acc.any (fun q => q.binary == p.binary) = true
    · simpa [hc] using hx
    · simp only [hc, if_false]
      exact List.mem_append.mpr (Or.inl hx)

/-- Every deduplicated implicant comes from the input. -/
theorem dedupByBinary_sub (l : List Implicant) :
    ∀ q ∈ dedupByBinary l, q ∈ l := by
  unfold dedupByBinary
  have hgen : ∀ (ps acc : List Implicant),
      (∀ x ∈ acc, x ∈ l) → (∀ x ∈ ps, x ∈ l) →
      ∀ q ∈ ps.foldl
        (fun acc pi =>
          if acc.any (fun q => q.binary == pi.binary) then acc
          else acc ++ [pi]) acc, q ∈ l := by
    intro ps
    induction ps with
    | nil => intro acc hacc _ q hq; exact hacc q hq
    | cons p pr ih =>
      intro acc hacc hps q hq
      simp only [List.foldl_cons] at hq
      refine ih _ ?_ (fun x hx => hps x (by simp [hx])) q hq
      intro x hx
      by_cases hc : acc.any (fun r => r.binary == p.binary) = true
      · exact hacc x (by simpa [hc] using hx)
      · simp only [hc, if_false] at hx
        rcases List.mem_append.mp hx with h2 | h2
        · exact hacc x h2
        · exact hps x (by simp [List.mem_singleton.mp h2])
  exact hgen l [] (by simp) (fun x hx => hx)

/-- Every input pattern survives de-duplication. -/
theorem dedupByBinary_pattern (l : List Implicant) :
    ∀ p ∈ l, ∃ q ∈ dedupByBinary l, q.binary = p.binary := by
  unfold dedupByBinary
  have hgen : ∀ (ps acc : List Implicant), ∀ p,
      (p ∈ acc ∨ p ∈ ps) →
      ∃ q ∈ ps.foldl
        (fun acc pi =>
          if acc.any (fun q => q.binary == pi.binary) then acc
          else acc ++ [pi]) acc, q.binary = p.binary := by
    intro ps
    induction ps with
    | nil =>
      intro acc p hp
      rcases hp with hp | hp
      · exact ⟨p, dedup_foldl_mono [] acc p hp, rfl⟩
      · cases hp
    | cons hd tl ih =>
      intro acc p hp
      simp only [List.foldl_cons]
      rcases hp with hp | hp
      · by_cases hc : acc.any (fun r => r.binary == hd.binary) = true
        · simp only [hc, if_true]
          exact ih acc p (Or.inl hp)
        · simp only [hc, if_false]
          exact ih _ p (Or.inl (List.mem_append.mpr (Or.inl hp)))
      · rcases List.mem_cons.mp hp with rfl | hp2
        · by_cases hc : acc.any (fun r => r.binary == p.binary) = true
          · simp only [hc, if_true]
            rcases List.any_eq_true.mp hc with ⟨r, hr, hrb⟩
            exact ⟨r, dedup_foldl_mono tl acc r hr, beq_iff_eq.mp hrb⟩
          · simp only [hc, if_false]
            exact ⟨p, dedup_foldl_mono tl _ p
              (List.mem_append.mpr (Or.inr (by simp))), rfl⟩
        · by_cases hc : acc.any (fun r => r.binary == hd.binary) = true
          · simp only [hc, if_true]
            exact ih acc p (Or.inr hp2)
          · simp only [hc, if_false]
            exact ih _ p (Or.inr hp2)
  intro p hp
  exact hgen l [] p (Or.inr hp)

/-! ## Essential selection: first pass -/

/-- The first pass selects prime implicants whose minterm lists are fully
marked covered, and marks only minterms of selected implicants. -/
theorem findEssentialFirstPass_spec (P : List Implicant) (M : List Nat)
    (numVars : Nat) :
    (∀ pi ∈ (findEssentialFirstPass P M numVars).1, pi ∈ P ∧
      ∀ x ∈ pi.minterms, x ∈ (findEssentialFirstPass P M numVars).2) ∧
    ∀ x ∈ (findEssentialFirstPass P M numVars).2,
      ∃ pi ∈ (findEssentialFirstPass P M numVars).1, x ∈ pi.minterms := by
  unfold findEssentialFirstPass
  apply foldl_inv (fun st : List Implicant × List Nat =>
    (∀ pi ∈ st.1, pi ∈ P ∧ ∀ x ∈ pi.minterms, x ∈ st.2) ∧
    ∀ x ∈ st.2, ∃ pi ∈ st.1, x ∈ pi.minterms)
  · exact ⟨by simp, by simp⟩
  · intro st m _ hst
    cases hf : P.filter (fun pi => pi.covers m numVars) with
    | nil => simpa [hf] using hst
    | cons pi rest =>
      cases rest with
      | cons pi2 rest2 => simpa [hf] using hst
      | nil =>
        simp only [hf]
        by_cases hc : st.1.contains pi = true
        · rw [if_pos hc]
          exact hst
        · rw [if_neg hc]
          dsimp only
          have hpiP : pi ∈ P :=
            (List.mem_filter.mp (hf ▸ List.mem_cons_self pi [])).1
          constructor
          · intro pi2 hpi2
            rcases List.mem_append.mp hpi2 with h2 | h2
            · refine ⟨(hst.1 pi2 h2).1, ?_⟩
              intro x hx
              rw [mem_foldl_setAdd]
              exact Or.inl ((hst.1 pi2 h2).2 x hx)
            · have : pi2 = pi := List.mem_singleton.mp h2
              subst this
              refine ⟨hpiP, ?_⟩
              intro x hx
              rw [mem_foldl_setAdd]
              exact Or.inr hx
          · intro x hx
            rw [mem_foldl_setAdd] at hx
            rcases hx with hx | hx
            · rcases hst.2 x hx with ⟨pi2, hpi2, hxm⟩
              exact ⟨pi2, List.mem_append.mpr (Or.inl hpi2), hxm⟩
            · exact ⟨pi, List.mem_append.mpr (Or.inr (by simp)), hx⟩

/-! ## Essential selection: greedy pass -/

/-- The scan's running count never decreases. -/
theorem findBest_snd_mono (U : List Nat) (n : Nat) :
    ∀ (R : List Implicant) (init : Option Implicant × Nat),
      init.2 ≤ (R.foldl
        (fun best pi =>
          let count := (U.filter (fun m => pi.covers m n)).length
          if count > best.2 then (some pi, count) else best) init).2 := by
  intro R
  induction R with
  | nil => intro init; exact le_refl _
  | cons pi R ih =>
    intro init
    simp only [List.foldl_cons]
    refine le_trans ?_ (ih _)
    by_cases hc : (U.filter (fun m => pi.covers m n)).length > init.2
    · simp only [hc, if_true]
      omega
    · simp only [hc, if_false]
      exact le_refl _

/-- The scan's final count dominates every member's count. -/
theorem findBest_snd_ge (U : List Nat) (n : Nat) :
    ∀ (R : List Implicant) (init : Option Implicant × Nat)
      (pi : Implicant), pi ∈ R →
      (U.filter (fun m => pi.covers m n)).length ≤ (R.foldl
        (fun best pi =>
          let count := (U.filter (fun m => pi.covers m n)).length
          if count > best.2 then (some pi, count) else best) init).2 := by
  intro R
  induction R with
  | nil => intro init pi hpi; cases hpi
  | cons hd R ih =>
    intro init pi hpi
    simp only [List.foldl_cons]
    rcases List.mem_cons.mp hpi with rfl | hpi2
    · refine le_trans ?_ (findBest_snd_mono U n R _)
      by_cases hc : (U.filter (fun m => pi.covers m n)).length > init.2
      · simp only [hc, if_true]
        exact le_refl _
      · simp only [hc, if_false]
        omega
    · exact ih _ pi hpi2

/-- Invariant of the scan: a `none` best has count zero, and a `some` best
is a member whose positive count is recorded. -/
theorem findBest_inv (U : List Nat) (n : Nat) (R : List Implicant) :
    ((R.foldl
      (fun best pi =>
        let count := (U.filter (fun m => pi.covers m n)).length
        if count > best.2 then (some pi, count) else best)
      (none, 0)).1 = none →
      (R.foldl
        (fun best pi =>
          let count := (U.filter (fun m => pi.covers m n)).length
          if count > best.2 then (some pi, count) else best)
        (none, 0)).2 = 0) ∧
    ∀ b, (R.foldl
      (fun best pi =>
        let count := (U.filter (fun m => pi.covers m n)).length
        if count > best.2 then (some pi, count) else best)
      (none, 0)).1 = some b →
      b ∈ R ∧
      (R.foldl
        (fun best pi =>
          let count := (U.filter (fun m => pi.covers m n)).length
          if count > best.2 then (some pi, count) else best)
        (none, 0)).2 = (U.filter (fun m => b.covers m n)).length ∧
      0 < (R.foldl
        (fun best pi =>
          let count := (U.filter (fun m => pi.covers m n)).length
          if count > best.2 then (some pi, count) else best)
        (none, 0)).2 := by
  apply foldl_inv (fun best : Option Implicant × Nat =>
    (best.1 = none → best.2 = 0) ∧
    ∀ b, best.1 = some b → b ∈ R ∧
      best.2 = (U.filter (fun m => b.covers m n)).length ∧ 0 < best.2)
  · exact ⟨fun _ => rfl, by simp⟩
  · intro best pi hpi hbest
    by_cases hc : (U.filter (fun m => pi.covers m n)).length > best.2
    · simp only [hc, if_true]
      refine ⟨by simp, ?_⟩
      intro b hb
      simp only [Option.some.injEq] at hb
      subst hb
      exact ⟨hpi, rfl, by omega⟩
    · simp only [hc, if_false]
      exact hbest

/-- When some remaining prime implicant covers an uncovered minterm, the
scan yields a member with a positive recorded count. -/
theorem qmFindBest_pos (R : List Implicant) (U : List Nat) (n : Nat)
    (pi0 : Implicant) (h0 : pi0 ∈ R)
    (hc : 0 < (U.filter (fun m => pi0.covers m n)).length) :
    ∃ b, (qmFindBest R U n).1 = some b ∧ b ∈ R ∧
      (qmFindBest R U n).2 = (U.filter (fun m => b.covers m n)).length ∧
      0 < (qmFindBest R U n).2 := by
  have hge := findBest_snd_ge U n R (none, 0) pi0 h0
  have hinv := findBest_inv U n R
  cases hb : (qmFindBest R U n).1 with
  | none =>
    have h2 := hinv.1 hb
    unfold qmFindBest at h2
    unfold qmFindBest at hb
    omega
  | some b =>
    rcases hinv.2 b hb with ⟨hbR, hbc, hbp⟩
    exact ⟨b, rfl, hbR, hbc, hbp⟩

/-- A `some` scan result is always a member with its count recorded. -/
theorem qmFindBest_some (R : List Implicant) (U : List Nat) (n : Nat)
    (b : Implicant) (hb : (qmFindBest R U n).1 = some b) :
    b ∈ R ∧
    (qmFindBest R U n).2 = (U.filter (fun m => b.covers m n)).length := by
  rcases (findBest_inv U n R).2 b hb with ⟨h1, h2, _⟩
  exact ⟨h1, h2⟩

/-- Implicants already selected stay selected through the greedy loop. -/
theorem qmGreedy_mono :
    ∀ (fuel : Nat) (R : List Implicant) (U : List Nat)
      (E : List Implicant) (n : Nat) (e : Implicant), e ∈ E →
      e ∈ qmGreedy fuel R U E n := by
  intro fuel
  induction fuel with
  | zero => intro R U E n e he; exact he
  | succ f ih =>
    intro R U E n e he
    simp only [qmGreedy]
    by_cases hcond : U.length > 0 ∧ R.length > 0
    · rw [if_pos hcond]
      rcases hq : qmFindBest R U n with ⟨ob, c⟩
      cases ob with
      | none => exact he
      | some b =>
        dsimp only
        by_cases hc : c > 0
        · rw [if_pos hc]
          exact ih _ _ _ n e (List.mem_append.mpr (Or.inl he))
        · rw [if_neg hc]
          exact he
    · rw [if_neg hcond]
      exact he

/-- Every implicant the greedy loop returns was selected or remaining. -/
theorem qmGreedy_sub :
    ∀ (fuel : Nat) (R : List Implicant) (U : List Nat)
      (E : List Implicant) (n : Nat) (e : Implicant),
      e ∈ qmGreedy fuel R U E n → e ∈ E ∨ e ∈ R := by
  intro fuel
  induction fuel with
  | zero => intro R U E n e he; exact Or.inl he
  | succ f ih =>
    intro R U E n e he
    simp only [qmGreedy] at he
    by_cases hcond : U.length > 0 ∧ R.length > 0
    · rw [if_pos hcond] at he
      rcases hq : qmFindBest R U n with ⟨ob, c⟩
      rw [hq] at he
      cases ob with
      | none => exact Or.inl he
      | some b =>
        dsimp only at he
        have hbR : b ∈ R := by
          have : (qmFindBest R U n).1 = some b := by rw [hq]
          exact (qmFindBest_some R U n b this).1
        by_cases hc : c > 0
        · rw [if_pos hc] at he
          rcases ih _ _ _ n e he with h2 | h2
          · rcases List.mem_append.mp h2 with h3 | h3
            · exact Or.inl h3
            · exact Or.inr (List.mem_singleton.mp h3 ▸ hbR)
          · exact Or.inr (List.mem_of_mem_erase h2)
        · rw [if_neg hc] at he
          exact Or.inl he
    · rw [if_neg hcond] at he
      exact Or.inl he

/-- With every uncovered minterm coverable by a remaining prime implicant
and enough fuel, the greedy loop's selection covers them all. -/
theorem qmGreedy_covers :
    ∀ (fuel : Nat) (R : List Implicant) (U : List Nat)
      (E : List Implicant) (n : Nat),
      (∀ m ∈ U, ∃ pi ∈ R, pi.covers m n = true) → U.length < fuel →
      ∀ m ∈ U, ∃ e ∈ qmGreedy fuel R U E n, e.covers m n = true := by
  intro fuel
  induction fuel with
  | zero => intro R U E n _ hf; omega
  | succ f ih =>
    intro R U E n H hf m hm
    have hcond : U.length > 0 ∧ R.length > 0 := by
      constructor
      · exact List.length_pos.mpr (List.ne_nil_of_mem hm)
      · rcases H m hm with ⟨pi, hpi, _⟩
        exact List.length_pos.mpr (List.ne_nil_of_mem hpi)
    rcases H m hm with ⟨pi0, hpi0, hcov0⟩
    have hcnt : 0 < (U.filter (fun x => pi0.covers x n)).length := by
      apply List.length_pos.mpr
      exact List.ne_nil_of_mem (List.mem_filter.mpr ⟨hm, hcov0⟩)
    rcases qmFindBest_pos R U n pi0 hpi0 hcnt with ⟨b, hb1, hbR, hb2, hb3⟩
    simp only [qmGreedy]
    rw [if_pos hcond]
    rcases hq : qmFindBest R U n with ⟨ob, c⟩
    rw [hq] at hb1 hb2 hb3
    dsimp only at hb1 hb2 hb3
    subst hb1
    dsimp only
    rw [if_pos hb3]
    by_cases hbm : b.covers m n = true
    · exact ⟨b, qmGreedy_mono f _ _ _ n b
        (List.mem_append.mpr (Or.inr (by simp))), hbm⟩
    · have hm2 : m ∈ U.filter (fun x => ¬ b.covers x n) :=
        List.mem_filter.mpr ⟨hm, by simp [hbm]⟩
      refine ih (R.erase b) _ (E ++ [b]) n ?_ ?_ m hm2
      · intro x hx
        have hxU : x ∈ U := (List.mem_filter.mp hx).1
        have hnb : ¬ b.covers x n = true := by
          have := (List.mem_filter.mp hx).2
          simpa using this
        rcases H x hxU with ⟨pi, hpi, hcov⟩
        have hne : pi ≠ b := fun he => hnb (he ▸ hcov)
        exact ⟨pi, (List.mem_erase_of_ne hne).mpr hpi, hcov⟩
      · have hxcov : ∃ x ∈ U, b.covers x n = true := by
          have hpos : 0 < (U.filter (fun x => b.covers x n)).length := by
            rw [← hb2]
            exact hb3
          rcases List.exists_mem_of_length_pos hpos with ⟨x, hx⟩
          exact ⟨x, (List.mem_filter.mp hx).1, (List.mem_filter.mp hx).2⟩
        rcases hxcov with ⟨x, hxU, hxcov⟩
        have hlt : (U.filter (fun x => ¬ b.covers x n)).length < U.length := by
          apply List.length_filter_lt_length_iff_exists.mpr
          exact ⟨x, hxU, by simp [hxcov]⟩
        omega

/-- Every essential implicant is one of the prime implicants. -/
theorem fepi_sub (P : List Implicant) (M : List Nat) (n : Nat) :
    ∀ e ∈ findEssentialPrimeImplicants P M n, e ∈ P := by
  intro e he
  unfold findEssentialPrimeImplicants at he
  by_cases hP : P.isEmpty
  · rw [if_pos hP] at he
    cases he
  · rw [if_neg hP] at he
    rcases qmGreedy_sub _ _ _ _ n e he with h2 | h2
    · exact (((findEssentialFirstPass_spec P M n).1 e h2)).1
    · exact (List.mem_filter.mp h2).1

/-- With invariant prime implicants covering all minterms, the selected
essentials cover all minterms. -/
theorem fepi_covers (P : List Implicant) (M : List Nat) (n : Nat)
    (hwf : ∀ p ∈ P, WfImp n M p) (hMlt : ∀ x ∈ M, x < 2 ^ n)
    (hcov : ∀ m ∈ M, ∃ p ∈ P, p.covers m n = true) :
    ∀ m ∈ M, ∃ e ∈ findEssentialPrimeImplicants P M n,
      e.covers m n = true := by
  intro m hm
  unfold findEssentialPrimeImplicants
  by_cases hP : P.isEmpty
  · rcases hcov m hm with ⟨p, hp, _⟩
    have hnil : P = [] := by
      cases P with
      | nil => rfl
      | cons a as => simp [List.isEmpty] at hP
    rw [hnil] at hp
    cases hp
  · rw [if_neg hP]
    dsimp only
    by_cases hmc : m ∈ (findEssentialFirstPass P M n).2
    · rcases (findEssentialFirstPass_spec P M n).2 m hmc with ⟨pi, hpi, hxm⟩
      refine ⟨pi, qmGreedy_mono _ _ _ _ n pi hpi, ?_⟩
      have hpiP := ((findEssentialFirstPass_spec P M n).1 pi hpi).1
      exact ((hwf pi hpiP).2.2.2 m (hMlt m hm)).mpr hxm
    · have hmu : m ∈ M.filter
          (fun x => ¬ (findEssentialFirstPass P M n).2.contains x) :=
        List.mem_filter.mpr ⟨hm, by simpa using hmc⟩
      apply qmGreedy_covers _ _ _ _ n ?_ (by omega) m hmu
      intro x hx
      have hxM : x ∈ M := (List.mem_filter.mp hx).1
      have hxnot : ¬ x ∈ (findEssentialFirstPass P M n).2 := by
        have := (List.mem_filter.mp hx).2
        simpa using this
      rcases hcov x hxM with ⟨p, hpP, hpc⟩
      have hpnotsel : ¬ p ∈ (findEssentialFirstPass P M n).1 := by
        intro hsel
        have hxm : x ∈ p.minterms :=
          ((hwf p hpP).2.2.2 x (hMlt x hxM)).mp hpc
        exact hxnot
          (((findEssentialFirstPass_spec P M n).1 p hsel).2 x hxm)
      refine ⟨p, List.mem_filter.mpr ⟨hpP, by simpa using hpnotsel⟩, hpc⟩

/-! ## From patterns to product terms -/

/-- Looking up a variable in the binding of a minterm reads the matching
bit (most significant bit first). -/
theorem lookup_mintermToBinding (m : Nat) (vars : List String)
    (hnd : vars.Nodup) (j : Nat) (hj : j < vars.length) :
    lookupBinding (mintermToBinding m vars) (vars.getD j "") =
      some (m.testBit (vars.length - 1 - j)) := by
  unfold mintermToBinding
  rw [lookupBinding_combo vars hnd
    (fun i => decide (((m >>> (vars.length - 1 - i)) &&& 1) ≠ 0)) j hj]
  rw [shift_and_one_testBit]

/-- The product term of a pattern holds exactly when every non-dash
position's literal matches the binding. -/
theorem evalTermLits_pos :
    ∀ (cs : List Char) (vs : List String)
      (binding : List (String × Bool)), cs.length = vs.length →
      (evalTermLits (termLitsAux cs vs) binding = true ↔
        ∀ i < cs.length,
          (cs.getD i ' ' = '1' →
            lookupBinding binding (vs.getD i "") = some true) ∧
          (cs.getD i ' ' = '0' →
            lookupBinding binding (vs.getD i "") = some false)) := by
  intro cs
  induction cs with
  | nil =>
    intro vs binding _
    simp [termLitsAux, evalTermLits]
  | cons c cs ih =>
    intro vs binding hlen
    cases vs with
    | nil => simp at hlen
    | cons v vs =>
      simp only [List.length_cons, Nat.add_right_cancel_iff] at hlen
      have hshift : (∀ i < cs.length + 1,
          ((c :: cs).getD i ' ' = '1' →
            lookupBinding binding ((v :: vs).getD i "") = some true) ∧
          ((c :: cs).getD i ' ' = '0' →
            lookupBinding binding ((v :: vs).getD i "") = some false)) ↔
          ((c = '1' → lookupBinding binding v = some true) ∧
            (c = '0' → lookupBinding binding v = some false)) ∧
          (∀ i < cs.length,
            (cs.getD i ' ' = '1' →
              lookupBinding binding (vs.getD i "") = some true) ∧
            (cs.getD i ' ' = '0' →
              lookupBinding binding (vs.getD i "") = some false)) := by
        constructor
        · intro h
          refine ⟨by simpa using h 0 (by simp), ?_⟩
          intro i hi
          simpa using h (i + 1) (by omega)
        · intro h i hi
          cases i with
          | zero => simpa using h.1
          | succ i' =>
            simp only [List.getD_cons_succ]
            exact h.2 i' (by omega)
      rw [show (c :: cs).length = cs.length + 1 from rfl, hshift]
      by_cases h1 : c = '1'
      · subst h1
        have ht : termLitsAux ('1' :: cs) (v :: vs) =
            (v, true) :: termLitsAux cs vs := by
          simp [termLitsAux]
        rw [ht]
        unfold evalTermLits
        rw [List.all_cons, Bool.and_eq_true]
        unfold evalTermLits at ih
        rw [ih vs binding hlen]
        simp
      · by_cases h0 : c = '0'
        · subst h0
          have ht : termLitsAux ('0' :: cs) (v :: vs) =
              (v, false) :: termLitsAux cs vs := by
            simp [termLitsAux]
          rw [ht]
          unfold evalTermLits
          rw [List.all_cons, Bool.and_eq_true]
          unfold evalTermLits at ih
          rw [ih vs binding hlen]
          simp
        · have ht : termLitsAux (c :: cs) (v :: vs) =
              termLitsAux cs vs := by
            simp [termLitsAux, h1, h0]
          rw [ht]
          constructor
          · intro h
            refine ⟨⟨fun hc => absurd hc h1, fun hc => absurd hc h0⟩, ?_⟩
            exact (ih vs binding hlen).mp h
          · intro h
            exact (ih vs binding hlen).mpr h.2

/-- The rendered product term of an invariant implicant evaluates, under a
minterm's binding, exactly to whether the implicant covers the minterm. -/
theorem evalTerm_covers (pi : Implicant) (vars : List String) (n m : Nat)
    (hlen : pi.binary.length = n)
    (hwf : ∀ c ∈ pi.binary, c = '0' ∨ c = '1' ∨ c = '-')
    (hv : vars.length = n) (hnd : vars.Nodup) (hn : 0 < n)
    (hm : m < 2 ^ n) :
    evalTermLits (pi.toTermLits vars) (mintermToBinding m vars) =
      pi.covers m n := by
  have htl : pi.toTermLits vars = termLitsAux pi.binary vars := rfl
  have hiff1 := evalTermLits_pos pi.binary vars (mintermToBinding m vars)
    (by omega)
  have hiff2 := covers_pos pi n m hlen hn hm
  have hlook : ∀ i < n,
      lookupBinding (mintermToBinding m vars) (vars.getD i "") =
        some (m.testBit (n - 1 - i)) := by
    intro i hi
    rw [lookup_mintermToBinding m vars hnd i (by omega), hv]
  cases hcov : pi.covers m n with
  | true =>
    rw [htl]
    apply hiff1.mpr
    have hc2 := hiff2.mp hcov
    intro i hi
    rw [hlen] at hi
    constructor
    · intro h1
      rw [hlook i hi]
      rcases hc2 i hi with hd | hd
      · rw [h1] at hd; cases hd
      · rw [h1] at hd
        rw [bitChars_getD m n i hi] at hd
        by_cases ht : m.testBit (n - 1 - i)
        · rw [ht]
        · rw [if_neg ht] at hd; cases hd
    · intro h0
      rw [hlook i hi]
      rcases hc2 i hi with hd | hd
      · rw [h0] at hd; cases hd
      · rw [h0] at hd
        rw [bitChars_getD m n i hi] at hd
        by_cases ht : m.testBit (n - 1 - i)
        · rw [if_pos ht] at hd; cases hd
        · have hf : m.testBit (n - 1 - i) = false := by
            simpa using ht
          rw [hf]
  | false =>
    rw [htl]
    cases hev : evalTermLits (termLitsAux pi.binary vars)
        (mintermToBinding m vars) with
    | false => rfl
    | true =>
      exfalso
      have hall := hiff1.mp hev
      have hc2 : ∀ i < n, pi.binary.getD i ' ' = '-' ∨
          pi.binary.getD i ' ' = (bitChars m n).getD i ' ' := by
        intro i hi
        rcases hwf (pi.binary.getD i ' ')
            (getD_mem pi.binary ' ' i (by omega)) with h | h | h
        · right
          rw [h, bitChars_getD m n i hi]
          have hb := (hall i (by omega)).2 h
          rw [hlook i hi] at hb
          simp only [Option.some.injEq] at hb
          rw [hb]
          rfl
        · right
          rw [h, bitChars_getD m n i hi]
          have hb := (hall i (by omega)).1 h
          rw [hlook i hi] at hb
          simp only [Option.some.injEq] at hb
          rw [hb]
          rfl
        · exact Or.inl h
      have := hiff2.mpr hc2
      rw [hcov] at this
      cases this

/-- C1: for a non-empty, non-full duplicate-free minterm set over
`numVars` variables and a duplicate-free variable list of matching
length, the SOP expression selected by `quineMcCluskey` evaluates, under
the binding of any input `m < 2^numVars` (MSB aligned to the first
variable), to true exactly when `m` is one of the input minterms — the
minimized expression has the same truth table as the original
function. -/
theorem quineMcCluskey_truth_table_equivalence
    (minterms : List Nat) (numVars : Nat) (vars : List String)
    (hnodup : minterms.Nodup)
    (hlt : ∀ x ∈ minterms, x < 2 ^ numVars)
    (hne : minterms ≠ [])
    (hnf : minterms.length ≠ 2 ^ numVars)
    (hvlen : vars.length = numVars) (hvnd : vars.Nodup)
    (m : Nat) (hm : m < 2 ^ numVars) :
    evalSOP (quineMcCluskey minterms numVars vars).essentialImplicants
      vars (mintermToBinding m vars) = decide (m ∈ minterms) := by
  have hn : 0 < numVars := by
    by_contra hcon
    push_neg at hcon
    have h0 : numVars = 0 := by omega
    subst h0
    cases minterms with
    | nil => exact hne rfl
    | cons a tail =>
      have ha : a = 0 := by have := hlt a (by simp); omega
      cases tail with
      | nil => exact hnf (by simp)
      | cons b tl2 =>
        have hb : b = 0 := by have := hlt b (by simp); omega
        rw [List.nodup_cons] at hnodup
        exact hnodup.1 (by simp [ha, hb])
  have hlen0 : minterms.length ≠ 0 :=
    fun h => hne (List.length_eq_zero.mp h)
  have hqm : (quineMcCluskey minterms numVars vars).essentialImplicants =
      findEssentialPrimeImplicants
        (dedupByBinary (qmLoop (numVars + 2)
          (minterms.map
            (fun x => Implicant.make [x] (toBinary x numVars))) []))
        minterms numVars := by
    unfold quineMcCluskey
    rw [if_neg hlen0, if_neg hnf]
  rw [hqm]
  have hseedprop : ∀ imp ∈ minterms.map
      (fun x => Implicant.make [x] (toBinary x numVars)),
      WfImp numVars minterms imp ∧ dashCount imp = 0 := by
    intro imp himp
    rcases List.mem_map.mp himp with ⟨x, hx, rfl⟩
    exact seed_wf minterms numVars x hn hx hlt
  have hloop := qmLoop_spec numVars minterms hn (numVars + 2) 0
    (minterms.map (fun x => Implicant.make [x] (toBinary x numVars))) []
    hseedprop (by simp) (by omega) (by omega)
  have hP0cov : ∀ x ∈ minterms,
      ∃ p ∈ qmLoop (numVars + 2)
        (minterms.map (fun x => Implicant.make [x] (toBinary x numVars)))
        [], p.covers x numVars = true := by
    intro x hx
    have hseedm : Implicant.make [x] (toBinary x numVars) ∈
        minterms.map (fun x => Implicant.make [x] (toBinary x numVars)) :=
      List.mem_map_of_mem _ hx
    have hcovx :
        (Implicant.make [x] (toBinary x numVars)).covers x numVars =
          true :=
      (seed_covers x x numVars hn (hlt x hx) (hlt x hx)).mpr rfl
    exact hloop.2 _ (Or.inl hseedm) x (hlt x hx) hcovx
  have hP1wf : ∀ p ∈ dedupByBinary (qmLoop (numVars + 2)
      (minterms.map (fun x => Implicant.make [x] (toBinary x numVars)))
      []), WfImp numVars minterms p :=
    fun p hp => hloop.1 p (dedupByBinary_sub _ p hp)
  have hP1cov : ∀ x ∈ minterms,
      ∃ p ∈ dedupByBinary (qmLoop (numVars + 2)
        (minterms.map (fun x => Implicant.make [x] (toBinary x numVars)))
        []), p.covers x numVars = true := by
    intro x hx
    rcases hP0cov x hx with ⟨p, hp, hc⟩
    rcases dedupByBinary_pattern _ p hp with ⟨q, hq, hqb⟩
    exact ⟨q, hq, by rw [covers_binary_congr q p x numVars hqb]; exact hc⟩
  have hEwf : ∀ e ∈ findEssentialPrimeImplicants
      (dedupByBinary (qmLoop (numVars + 2)
        (minterms.map (fun x => Implicant.make [x] (toBinary x numVars)))
        [])) minterms numVars, WfImp numVars minterms e :=
    fun e he => hP1wf e (fepi_sub _ minterms numVars e he)
  have hEcov := fepi_covers _ minterms numVars hP1wf hlt hP1cov
  by_cases hmM : m ∈ minterms
  · have hd : decide (m ∈ minterms) = true := by simp [hmM]
    rw [hd]
    rcases hEcov m hmM with ⟨e, he, hec⟩
    unfold evalSOP
    rw [List.any_eq_true]
    refine ⟨e, he, ?_⟩
    rw [evalTerm_covers e vars numVars m (hEwf e he).1
      (hEwf e he).2.1 hvlen hvnd hn hm]
    exact hec
  · have hd : decide (m ∈ minterms) = false := by simp [hmM]
    rw [hd]
    unfold evalSOP
    rw [List.any_eq_false]
    intro e he
    intro hterm
    rw [evalTerm_covers e vars numVars m (hEwf e he).1
      (hEwf e he).2.1 hvlen hvnd hn hm] at hterm
    exact hmM ((hEwf e he).2.2.1 m (((hEwf e he).2.2.2 m hm).mp hterm))

/-- Witness for C1 on the minterm set `{3,5,6,7}` over three variables,
evaluated at input 5. -/
theorem quineMcCluskey_truth_table_equivalence_witness :
    ([3, 5, 6, 7] : List Nat).Nodup ∧
    (∀ x ∈ ([3, 5, 6, 7] : List Nat), x < 2 ^ 3) ∧
    ([3, 5, 6, 7] : List Nat) ≠ [] ∧
    ([3, 5, 6, 7] : List Nat).length ≠ 2 ^ 3 ∧
    (["A", "B", "C"] : List String).length = 3 ∧
    (["A", "B", "C"] : List String).Nodup ∧ 5 < 2 ^ 3 ∧
    evalSOP
      (quineMcCluskey [3, 5, 6, 7] 3 ["A", "B", "C"]).essentialImplicants
      ["A", "B", "C"] (mintermToBinding 5 ["A", "B", "C"]) =
      decide (5 ∈ ([3, 5, 6, 7] : List Nat)) :=
  ⟨by decide, by decide, by decide, by decide, by decide, by decide,
    by decide,
    quineMcCluskey_truth_table_equivalence [3, 5, 6, 7] 3 ["A", "B", "C"]
      (by decide) (by decide) (by decide) (by decide) (by decide)
      (by decide) 5 (by decide)⟩

/-! ## Round trip, part 1: character classes -/

/-- Letters are word characters. -/
theorem isWordChar_of_alpha (c : Char) (h : c.isAlpha = true) :
    isWordChar c = true := by
  simp [isWordChar, h]

/-- Letters are not whitespace. -/
theorem isWSChar_of_alpha (c : Char) (h : c.isAlpha = true) :
    isWSChar c = false := by
  cases hw : isWSChar c with
  | false => rfl
  | true =>
    exfalso
    simp only [isWSChar, Char.isWhitespace, Bool.or_eq_true,
      decide_eq_true_eq] at hw
    rcases hw with ((hc | hc) | hc) | hc <;> subst hc <;> simp at h

/-- Uppercasing preserves letters. -/
theorem isAlpha_toUpper (c : Char) (h : c.isAlpha = true) :
    c.toUpper.isAlpha = true := by
  unfold Char.toUpper
  by_cases hr : c.toNat ≥ 97 ∧ c.toNat ≤ 122
  · rw [if_pos hr]
    obtain ⟨h1, h2⟩ := hr
    set n := c.toNat with hn
    interval_cases n <;> decide
  · rw [if_neg hr]
    exact h

/-- Uppercasing preserves word characters. -/
theorem isWordChar_toUpper (c : Char) (h : isWordChar c = true) :
    isWordChar c.toUpper = true := by
  unfold Char.toUpper
  by_cases hr : c.toNat ≥ 97 ∧ c.toNat ≤ 122
  · rw [if_pos hr]
    obtain ⟨h1, h2⟩ := hr
    set n := c.toNat with hn
    interval_cases n <;> decide
  · rw [if_neg hr]
    exact h

/-- Lowercasing after uppercasing is plain lowercasing. -/
theorem toLower_toUpper (c : Char) : c.toUpper.toLower = c.toLower := by
  unfold Char.toUpper
  by_cases hr : c.toNat ≥ 97 ∧ c.toNat ≤ 122
  · rw [if_pos hr]
    have hlow : (Char.ofNat (c.toNat - 32)).toLower =
        Char.ofNat c.toNat := by
      obtain ⟨h1, h2⟩ := hr
      set n := c.toNat with hn
      interval_cases n <;> decide
    rw [hlow, Char.ofNat_toNat]
    unfold Char.toLower
    rw [if_neg (by omega)]
  · rw [if_neg hr]

/-- Peeling one agreeing character off a keyword match. -/
theorem matchKeyword_cons (k : Char) (ks : List Char) (c : Char)
    (t : List Char) (hkc : (k.toLower == c.toLower) = true) :
    matchKeyword (k :: ks) (c :: t) = matchKeyword ks t := by
  simp only [matchKeyword, startsWithCI, hkc, Bool.true_and,
    List.length_cons]
  have hb : hasWordBoundaryAfter (ks.length + 1) (c :: t) =
      hasWordBoundaryAfter ks.length t := by
    simp [hasWordBoundaryAfter]
  rw [hb]

/-- A keyword pattern never matches a lexed identifier followed by a
space, a closing parenthesis, or the end of input: the identifier is all
word characters and is not case-insensitively equal to the keyword. -/
theorem matchKeyword_append_false :
    ∀ (kw n rest : List Char),
      n ≠ [] → (∀ c ∈ n, isWordChar c = true) →
      (∀ c ∈ kw, (c.toLower == ' ') = false ∧ (c.toLower == ')') = false) →
      kw.map Char.toLower ≠ n.map Char.toLower →
      (rest = [] ∨ ∃ d ds, rest = d :: ds ∧ (d = ' ' ∨ d = ')')) →
      matchKeyword kw (n ++ rest) = false := by
  intro kw
  induction kw with
  | nil =>
    intro n rest hne hword _ _ _
    cases n with
    | nil => exact absurd rfl hne
    | cons c cs =>
      simp only [matchKeyword, startsWithCI, List.length_nil,
        hasWordBoundaryAfter, List.cons_append, List.drop_zero,
        Bool.true_and]
      rw [hword c (by simp)]
      rfl
  | cons k ks ih =>
    intro n rest hne hword hkw hmap hrest
    cases n with
    | nil => exact absurd rfl hne
    | cons c cs =>
      by_cases hkc : (k.toLower == c.toLower) = true
      · rw [List.cons_append, matchKeyword_cons k ks c (cs ++ rest) hkc]
        cases cs with
        | nil =>
          cases ks with
          | nil =>
            exfalso
            apply hmap
            simp only [List.map_cons, List.map_nil]
            rw [beq_iff_eq.mp hkc]
          | cons k2 ks2 =>
            simp only [List.nil_append]
            rcases hrest with hr | ⟨d, ds, hds, hd⟩
            · subst hr
              simp [matchKeyword, startsWithCI]
            · subst hds
              have hdl : d.toLower = d := by
                rcases hd with rfl | rfl <;> decide
              have hd2 : (k2.toLower == d.toLower) = false := by
                rw [hdl]
                rcases hd with rfl | rfl
                · exact (hkw k2 (by simp)).1
                · exact (hkw k2 (by simp)).2
              simp [matchKeyword, startsWithCI, hd2]
        | cons c2 cs2 =>
          apply ih (c2 :: cs2) rest (by simp)
            (fun x hx => hword x (by simp [hx]))
            (fun x hx => hkw x (by simp [hx])) ?_ hrest
          intro hcontra
          apply hmap
          rw [List.map_cons, List.map_cons, beq_iff_eq.mp hkc, hcontra]
      · rw [List.cons_append]
        simp only [matchKeyword, startsWithCI]
        rw [Bool.eq_false_iff.mpr (fun h => hkc h)]
        rfl

/-- Unpacking `goodName`: shape facts about a lexed identifier. -/
theorem goodName_spec (n : String) (h : goodName n = true) :
    (∃ c cs, n.data = c :: cs ∧ c.isAlpha = true) ∧
    (∀ c ∈ n.data, isWordChar c = true) ∧ jsToUpperCase n = n ∧
    n.data.map Char.toLower ≠ "xnor".data ∧
    n.data.map Char.toLower ≠ "nand".data ∧
    n.data.map Char.toLower ≠ "nor".data ∧
    n.data.map Char.toLower ≠ "xor".data ∧
    n.data.map Char.toLower ≠ "and".data ∧
    n.data.map Char.toLower ≠ "or".data ∧
    n.data.map Char.toLower ≠ "not".data ∧
    n.data.map Char.toLower ≠ "true".data ∧
    n.data.map Char.toLower ≠ "false".data := by
  unfold goodName at h
  cases hnd : n.data with
  | nil => rw [hnd] at h; cases h
  | cons c cs =>
    rw [hnd] at h
    simp only [Bool.and_eq_true, Bool.not_eq_true', Bool.or_eq_false_iff,
      beq_iff_eq, beq_eq_false_iff_ne, ne_eq] at h
    obtain ⟨h12, hnot⟩ := h
    obtain ⟨h11, hup⟩ := h12
    obtain ⟨halpha, hword⟩ := h11
    obtain ⟨h18, hk9⟩ := hnot
    obtain ⟨h17, hk8⟩ := h18
    obtain ⟨h16, hk7⟩ := h17
    obtain ⟨h15, hk6⟩ := h16
    obtain ⟨h14, hk5⟩ := h15
    obtain ⟨h13, hk4⟩ := h14
    obtain ⟨h1x, hk3⟩ := h13
    obtain ⟨hk1, hk2⟩ := h1x
    have hlow : ∀ (w : String), ¬ jsToLowerCase n = w →
        n.data.map Char.toLower ≠ w.data := by
      intro w hw hcon
      exact hw (by simp only [jsToLowerCase, hcon])
    rw [← hnd]
    refine ⟨⟨c, cs, hnd, halpha⟩, ?_, hup, hlow _ hk1, hlow _ hk2,
      hlow _ hk3, hlow _ hk4, hlow _ hk5, hlow _ hk6, hlow _ hk7,
      hlow _ hk8, hlow _ hk9⟩
    intro x hx
    rw [List.all_eq_true] at hword
    exact hword x (hnd ▸ hx)

/-- The word-character run of an identifier stops exactly at its end. -/
theorem takeWhile_append_all {α : Type} (p : α → Bool) :
    ∀ (l1 l2 : List α), (∀ x ∈ l1, p x = true) →
      (l2 = [] ∨ ∃ d ds, l2 = d :: ds ∧ p d = false) →
      (l1 ++ l2).takeWhile p = l1 := by
  intro l1
  induction l1 with
  | nil =>
    intro l2 _ h2
    rcases h2 with rfl | ⟨d, ds, rfl, hd⟩
    · rfl
    · simp [List.takeWhile_cons, hd]
  | cons a as ih =>
    intro l2 h1 h2
    rw [List.cons_append, List.takeWhile_cons, h1 a (by simp)]
    rw [ih l2 (fun x hx => h1 x (by simp [hx])) h2]
    rfl

/-! ## Round trip, part 2: re-tokenizing a rendered AST -/

/-- One lexer step over a lexed identifier: a single VARIABLE token whose
value is the identifier itself. -/
theorem tokStep_var (n : String) (hg : goodName n = true)
    (rest : List Char) (hrest : ChunkRest rest) :
    ∀ (fuel pos : Nat) (acc : List TSToken),
      tsTokenizeLoop (fuel + 1) (n.data ++ rest) pos acc =
        tsTokenizeLoop fuel rest (pos + n.data.length)
          (acc ++ [⟨.VARIABLE, n, pos, n.data.length⟩]) := by
  obtain ⟨⟨c, cs, hnd, halpha⟩, hword, hup, h1, h2, h3, h4, h5, h6, h7,
    h8, h9⟩ := goodName_spec n hg
  intro fuel pos acc
  have hne : n.data ≠ [] := by rw [hnd]; simp
  have hwordrest : rest = [] ∨ ∃ d ds, rest = d :: ds ∧
      isWordChar d = false := by
    rcases hrest with hr | ⟨d, ds, hds, hd⟩
    · exact Or.inl hr
    · exact Or.inr ⟨d, ds, hds, by rcases hd with rfl | rfl <;> decide⟩
  have htake : (n.data ++ rest).takeWhile isWordChar = n.data :=
    takeWhile_append_all _ _ _ hword hwordrest
  have hK1 : matchKeyword "XNOR".data (n.data ++ rest) = false :=
    matchKeyword_append_false _ _ _ hne hword (by decide)
      (by rw [show "XNOR".data.map Char.toLower = "xnor".data from by
        decide]; exact fun hc => h1 hc.symm) hrest
  have hK2 : matchKeyword "NAND".data (n.data ++ rest) = false :=
    matchKeyword_append_false _ _ _ hne hword (by decide)
      (by rw [show "NAND".data.map Char.toLower = "nand".data from by
        decide]; exact fun hc => h2 hc.symm) hrest
  have hK3 : matchKeyword "NOR".data (n.data ++ rest) = false :=
    matchKeyword_append_false _ _ _ hne hword (by decide)
      (by rw [show "NOR".data.map Char.toLower = "nor".data from by
        decide]; exact fun hc => h3 hc.symm) hrest
  have hK4 : matchKeyword "XOR".data (n.data ++ rest) = false :=
    matchKeyword_append_false _ _ _ hne hword (by decide)
      (by rw [show "XOR".data.map Char.toLower = "xor".data from by
        decide]; exact fun hc => h4 hc.symm) hrest
  have hK5 : matchKeyword "AND".data (n.data ++ rest) = false :=
    matchKeyword_append_false _ _ _ hne hword (by decide)
      (by rw [show "AND".data.map Char.toLower = "and".data from by
        decide]; exact fun hc => h5 hc.symm) hrest
  have hK6 : matchKeyword "OR".data (n.data ++ rest) = false :=
    matchKeyword_append_false _ _ _ hne hword (by decide)
      (by rw [show "OR".data.map Char.toLower = "or".data from by
        decide]; exact fun hc => h6 hc.symm) hrest
  have hK7 : matchKeyword "NOT".data (n.data ++ rest) = false :=
    matchKeyword_append_false _ _ _ hne hword (by decide)
      (by rw [show "NOT".data.map Char.toLower = "not".data from by
        decide]; exact fun hc => h7 hc.symm) hrest
  have hK8 : matchKeyword "true".data (n.data ++ rest) = false :=
    matchKeyword_append_false _ _ _ hne hword (by decide)
      (by rw [show "true".data.map Char.toLower = "true".data from by
        decide]; exact fun hc => h8 hc.symm) hrest
  have hK9 : matchKeyword "false".data (n.data ++ rest) = false :=
    matchKeyword_append_false _ _ _ hne hword (by decide)
      (by rw [show "false".data.map Char.toLower = "false".data from by
        decide]; exact fun hc => h9 hc.symm) hrest
  have hws : isWSChar c = false := isWSChar_of_alpha c halpha
  have hc0 : ¬ c = '0' := fun hc => by rw [hc] at halpha; cases halpha
  have hc1 : ¬ c = '1' := fun hc => by rw [hc] at halpha; cases halpha
  have htk : (n.data ++ rest).take n.data.length = n.data :=
    List.take_left n.data rest
  have hdr : (n.data ++ rest).drop n.data.length = rest :=
    List.drop_left n.data rest
  have hscr : n.data ++ rest = c :: (cs ++ rest) := by rw [hnd]; rfl
  have hK1b : matchKeyword ['X', 'N', 'O', 'R'] (n.data ++ rest) =
      false := hK1
  have hK2b : matchKeyword ['N', 'A', 'N', 'D'] (n.data ++ rest) =
      false := hK2
  have hK3b : matchKeyword ['N', 'O', 'R'] (n.data ++ rest) = false := hK3
  have hK4b : matchKeyword ['X', 'O', 'R'] (n.data ++ rest) = false := hK4
  have hK5b : matchKeyword ['A', 'N', 'D'] (n.data ++ rest) = false := hK5
  have hK6b : matchKeyword ['O', 'R'] (n.data ++ rest) = false := hK6
  have hK7b : matchKeyword ['N', 'O', 'T'] (n.data ++ rest) = false := hK7
  have hK8b : matchKeyword ['t', 'r', 'u', 'e'] (n.data ++ rest) =
      false := hK8
  have hK9b : matchKeyword ['f', 'a', 'l', 's', 'e'] (n.data ++ rest) =
      false := hK9
  rw [hscr] at hK1b hK2b hK3b hK4b hK5b hK6b hK7b hK8b hK9b htake htk hdr
  have hnext : tsNextToken (c :: (cs ++ rest)) pos =
      .ok (some ⟨.VARIABLE, n, pos, n.data.length⟩, n.data.length) := by
    unfold tsNextToken
    simp only [TOKEN_PATTERNS, tsNextTokenAux, hws, hK1b, hK2b,
      hK3b, hK4b, hK5b, hK6b, hK7b, hK8b, hK9b, halpha, hc0, hc1,
      if_false, if_true, Bool.false_eq_true, false_and, or_self,
      ite_false, or_false, false_or, and_false, if_neg,
      not_false_eq_true]
    rw [htake, htk]
    simp only [normalizeValue]
    rw [show String.mk n.data = n from rfl, hup]
  rw [hscr]
  simp only [tsTokenizeLoop]
  rw [hnext]
  dsimp only
  rw [hdr]

/-- One lexer step over the rendered NOT symbol. -/
theorem tokStep_not (fuel pos : Nat) (tail : List Char)
    (acc : List TSToken) :
    tsTokenizeLoop (fuel + 1) ('~' :: tail) pos acc =
      tsTokenizeLoop fuel tail (pos + 1) (acc ++ [⟨.NOT, "~", pos, 1⟩]) :=
  rfl

/-- One lexer step over an opening parenthesis. -/
theorem tokStep_lparen (fuel pos : Nat) (tail : List Char)
    (acc : List TSToken) :
    tsTokenizeLoop (fuel + 1) ('(' :: tail) pos acc =
      tsTokenizeLoop fuel tail (pos + 1)
        (acc ++ [⟨.LPAREN, "(", pos, 1⟩]) :=
  rfl

/-- One lexer step over a closing parenthesis. -/
theorem tokStep_rparen (fuel pos : Nat) (tail : List Char)
    (acc : List TSToken) :
    tsTokenizeLoop (fuel + 1) (')' :: tail) pos acc =
      tsTokenizeLoop fuel tail (pos + 1)
        (acc ++ [⟨.RPAREN, ")", pos, 1⟩]) :=
  rfl

/-- One lexer step over a rendered binary-operator symbol. -/
theorem tokStep_op (k : BinKind) (fuel pos : Nat) (tail : List Char)
    (acc : List TSToken) :
    tsTokenizeLoop (fuel + 1) ((opSymbol k).data ++ tail) pos acc =
      tsTokenizeLoop fuel tail (pos + 1)
        (acc ++ [⟨opTokType k, opSymbol k, pos, 1⟩]) := by
  cases k <;> rfl

/-- One lexer step over a rendered literal (the following character is a
space, a closing parenthesis, or the end of input, giving the required
word boundary). -/
theorem tokStep_lit (b : Bool) (tail : List Char) (htail : ChunkRest tail)
    (fuel pos : Nat) (acc : List TSToken) :
    tsTokenizeLoop (fuel + 1) ((if b then '1' else '0') :: tail) pos acc =
      tsTokenizeLoop fuel tail (pos + 1)
        (acc ++ [⟨.LITERAL, if b then "1" else "0", pos, 1⟩]) := by
  rcases htail with rfl | ⟨d, ds, rfl, hd⟩
  · cases b <;> rfl
  · rcases hd with rfl | rfl <;> cases b <;> rfl

/-- One lexer step over a rendered space: no token, one character
consumed (the following character is never whitespace). -/
theorem tokStep_space (tail : List Char)
    (htail : tail = [] ∨ ∃ d ds, tail = d :: ds ∧ isWSChar d = false)
    (fuel pos : Nat) (acc : List TSToken) :
    tsTokenizeLoop (fuel + 1) (' ' :: tail) pos acc =
      tsTokenizeLoop fuel tail (pos + 1) acc := by
  rcases htail with rfl | ⟨d, ds, rfl, hd⟩
  · rfl
  · have ht : ((' ' :: (d :: ds)).takeWhile isWSChar) = [' '] := by
      rw [List.takeWhile_cons, if_pos (show isWSChar ' ' = true by decide),
        List.takeWhile_cons, hd]
      rfl
    simp only [tsTokenizeLoop, tsNextToken, tsNextTokenAux,
      TOKEN_PATTERNS]
    rw [show (if isWSChar ' ' then
        some ((' ' :: (d :: ds)).takeWhile isWSChar).length else none) =
        some 1 from by rw [ht]; decide]
    rfl

/-- Skeleton agreement splits over concatenation. -/
theorem Shaped_append :
    ∀ (a : List TSToken) (x : List (TSTokenType × String))
      (b : List TSToken) (y : List (TSTokenType × String)),
      Shaped a x → Shaped b y → Shaped (a ++ b) (x ++ y) := by
  intro a
  induction a with
  | nil =>
    intro x b y hax hby
    cases x with
    | nil => exact hby
    | cons p ps => cases hax
  | cons tok ts ih =>
    intro x b y hax hby
    cases x with
    | nil => cases hax
    | cons p ps =>
      obtain ⟨h1, h2, h3⟩ := hax
      exact ⟨h1, h2, ih ps b y h3 hby⟩

/-- A rendered AST starts with a non-whitespace character. -/
theorem render_head (t : CoreAST) (hw : wfNames t = true) :
    ∃ c cs, (astToString t).data = c :: cs ∧ isWSChar c = false := by
  cases t with
  | var n =>
    obtain ⟨⟨c, cs, hnd, halpha⟩, _⟩ := goodName_spec n hw
    exact ⟨c, cs, hnd, isWSChar_of_alpha c halpha⟩
  | lit v =>
    cases v
    · exact ⟨'0', [], rfl, by decide⟩
    · exact ⟨'1', [], rfl, by decide⟩
  | notN o =>
    simp only [astToString]
    by_cases hc : isComplexOperand o = true
    · rw [if_pos hc]
      refine ⟨'~', '(' :: ((astToString o).data ++ [')']), ?_, by decide⟩
      simp [String.data_append]
    · rw [if_neg hc]
      refine ⟨'~', (astToString o).data, ?_, by decide⟩
      simp [String.data_append]
  | bin k l r =>
    simp only [astToString]
    refine ⟨'(', (astToString l).data ++ ' ' ::
      ((opSymbol k).data ++ ' ' :: ((astToString r).data ++ [')'])),
      ?_, by decide⟩
    simp [String.data_append]

/-- Rendered operator symbols are single non-whitespace characters. -/
theorem opSymbol_head (k : BinKind) :
    ∃ c, (opSymbol k).data = [c] ∧ isWSChar c = false := by
  cases k <;> exact ⟨_, rfl, by decide⟩

/-- Re-tokenizing a rendered AST (followed by a space, a closing
parenthesis, or the end of input) consumes exactly the rendered
characters and appends tokens matching the AST's skeleton; fuel drops by
at most the number of characters consumed. -/
theorem tokenize_render :
    ∀ (t : CoreAST), wfNames t = true →
      ∀ (rest : List Char), ChunkRest rest →
      ∀ (fuel pos : Nat) (acc : List TSToken),
        (astToString t).data.length ≤ fuel →
        ∃ (toks : List TSToken) (fuel2 pos2 : Nat),
          tsTokenizeLoop fuel ((astToString t).data ++ rest) pos acc =
            tsTokenizeLoop fuel2 rest pos2 (acc ++ toks) ∧
          Shaped toks (utoks t) ∧
          fuel - (astToString t).data.length ≤ fuel2 := by
  intro t
  induction t with
  | var n =>
    intro hw rest hrest fuel pos acc hfuel
    obtain ⟨⟨c, cs, hnd, _⟩, _⟩ := goodName_spec n hw
    have hlen1 : 1 ≤ (astToString (CoreAST.var n)).data.length := by
      show 1 ≤ n.data.length
      rw [hnd]
      simp
    obtain ⟨f, rfl⟩ : ∃ f, fuel = f + 1 := ⟨fuel - 1, by omega⟩
    refine ⟨[⟨.VARIABLE, n, pos, n.data.length⟩], f, pos + n.data.length,
      ?_, ⟨rfl, rfl, trivial⟩, ?_⟩
    · exact tokStep_var n hw rest hrest f pos acc
    · show f + 1 - n.data.length ≤ f
      have : 1 ≤ n.data.length := hlen1
      omega
  | lit b =>
    intro hw rest hrest fuel pos acc hfuel
    obtain ⟨f, rfl⟩ : ∃ f, fuel = f + 1 := by
      refine ⟨fuel - 1, ?_⟩
      have : 1 ≤ (astToString (CoreAST.lit b)).data.length := by
        cases b <;> decide
      omega
    refine ⟨[⟨.LITERAL, if b then "1" else "0", pos, 1⟩], f, pos + 1,
      ?_, ?_, ?_⟩
    · have hdata : (astToString (CoreAST.lit b)).data =
          [if b then '1' else '0'] := by cases b <;> rfl
      rw [hdata]
      exact tokStep_lit b rest hrest f pos acc
    · exact ⟨rfl, rfl, trivial⟩
    · have : (astToString (CoreAST.lit b)).data.length = 1 := by
        cases b <;> rfl
      omega
  | notN o ih =>
    intro hw rest hrest fuel pos acc hfuel
    have hwo : wfNames o = true := hw
    by_cases hc : isComplexOperand o = true
    · -- "~(" ++ render o ++ ")"
      have hdata : (astToString (CoreAST.notN o)).data =
          '~' :: '(' :: ((astToString o).data ++ [')']) := by
        simp [astToString, hc, String.data_append]
      have hlen : (astToString (CoreAST.notN o)).data.length =
          (astToString o).data.length + 3 := by
        rw [hdata]
        simp
      rw [hlen] at hfuel
      obtain ⟨f1, rfl⟩ : ∃ f, fuel = f + 2 := ⟨fuel - 2, by omega⟩
      rw [hdata]
      rw [show ('~' :: '(' :: ((astToString o).data ++ [')'])) ++ rest =
        '~' :: '(' :: ((astToString o).data ++ (')' :: rest)) from by
        simp]
      rw [show f1 + 2 = (f1 + 1) + 1 from rfl, tokStep_not,
        tokStep_lparen]
      obtain ⟨toks, fuel2, pos2, heq, hsh, hf2⟩ :=
        ih hwo (')' :: rest) (Or.inr ⟨')', rest, rfl, Or.inr rfl⟩) f1 (pos + 1 + 1)
          (acc ++ [⟨.NOT, "~", pos, 1⟩] ++ [⟨.LPAREN, "(", pos + 1, 1⟩])
          (by omega)
      rw [heq]
      obtain ⟨f2, rfl⟩ : ∃ f, fuel2 = f + 1 := ⟨fuel2 - 1, by omega⟩
      rw [tokStep_rparen]
      refine ⟨⟨.NOT, "~", pos, 1⟩ :: ⟨.LPAREN, "(", pos + 1, 1⟩ ::
        (toks ++ [⟨.RPAREN, ")", pos2, 1⟩]), f2, pos2 + 1, ?_, ?_, ?_⟩
      · congr 1
        simp
      · rw [show utoks (CoreAST.notN o) = (.NOT, "~") :: (.LPAREN, "(") ::
          (utoks o ++ [(.RPAREN, ")")]) from by simp [utoks, hc]]
        exact ⟨rfl, rfl, rfl, rfl,
          Shaped_append toks (utoks o) _ _ hsh ⟨rfl, rfl, trivial⟩⟩
      · have hL : ('~' :: '(' :: ((astToString o).data ++ [')'])).length =
            (astToString o).data.length + 3 := by simp
        omega
    · -- "~" ++ render o
      have hdata : (astToString (CoreAST.notN o)).data =
          '~' :: (astToString o).data := by
        simp [astToString, hc, String.data_append]
      have hlen : (astToString (CoreAST.notN o)).data.length =
          (astToString o).data.length + 1 := by
        rw [hdata]
        simp
      rw [hlen] at hfuel
      obtain ⟨f1, rfl⟩ : ∃ f, fuel = f + 1 := ⟨fuel - 1, by omega⟩
      rw [hdata]
      rw [show ('~' :: (astToString o).data) ++ rest =
        '~' :: ((astToString o).data ++ rest) from by simp]
      rw [tokStep_not]
      obtain ⟨toks, fuel2, pos2, heq, hsh, hf2⟩ :=
        ih hwo rest hrest f1 (pos + 1) (acc ++ [⟨.NOT, "~", pos, 1⟩])
          (by omega)
      rw [heq]
      refine ⟨⟨.NOT, "~", pos, 1⟩ :: toks, fuel2, pos2, ?_, ?_, ?_⟩
      · congr 1
        simp
      · rw [show utoks (CoreAST.notN o) = (.NOT, "~") :: utoks o from by
          simp [utoks, hc]]
        exact ⟨rfl, rfl, hsh⟩
      · have hL : ('~' :: (astToString o).data).length =
            (astToString o).data.length + 1 := by simp
        omega
  | bin k l r ihl ihr =>
    intro hw rest hrest fuel pos acc hfuel
    have hwlr : wfNames l = true ∧ wfNames r = true := by
      have h2 := hw
      unfold wfNames at h2
      simpa [Bool.and_eq_true] using h2
    have hwl : wfNames l = true := hwlr.1
    have hwr : wfNames r = true := hwlr.2
    obtain ⟨cop, hop, hopws⟩ := opSymbol_head k
    have hdata : (astToString (CoreAST.bin k l r)).data ++ rest =
        '(' :: ((astToString l).data ++ (' ' :: (cop :: (' ' ::
          ((astToString r).data ++ (')' :: rest)))))) := by
      simp [astToString, String.data_append, hop]
    have hlen : (astToString (CoreAST.bin k l r)).data.length =
        (astToString l).data.length + (astToString r).data.length + 5 := by
      simp [astToString, String.data_append, hop]
      omega
    rw [hlen] at hfuel
    obtain ⟨f1, rfl⟩ : ∃ f, fuel = f + 1 := ⟨fuel - 1, by omega⟩
    rw [hdata, tokStep_lparen]
    obtain ⟨toksL, fuel2, pos2, heqL, hshL, hf2⟩ :=
      ihl hwl (' ' :: (cop :: (' ' ::
          ((astToString r).data ++ (')' :: rest)))))
        (Or.inr ⟨' ', _, rfl, Or.inl rfl⟩) f1 (pos + 1)
        (acc ++ [⟨.LPAREN, "(", pos, 1⟩]) (by omega)
    rw [heqL]
    obtain ⟨f2, rfl⟩ : ∃ f, fuel2 = f + 1 := ⟨fuel2 - 1, by omega⟩
    rw [tokStep_space (cop :: (' ' ::
        ((astToString r).data ++ (')' :: rest))))
      (Or.inr ⟨cop, _, rfl, hopws⟩)]
    obtain ⟨f3, rfl⟩ : ∃ f, f2 = f + 1 := ⟨f2 - 1, by omega⟩
    rw [show (cop :: (' ' :: ((astToString r).data ++ (')' :: rest)))) =
      (opSymbol k).data ++ (' ' :: ((astToString r).data ++
        (')' :: rest))) from by rw [hop]; rfl]
    rw [tokStep_op]
    obtain ⟨f4, rfl⟩ : ∃ f, f3 = f + 1 := ⟨f3 - 1, by omega⟩
    obtain ⟨ch, chs, hch, hchws⟩ := render_head r hwr
    rw [tokStep_space ((astToString r).data ++ (')' :: rest))
      (Or.inr ⟨ch, chs ++ (')' :: rest), by rw [hch]; rfl, hchws⟩)]
    obtain ⟨toksR, fuel5, pos5, heqR, hshR, hf5⟩ :=
      ihr hwr (')' :: rest) (Or.inr ⟨')', rest, rfl, Or.inr rfl⟩) f4 (pos2 + 1 + 1 + 1)
        ((acc ++ [⟨.LPAREN, "(", pos, 1⟩] ++ toksL) ++
          [⟨opTokType k, opSymbol k, pos2 + 1, 1⟩]) (by omega)
    rw [heqR]
    obtain ⟨f5, rfl⟩ : ∃ f, fuel5 = f + 1 := ⟨fuel5 - 1, by omega⟩
    rw [tokStep_rparen]
    refine ⟨⟨.LPAREN, "(", pos, 1⟩ :: (toksL ++
      ⟨opTokType k, opSymbol k, pos2 + 1, 1⟩ :: (toksR ++
        [⟨.RPAREN, ")", pos5, 1⟩])), f5, pos5 + 1, ?_, ?_, ?_⟩
    · congr 1
      simp
    · rw [show utoks (CoreAST.bin k l r) = (.LPAREN, "(") ::
        (utoks l ++ (opTokType k, opSymbol k) ::
          (utoks r ++ [(.RPAREN, ")")])) from rfl]
      refine ⟨rfl, rfl, ?_⟩
      refine Shaped_append toksL (utoks l) _ _ hshL ?_
      refine ⟨rfl, rfl, ?_⟩
      exact Shaped_append toksR (utoks r) _ _ hshR ⟨rfl, rfl, trivial⟩
    · omega

/-! ## Round trip, part 3: parsing the re-tokenized stream -/

/-- `match` fails when the next token's type is none of the requested
ones. -/
theorem tsMatch_none (ts : List TSToken) (types : List TSTokenType)
    (h : ∀ ty ∈ types, (tsPeek ts).type ≠ ty) :
    tsMatch ts types = none := by
  unfold tsMatch
  rw [if_neg]
  intro hc
  rcases List.any_eq_true.mp hc with ⟨ty, hty, hchk⟩
  unfold tsCheck at hchk
  rw [Bool.and_eq_true] at hchk
  exact h ty hty (beq_iff_eq.mp hchk.2)

/-- `match` succeeds on the next token when its type is requested and is
not EOF. -/
theorem tsMatch_fire (tok : TSToken) (ts2 : List TSToken)
    (types : List TSTokenType) (hty : tok.type ∈ types)
    (hne : tok.type ≠ .EOF) :
    tsMatch (tok :: ts2) types = some (tok, ts2) := by
  unfold tsMatch
  rw [if_pos]
  · rfl
  · apply List.any_eq_true.mpr
    refine ⟨tok.type, hty, ?_⟩
    unfold tsCheck tsAtEnd tsPeek
    simp only [List.headD_cons, Bool.and_eq_true, Bool.not_eq_true']
    exact ⟨beq_eq_false_iff_ne.mpr hne, beq_iff_eq.mpr rfl⟩

/-- The postfix-prime loop does not fire at a stop token. -/
theorem tsPostLoop_stop (ts : List TSToken) (node : CoreAST)
    (h : StopU ts) : tsPostLoop ts node = (node, ts) := by
  cases ts with
  | nil => rfl
  | cons tok ts2 =>
    unfold tsPostLoop
    rw [if_neg]
    intro hc
    have htn : tok.type = .NOT := beq_iff_eq.mp hc.1
    unfold StopU stopU tsPeek at h
    simp only [List.headD_cons] at h
    rw [htn] at h
    rcases h with h | h | h | h | h | h | h | h <;> cases h

/-- The OR/NOR loop returns immediately at an OR-level stop token. -/
theorem tsOrLoop_stop (fuel : Nat) (left : CoreAST) (ts : List TSToken)
    (h : StopE ts) : tsOrLoop (fuel + 1) left ts = .ok (left, ts) := by
  unfold tsOrLoop
  rw [tsMatch_none ts [.OR, .NOR]]
  intro ty hty
  unfold StopE stopE at h
  rcases h with h | h <;> rw [h] <;>
    rcases List.mem_pair.mp hty with rfl | rfl <;> simp

/-- The XOR/XNOR loop returns immediately at an XOR-level stop token. -/
theorem tsXorLoop_stop (fuel : Nat) (left : CoreAST) (ts : List TSToken)
    (h : StopT ts) : tsXorLoop (fuel + 1) left ts = .ok (left, ts) := by
  unfold tsXorLoop
  rw [tsMatch_none ts [.XOR, .XNOR]]
  intro ty hty
  unfold StopT stopT at h
  rcases h with h | h | h | h <;> rw [h] <;>
    rcases List.mem_pair.mp hty with rfl | rfl <;> simp

/-- The AND/NAND loop returns immediately at an AND-level stop token. -/
theorem tsAndLoop_stop (fuel : Nat) (left : CoreAST) (ts : List TSToken)
    (h : StopF ts) : tsAndLoop (fuel + 1) left ts = .ok (left, ts) := by
  unfold tsAndLoop
  rw [tsMatch_none ts [.AND, .NAND]]
  intro ty hty
  unfold StopF stopF at h
  rcases h with h | h | h | h | h | h <;> rw [h] <;>
    rcases List.mem_pair.mp hty with rfl | rfl <;> simp

/-- The implicit-AND loop returns immediately at any unary stop token
(none of them can start a juxtaposed operand). -/
theorem tsImplicitLoop_stop (fuel : Nat) (left : CoreAST)
    (ts : List TSToken) (h : StopU ts) :
    tsImplicitLoop (fuel + 1) left ts = .ok (left, ts) := by
  unfold tsImplicitLoop
  rw [if_neg]
  have hchk : ∀ ty, (tsPeek ts).type ≠ ty → tsCheck ts ty = false := by
    intro ty hne
    unfold tsCheck
    rw [Bool.and_eq_false_iff]
    exact Or.inr (beq_eq_false_iff_ne.mpr hne)
  unfold StopU stopU at h
  intro hc
  rcases hc with hc | hc | hc | hc <;>
    rcases h with h | h | h | h | h | h | h | h <;>
    rw [hchk _ (by rw [h]; simp)] at hc <;> cases hc

/-- Lifting a clean unary parse through the AND level. -/
theorem parseFactor_of_unary (t : CoreAST)
    (hU : ∀ (fuel : Nat) (toks rest : List TSToken),
      8 * nsize t ≤ fuel → Shaped toks (utoks t) → StopU rest →
      tsParseUnary fuel (toks ++ rest) = .ok (t, rest)) :
    ∀ (fuel : Nat) (toks rest : List TSToken),
      8 * nsize t + 1 ≤ fuel → Shaped toks (utoks t) → StopF rest →
      tsParseFactor fuel (toks ++ rest) = .ok (t, rest) := by
  intro fuel toks rest hf hsh hstop
  have hsz : 1 ≤ nsize t := by
    cases t <;> simp [nsize] <;> omega
  have hstopU : StopU rest := by
    unfold StopF stopF at hstop
    unfold StopU stopU
    tauto
  obtain ⟨f, rfl⟩ : ∃ f, fuel = f + 1 := ⟨fuel - 1, by omega⟩
  obtain ⟨f2, hff⟩ : ∃ f2, f = f2 + 1 := ⟨f - 1, by omega⟩
  unfold tsParseFactor
  rw [hU f toks rest (by omega) hsh hstopU]
  simp only [Bind.bind, Except.bind]
  rw [hff, tsAndLoop_stop f2 t rest hstop]
  dsimp only
  rw [tsImplicitLoop_stop f2 t rest hstopU]

/-- Lifting a clean unary parse through the XOR level. -/
theorem parseTerm_of_unary (t : CoreAST)
    (hU : ∀ (fuel : Nat) (toks rest : List TSToken),
      8 * nsize t ≤ fuel → Shaped toks (utoks t) → StopU rest →
      tsParseUnary fuel (toks ++ rest) = .ok (t, rest)) :
    ∀ (fuel : Nat) (toks rest : List TSToken),
      8 * nsize t + 2 ≤ fuel → Shaped toks (utoks t) → StopT rest →
      tsParseTerm fuel (toks ++ rest) = .ok (t, rest) := by
  intro fuel toks rest hf hsh hstop
  have hsz : 1 ≤ nsize t := by
    cases t <;> simp [nsize] <;> omega
  have hstopF : StopF rest := by
    unfold StopT stopT at hstop
    unfold StopF stopF
    tauto
  obtain ⟨f, rfl⟩ : ∃ f, fuel = f + 1 := ⟨fuel - 1, by omega⟩
  obtain ⟨f2, hff⟩ : ∃ f2, f = f2 + 1 := ⟨f - 1, by omega⟩
  unfold tsParseTerm
  rw [parseFactor_of_unary t hU f toks rest (by omega) hsh hstopF]
  simp only [Bind.bind, Except.bind]
  rw [hff, tsXorLoop_stop f2 t rest hstop]

/-- Lifting a clean unary parse through the OR level. -/
theorem parseExpr_of_unary (t : CoreAST)
    (hU : ∀ (fuel : Nat) (toks rest : List TSToken),
      8 * nsize t ≤ fuel → Shaped toks (utoks t) → StopU rest →
      tsParseUnary fuel (toks ++ rest) = .ok (t, rest)) :
    ∀ (fuel : Nat) (toks rest : List TSToken),
      8 * nsize t + 3 ≤ fuel → Shaped toks (utoks t) → StopE rest →
      tsParseExpression fuel (toks ++ rest) = .ok (t, rest) := by
  intro fuel toks rest hf hsh hstop
  have hsz : 1 ≤ nsize t := by
    cases t <;> simp [nsize] <;> omega
  have hstopT : StopT rest := by
    unfold StopE stopE at hstop
    unfold StopT stopT
    tauto
  obtain ⟨f, rfl⟩ : ∃ f, fuel = f + 1 := ⟨fuel - 1, by omega⟩
  obtain ⟨f2, hff⟩ : ∃ f2, f = f2 + 1 := ⟨f - 1, by omega⟩
  unfold tsParseExpression
  rw [parseTerm_of_unary t hU f toks rest (by omega) hsh hstopT]
  simp only [Bind.bind, Except.bind]
  rw [hff, tsOrLoop_stop f2 t rest hstop]

/-- Inverting skeleton agreement at a cons. -/
theorem Shaped_cons_inv (toks : List TSToken) (p : TSTokenType × String)
    (ps : List (TSTokenType × String)) (h : Shaped toks (p :: ps)) :
    ∃ tok toks2, toks = tok :: toks2 ∧ tok.type = p.1 ∧
      tok.value = p.2 ∧ Shaped toks2 ps := by
  cases toks with
  | nil => cases h
  | cons tok toks2 =>
    obtain ⟨h1, h2, h3⟩ := h
    exact ⟨tok, toks2, rfl, h1, h2, h3⟩

/-- Inverting skeleton agreement at a singleton. -/
theorem Shaped_single_inv (toks : List TSToken)
    (p : TSTokenType × String) (h : Shaped toks [p]) :
    ∃ tok, toks = [tok] ∧ tok.type = p.1 ∧ tok.value = p.2 := by
  obtain ⟨tok, toks2, rfl, h1, h2, h3⟩ := Shaped_cons_inv toks p [] h
  cases toks2 with
  | nil => exact ⟨tok, rfl, h1, h2⟩
  | cons a b => cases h3

/-- Splitting skeleton agreement over concatenation. -/
theorem Shaped_split :
    ∀ (xs : List (TSTokenType × String)) (toks : List TSToken)
      (ys : List (TSTokenType × String)), Shaped toks (xs ++ ys) →
      ∃ a b, toks = a ++ b ∧ Shaped a xs ∧ Shaped b ys := by
  intro xs
  induction xs with
  | nil =>
    intro toks ys h
    exact ⟨[], toks, rfl, trivial, h⟩
  | cons p ps ih =>
    intro toks ys h
    obtain ⟨tok, toks2, rfl, h1, h2, h3⟩ :=
      Shaped_cons_inv toks p (ps ++ ys) h
    obtain ⟨a, b, rfl, ha, hb⟩ := ih toks2 ys h3
    exact ⟨tok :: a, b, rfl, ⟨h1, h2, ha⟩, hb⟩

/-- Inside the parentheses of a rendered OR/NOR node, the expression
level parses the left render, consumes the operator, parses the right
render, and stops at the closing parenthesis. -/
theorem binInner_orLevel (l r : CoreAST) (k : BinKind)
    (hUl : ∀ (fuel : Nat) (toks rest : List TSToken),
      8 * nsize l ≤ fuel → Shaped toks (utoks l) → StopU rest →
      tsParseUnary fuel (toks ++ rest) = .ok (l, rest))
    (hUr : ∀ (fuel : Nat) (toks rest : List TSToken),
      8 * nsize r ≤ fuel → Shaped toks (utoks r) → StopU rest →
      tsParseUnary fuel (toks ++ rest) = .ok (r, rest))
    (opT rpT : TSToken) (htyOp : opT.type = opTokType k)
    (hk : k = .or ∨ k = .nor) (hrp : rpT.type = .RPAREN)
    (toksL toksR rest : List TSToken)
    (hshL : Shaped toksL (utoks l)) (hshR : Shaped toksR (utoks r))
    (fuel : Nat) (hf : 8 * nsize l + 8 * nsize r + 6 ≤ fuel) :
    tsParseExpression fuel (toksL ++ (opT :: (toksR ++ (rpT :: rest)))) =
      .ok (.bin k l r, rpT :: rest) := by
  have hszl : 1 ≤ nsize l := by cases l <;> simp [nsize]
  have hszr : 1 ≤ nsize r := by cases r <;> simp [nsize]
  have htyOp2 : opT.type = .OR ∨ opT.type = .NOR := by
    rcases hk with rfl | rfl
    · exact Or.inl htyOp
    · exact Or.inr htyOp
  have hstopT1 : StopT (opT :: (toksR ++ (rpT :: rest))) := by
    unfold StopT stopT tsPeek
    simp only [List.headD_cons]
    tauto
  have hstopT2 : StopT (rpT :: rest) := by
    unfold StopT stopT tsPeek
    simp only [List.headD_cons]
    exact Or.inl hrp
  have hstopE2 : StopE (rpT :: rest) := by
    unfold StopE stopE tsPeek
    simp only [List.headD_cons]
    exact Or.inl hrp
  obtain ⟨g, rfl⟩ : ∃ g, fuel = g + 1 := ⟨fuel - 1, by omega⟩
  unfold tsParseExpression
  rw [parseTerm_of_unary l hUl g toksL (opT :: (toksR ++ (rpT :: rest)))
    (by omega) hshL hstopT1]
  simp only [Bind.bind, Except.bind]
  obtain ⟨g2, rfl⟩ : ∃ g2, g = g2 + 1 := ⟨g - 1, by omega⟩
  unfold tsOrLoop
  rw [tsMatch_fire opT (toksR ++ (rpT :: rest)) [.OR, .NOR]
    (by rcases htyOp2 with h | h <;> rw [h] <;> simp)
    (by rcases htyOp2 with h | h <;> rw [h] <;> simp)]
  dsimp only
  rw [parseTerm_of_unary r hUr g2 toksR (rpT :: rest) (by omega) hshR
    hstopT2]
  simp only [Bind.bind, Except.bind]
  obtain ⟨g3, rfl⟩ : ∃ g3, g2 = g3 + 1 := ⟨g2 - 1, by omega⟩
  rw [tsOrLoop_stop g3 _ (rpT :: rest) hstopE2]
  have hnode : (if opT.type == TSTokenType.OR then BinKind.or
      else BinKind.nor) = k := by
    rcases hk with rfl | rfl <;> rw [htyOp] <;> rfl
  rw [hnode]

/-- Inside the parentheses of a rendered XOR/XNOR node. -/
theorem binInner_xorLevel (l r : CoreAST) (k : BinKind)
    (hUl : ∀ (fuel : Nat) (toks rest : List TSToken),
      8 * nsize l ≤ fuel → Shaped toks (utoks l) → StopU rest →
      tsParseUnary fuel (toks ++ rest) = .ok (l, rest))
    (hUr : ∀ (fuel : Nat) (toks rest : List TSToken),
      8 * nsize r ≤ fuel → Shaped toks (utoks r) → StopU rest →
      tsParseUnary fuel (toks ++ rest) = .ok (r, rest))
    (opT rpT : TSToken) (htyOp : opT.type = opTokType k)
    (hk : k = .xor ∨ k = .xnor) (hrp : rpT.type = .RPAREN)
    (toksL toksR rest : List TSToken)
    (hshL : Shaped toksL (utoks l)) (hshR : Shaped toksR (utoks r))
    (fuel : Nat) (hf : 8 * nsize l + 8 * nsize r + 6 ≤ fuel) :
    tsParseExpression fuel (toksL ++ (opT :: (toksR ++ (rpT :: rest)))) =
      .ok (.bin k l r, rpT :: rest) := by
  have hszl : 1 ≤ nsize l := by cases l <;> simp [nsize]
  have hszr : 1 ≤ nsize r := by cases r <;> simp [nsize]
  have htyOp2 : opT.type = .XOR ∨ opT.type = .XNOR := by
    rcases hk with rfl | rfl
    · exact Or.inl htyOp
    · exact Or.inr htyOp
  have hstopF1 : StopF (opT :: (toksR ++ (rpT :: rest))) := by
    unfold StopF stopF tsPeek
    simp only [List.headD_cons]
    tauto
  have hstopF2 : StopF (rpT :: rest) := by
    unfold StopF stopF tsPeek
    simp only [List.headD_cons]
    exact Or.inl hrp
  have hstopT2 : StopT (rpT :: rest) := by
    unfold StopT stopT tsPeek
    simp only [List.headD_cons]
    exact Or.inl hrp
  have hstopE2 : StopE (rpT :: rest) := by
    unfold StopE stopE tsPeek
    simp only [List.headD_cons]
    exact Or.inl hrp
  obtain ⟨g, rfl⟩ : ∃ g, fuel = g + 1 := ⟨fuel - 1, by omega⟩
  unfold tsParseExpression
  obtain ⟨h1, rfl⟩ : ∃ h1, g = h1 + 1 := ⟨g - 1, by omega⟩
  unfold tsParseTerm
  rw [parseFactor_of_unary l hUl h1 toksL
    (opT :: (toksR ++ (rpT :: rest))) (by omega) hshL hstopF1]
  simp only [Bind.bind, Except.bind]
  obtain ⟨h2, rfl⟩ : ∃ h2, h1 = h2 + 1 := ⟨h1 - 1, by omega⟩
  unfold tsXorLoop
  rw [tsMatch_fire opT (toksR ++ (rpT :: rest)) [.XOR, .XNOR]
    (by rcases htyOp2 with h | h <;> rw [h] <;> simp)
    (by rcases htyOp2 with h | h <;> rw [h] <;> simp)]
  dsimp only
  rw [parseFactor_of_unary r hUr h2 toksR (rpT :: rest) (by omega) hshR
    hstopF2]
  simp only [Bind.bind, Except.bind]
  obtain ⟨h3, rfl⟩ : ∃ h3, h2 = h3 + 1 := ⟨h2 - 1, by omega⟩
  rw [tsXorLoop_stop h3 _ (rpT :: rest) hstopT2]
  have hnode : (if opT.type == TSTokenType.XOR then BinKind.xor
      else BinKind.xnor) = k := by
    rcases hk with rfl | rfl <;> rw [htyOp] <;> rfl
  rw [hnode]
  simp only [Bind.bind, Except.bind]
  rw [tsOrLoop_stop (h3 + 1 + 1) _ (rpT :: rest) hstopE2]

/-- Inside the parentheses of a rendered AND/NAND node. -/
theorem binInner_andLevel (l r : CoreAST) (k : BinKind)
    (hUl : ∀ (fuel : Nat) (toks rest : List TSToken),
      8 * nsize l ≤ fuel → Shaped toks (utoks l) → StopU rest →
      tsParseUnary fuel (toks ++ rest) = .ok (l, rest))
    (hUr : ∀ (fuel : Nat) (toks rest : List TSToken),
      8 * nsize r ≤ fuel → Shaped toks (utoks r) → StopU rest →
      tsParseUnary fuel (toks ++ rest) = .ok (r, rest))
    (opT rpT : TSToken) (htyOp : opT.type = opTokType k)
    (hk : k = .and ∨ k = .nand) (hrp : rpT.type = .RPAREN)
    (toksL toksR rest : List TSToken)
    (hshL : Shaped toksL (utoks l)) (hshR : Shaped toksR (utoks r))
    (fuel : Nat) (hf : 8 * nsize l + 8 * nsize r + 6 ≤ fuel) :
    tsParseExpression fuel (toksL ++ (opT :: (toksR ++ (rpT :: rest)))) =
      .ok (.bin k l r, rpT :: rest) := by
  have hszl : 1 ≤ nsize l := by cases l <;> simp [nsize]
  have hszr : 1 ≤ nsize r := by cases r <;> simp [nsize]
  have htyOp2 : opT.type = .AND ∨ opT.type = .NAND := by
    rcases hk with rfl | rfl
    · exact Or.inl htyOp
    · exact Or.inr htyOp
  have hstopU1 : StopU (opT :: (toksR ++ (rpT :: rest))) := by
    unfold StopU stopU tsPeek
    simp only [List.headD_cons]
    tauto
  have hstopU2 : StopU (rpT :: rest) := by
    unfold StopU stopU tsPeek
    simp only [List.headD_cons]
    exact Or.inl hrp
  have hstopF2 : StopF (rpT :: rest) := by
    unfold StopF stopF tsPeek
    simp only [List.headD_cons]
    exact Or.inl hrp
  have hstopT2 : StopT (rpT :: rest) := by
    unfold StopT stopT tsPeek
    simp only [List.headD_cons]
    exact Or.inl hrp
  have hstopE2 : StopE (rpT :: rest) := by
    unfold StopE stopE tsPeek
    simp only [List.headD_cons]
    exact Or.inl hrp
  obtain ⟨g, rfl⟩ : ∃ g, fuel = g + 1 := ⟨fuel - 1, by omega⟩
  unfold tsParseExpression
  obtain ⟨h1, rfl⟩ : ∃ h1, g = h1 + 1 := ⟨g - 1, by omega⟩
  unfold tsParseTerm
  obtain ⟨i1, rfl⟩ : ∃ i1, h1 = i1 + 1 := ⟨h1 - 1, by omega⟩
  unfold tsParseFactor
  rw [hUl i1 toksL (opT :: (toksR ++ (rpT :: rest))) (by omega) hshL
    hstopU1]
  simp only [Bind.bind, Except.bind]
  obtain ⟨i2, rfl⟩ : ∃ i2, i1 = i2 + 1 := ⟨i1 - 1, by omega⟩
  unfold tsAndLoop
  rw [tsMatch_fire opT (toksR ++ (rpT :: rest)) [.AND, .NAND]
    (by rcases htyOp2 with h | h <;> rw [h] <;> simp)
    (by rcases htyOp2 with h | h <;> rw [h] <;> simp)]
  dsimp only
  rw [hUr i2 toksR (rpT :: rest) (by omega) hshR hstopU2]
  simp only [Bind.bind, Except.bind]
  obtain ⟨i3, rfl⟩ : ∃ i3, i2 = i3 + 1 := ⟨i2 - 1, by omega⟩
  rw [tsAndLoop_stop i3 _ (rpT :: rest) hstopF2]
  have hnode : (if opT.type == TSTokenType.AND then BinKind.and
      else BinKind.nand) = k := by
    rcases hk with rfl | rfl <;> rw [htyOp] <;> rfl
  rw [hnode]
  simp only [Bind.bind, Except.bind]
  rw [tsImplicitLoop_stop (i3 + 1) _ (rpT :: rest) hstopU2]
  simp only [Bind.bind, Except.bind]
  rw [tsXorLoop_stop (i3 + 1 + 1) _ (rpT :: rest) hstopT2]
  simp only [Bind.bind, Except.bind]
  rw [tsOrLoop_stop (i3 + 1 + 1 + 1) _ (rpT :: rest) hstopE2]

/-- Parsing the re-tokenized render of an AST at the unary level returns
exactly that AST and leaves the continuation untouched. -/
theorem parseUnary_render :
    ∀ (t : CoreAST), wfNames t = true →
      ∀ (fuel : Nat) (toks rest : List TSToken),
        8 * nsize t ≤ fuel → Shaped toks (utoks t) → StopU rest →
        tsParseUnary fuel (toks ++ rest) = .ok (t, rest) := by
  intro t
  induction t with
  | var n =>
    intro hw fuel toks rest hf hsh hstop
    obtain ⟨tok, rfl, hty, hval⟩ :=
      Shaped_single_inv toks (.VARIABLE, n) hsh
    simp only [nsize] at hf
    obtain ⟨f1, rfl⟩ : ∃ f, fuel = f + 1 := ⟨fuel - 1, by omega⟩
    obtain ⟨f2, rfl⟩ : ∃ f, f1 = f + 1 := ⟨f1 - 1, by omega⟩
    rw [show [tok] ++ rest = tok :: rest from rfl]
    unfold tsParseUnary
    rw [tsMatch_none (tok :: rest) [.NOT] (by
      intro ty hty2
      rw [List.mem_singleton] at hty2
      subst hty2
      unfold tsPeek
      simp only [List.headD_cons]
      rw [hty]
      simp)]
    unfold tsParsePrimary
    rw [tsMatch_none (tok :: rest) [.LITERAL] (by
      intro ty hty2
      rw [List.mem_singleton] at hty2
      subst hty2
      unfold tsPeek
      simp only [List.headD_cons]
      rw [hty]
      simp)]
    rw [tsMatch_fire tok rest [.VARIABLE] (by rw [hty]; simp)
      (by rw [hty]; simp)]
    dsimp only
    simp only [Bind.bind, Except.bind]
    rw [hval, tsPostLoop_stop rest _ hstop]
  | lit b =>
    intro hw fuel toks rest hf hsh hstop
    obtain ⟨tok, rfl, hty, hval⟩ :=
      Shaped_single_inv toks (.LITERAL, if b then "1" else "0") hsh
    simp only [nsize] at hf
    obtain ⟨f1, rfl⟩ : ∃ f, fuel = f + 1 := ⟨fuel - 1, by omega⟩
    obtain ⟨f2, rfl⟩ : ∃ f, f1 = f + 1 := ⟨f1 - 1, by omega⟩
    rw [show [tok] ++ rest = tok :: rest from rfl]
    unfold tsParseUnary
    rw [tsMatch_none (tok :: rest) [.NOT] (by
      intro ty hty2
      rw [List.mem_singleton] at hty2
      subst hty2
      unfold tsPeek
      simp only [List.headD_cons]
      rw [hty]
      simp)]
    unfold tsParsePrimary
    rw [tsMatch_fire tok rest [.LITERAL] (by rw [hty]; simp)
      (by rw [hty]; simp)]
    dsimp only
    simp only [Bind.bind, Except.bind]
    rw [hval]
    rw [show ((if b then "1" else "0") == "1") = b from by
      cases b <;> rfl]
    rw [tsPostLoop_stop rest _ hstop]
  | notN o ih =>
    intro hw fuel toks rest hf hsh hstop
    have hwo : wfNames o = true := hw
    simp only [nsize] at hf
    have hszo : 1 ≤ nsize o := by cases o <;> simp [nsize]
    by_cases hc : isComplexOperand o = true
    · rw [show utoks (CoreAST.notN o) = (.NOT, "~") :: ((.LPAREN, "(") ::
        (utoks o ++ [(.RPAREN, ")")])) from by simp [utoks, hc]] at hsh
      obtain ⟨notT, toks2, rfl, htyN, hvalN, hsh2⟩ :=
        Shaped_cons_inv _ _ _ hsh
      obtain ⟨lpT, toks3, rfl, htyL, hvalL, hsh3⟩ :=
        Shaped_cons_inv _ _ _ hsh2
      obtain ⟨toksO, toks4, rfl, hshO, hsh4⟩ :=
        Shaped_split _ _ _ hsh3
      obtain ⟨rpT, rfl, htyR, hvalR⟩ := Shaped_single_inv _ _ hsh4
      obtain ⟨f1, rfl⟩ : ∃ f, fuel = f + 1 := ⟨fuel - 1, by omega⟩
      rw [show (notT :: lpT :: (toksO ++ [rpT])) ++ rest =
        notT :: (lpT :: (toksO ++ (rpT :: rest))) from by simp]
      unfold tsParseUnary
      rw [tsMatch_fire notT (lpT :: (toksO ++ (rpT :: rest))) [.NOT]
        (by rw [htyN]; simp) (by rw [htyN]; simp)]
      dsimp only
      obtain ⟨f2, rfl⟩ : ∃ f, f1 = f + 1 := ⟨f1 - 1, by omega⟩
      unfold tsParseUnary
      rw [tsMatch_none (lpT :: (toksO ++ (rpT :: rest))) [.NOT] (by
        intro ty hty2
        rw [List.mem_singleton] at hty2
        subst hty2
        unfold tsPeek
        simp only [List.headD_cons]
        rw [htyL]
        simp)]
      obtain ⟨f3, rfl⟩ : ∃ f, f2 = f + 1 := ⟨f2 - 1, by omega⟩
      unfold tsParsePrimary
      rw [tsMatch_none (lpT :: (toksO ++ (rpT :: rest))) [.LITERAL] (by
        intro ty hty2
        rw [List.mem_singleton] at hty2
        subst hty2
        unfold tsPeek
        simp only [List.headD_cons]
        rw [htyL]
        simp)]
      rw [tsMatch_none (lpT :: (toksO ++ (rpT :: rest))) [.VARIABLE] (by
        intro ty hty2
        rw [List.mem_singleton] at hty2
        subst hty2
        unfold tsPeek
        simp only [List.headD_cons]
        rw [htyL]
        simp)]
      rw [tsMatch_fire lpT (toksO ++ (rpT :: rest)) [.LPAREN]
        (by rw [htyL]; simp) (by rw [htyL]; simp)]
      dsimp only
      rw [parseExpr_of_unary o (fun fl tk rs hfl hshl hstl =>
          ih hwo fl tk rs hfl hshl hstl) f3 toksO (rpT :: rest)
        (by omega) hshO (by
          unfold StopE stopE tsPeek
          simp only [List.headD_cons]
          exact Or.inl htyR)]
      simp only [Bind.bind, Except.bind]
      rw [tsMatch_fire rpT rest [.RPAREN] (by rw [htyR]; simp)
        (by rw [htyR]; simp)]
      simp only [Bind.bind, Except.bind]
      rw [tsPostLoop_stop rest _ hstop]
    · rw [show utoks (CoreAST.notN o) = (.NOT, "~") :: utoks o from by
        simp [utoks, hc]] at hsh
      obtain ⟨notT, toksO, rfl, htyN, hvalN, hshO⟩ :=
        Shaped_cons_inv _ _ _ hsh
      obtain ⟨f1, rfl⟩ : ∃ f, fuel = f + 1 := ⟨fuel - 1, by omega⟩
      rw [show (notT :: toksO) ++ rest = notT :: (toksO ++ rest) from by
        simp]
      unfold tsParseUnary
      rw [tsMatch_fire notT (toksO ++ rest) [.NOT]
        (by rw [htyN]; simp) (by rw [htyN]; simp)]
      dsimp only
      rw [ih hwo f1 toksO rest (by omega) hshO hstop]
      simp only [Bind.bind, Except.bind]
  | bin k l r ihl ihr =>
    intro hw fuel toks rest hf hsh hstop
    have hwlr : wfNames l = true ∧ wfNames r = true := by
      have h2 := hw
      unfold wfNames at h2
      simpa [Bool.and_eq_true] using h2
    simp only [nsize] at hf
    have hszl : 1 ≤ nsize l := by cases l <;> simp [nsize]
    have hszr : 1 ≤ nsize r := by cases r <;> simp [nsize]
    rw [show utoks (CoreAST.bin k l r) = (.LPAREN, "(") ::
      (utoks l ++ (opTokType k, opSymbol k) ::
        (utoks r ++ [(.RPAREN, ")")])) from rfl] at hsh
    obtain ⟨lpT, toks2, rfl, htyL, hvalL, hsh2⟩ :=
      Shaped_cons_inv _ _ _ hsh
    obtain ⟨toksL, toks3, rfl, hshL, hsh3⟩ := Shaped_split _ _ _ hsh2
    obtain ⟨opT, toks4, rfl, htyOp, hvalOp, hsh4⟩ :=
      Shaped_cons_inv _ _ _ hsh3
    obtain ⟨toksR, toks5, rfl, hshR, hsh5⟩ := Shaped_split _ _ _ hsh4
    obtain ⟨rpT, rfl, htyR, hvalR⟩ := Shaped_single_inv _ _ hsh5
    obtain ⟨f1, rfl⟩ : ∃ f, fuel = f + 1 := ⟨fuel - 1, by omega⟩
    rw [show (lpT :: (toksL ++ opT :: (toksR ++ [rpT]))) ++ rest =
      lpT :: (toksL ++ (opT :: (toksR ++ (rpT :: rest)))) from by simp]
    unfold tsParseUnary
    rw [tsMatch_none (lpT :: (toksL ++ (opT :: (toksR ++ (rpT :: rest)))))
      [.NOT] (by
        intro ty hty2
        rw [List.mem_singleton] at hty2
        subst hty2
        unfold tsPeek
        simp only [List.headD_cons]
        rw [htyL]
        simp)]
    obtain ⟨f2, rfl⟩ : ∃ f, f1 = f + 1 := ⟨f1 - 1, by omega⟩
    unfold tsParsePrimary
    rw [tsMatch_none (lpT :: (toksL ++ (opT :: (toksR ++ (rpT :: rest)))))
      [.LITERAL] (by
        intro ty hty2
        rw [List.mem_singleton] at hty2
        subst hty2
        unfold tsPeek
        simp only [List.headD_cons]
        rw [htyL]
        simp)]
    rw [tsMatch_none (lpT :: (toksL ++ (opT :: (toksR ++ (rpT :: rest)))))
      [.VARIABLE] (by
        intro ty hty2
        rw [List.mem_singleton] at hty2
        subst hty2
        unfold tsPeek
        simp only [List.headD_cons]
        rw [htyL]
        simp)]
    rw [tsMatch_fire lpT (toksL ++ (opT :: (toksR ++ (rpT :: rest))))
      [.LPAREN] (by rw [htyL]; simp) (by rw [htyL]; simp)]
    dsimp only
    have hUl := fun fl tk rs hfl hshl hstl =>
      ihl hwlr.1 fl tk rs hfl hshl hstl
    have hUr := fun fl tk rs hfl hshl hstl =>
      ihr hwlr.2 fl tk rs hfl hshl hstl
    have hexpr : tsParseExpression f2
        (toksL ++ (opT :: (toksR ++ (rpT :: rest)))) =
        .ok (.bin k l r, rpT :: rest) := by
      cases k with
      | or =>
        exact binInner_orLevel l r .or hUl hUr opT rpT htyOp
          (Or.inl rfl) htyR toksL toksR rest hshL hshR f2 (by omega)
      | nor =>
        exact binInner_orLevel l r .nor hUl hUr opT rpT htyOp
          (Or.inr rfl) htyR toksL toksR rest hshL hshR f2 (by omega)
      | xor =>
        exact binInner_xorLevel l r .xor hUl hUr opT rpT htyOp
          (Or.inl rfl) htyR toksL toksR rest hshL hshR f2 (by omega)
      | xnor =>
        exact binInner_xorLevel l r .xnor hUl hUr opT rpT htyOp
          (Or.inr rfl) htyR toksL toksR rest hshL hshR f2 (by omega)
      | and =>
        exact binInner_andLevel l r .and hUl hUr opT rpT htyOp
          (Or.inl rfl) htyR toksL toksR rest hshL hshR f2 (by omega)
      | nand =>
        exact binInner_andLevel l r .nand hUl hUr opT rpT htyOp
          (Or.inr rfl) htyR toksL toksR rest hshL hshR f2 (by omega)
    rw [hexpr]
    simp only [Bind.bind, Except.bind]
    rw [tsMatch_fire rpT rest [.RPAREN] (by rw [htyR]; simp)
      (by rw [htyR]; simp)]
    dsimp only
    rw [tsPostLoop_stop rest _ hstop]

/-- Tokenizing a rendered well-named AST yields a skeleton-matching token
list followed by the EOF token. -/
theorem tsTokenize_render (t : CoreAST) (hw : wfNames t = true) :
    ∃ (toks : List TSToken) (p : Nat),
      tsTokenize (astToString t) = .ok (toks ++ [⟨.EOF, "", p, 0⟩]) ∧
      Shaped toks (utoks t) := by
  unfold tsTokenize
  have hlen : (astToString t).length = (astToString t).data.length := rfl
  obtain ⟨toks, fuel2, pos2, heq, hsh, hfb⟩ :=
    tokenize_render t hw [] (Or.inl rfl) ((astToString t).length + 1) 0 []
      (by omega)
  simp only [List.append_nil, List.nil_append] at heq
  obtain ⟨f, rfl⟩ : ∃ f, fuel2 = f + 1 := ⟨fuel2 - 1, by omega⟩
  exact ⟨toks, pos2, by rw [heq]; rfl, hsh⟩

/-- Skeleton-matching lists have the skeleton's length. -/
theorem Shaped_length :
    ∀ (toks : List TSToken) (sk : List (TSTokenType × String)),
      Shaped toks sk → toks.length = sk.length := by
  intro toks
  induction toks with
  | nil =>
    intro sk h
    cases sk with
    | nil => rfl
    | cons p ps => cases h
  | cons tok ts ih =>
    intro sk h
    cases sk with
    | nil => cases h
    | cons p ps =>
      obtain ⟨_, _, h3⟩ := h
      simp [ih ps h3]

/-- The skeleton has at least one token per AST node. -/
theorem utoks_length_ge : ∀ t : CoreAST, nsize t ≤ (utoks t).length := by
  intro t
  induction t with
  | var n => simp [utoks, nsize]
  | lit b => simp [utoks, nsize]
  | notN o ih =>
    by_cases hc : isComplexOperand o = true
    · simp [utoks, nsize, hc]
      omega
    · simp [utoks, nsize, hc]
      omega
  | bin k l r ihl ihr =>
    simp [utoks, nsize]
    omega

/-! ## Round trip, part 4: accepted parses have well-shaped names -/

/-- Taking as many characters as the word-character run returns the
run. -/
theorem tw_take (p : Char → Bool) :
    ∀ l : List Char, l.take (l.takeWhile p).length = l.takeWhile p := by
  intro l
  induction l with
  | nil => rfl
  | cons a as ih =>
    rw [List.takeWhile_cons]
    by_cases h : p a
    · simp only [h, if_true, List.length_cons, List.take_succ_cons, ih]
    · simp [h]

/-- The first character after a while-run fails the predicate. -/
theorem dw_head (p : Char → Bool) :
    ∀ (l : List Char) (d : Char) (ds : List Char),
      l.dropWhile p = d :: ds → p d = false := by
  intro l
  induction l with
  | nil => intro d ds h; cases h
  | cons a as ih =>
    intro d ds h
    rw [List.dropWhile_cons] at h
    by_cases hp : p a
    · rw [if_pos hp] at h
      exact ih d ds h
    · rw [if_neg hp] at h
      cases h
      simpa using hp

/-- A case-insensitively equal prefix satisfies `startsWithCI`. -/
theorem startsWithCI_of_ciEq :
    ∀ (kw n rest : List Char),
      kw.map Char.toLower = n.map Char.toLower →
      startsWithCI kw (n ++ rest) = true := by
  intro kw
  induction kw with
  | nil => intro n rest _; rfl
  | cons k ks ih =>
    intro n rest hci
    cases n with
    | nil => cases hci
    | cons c cs =>
      simp only [List.map_cons, List.cons.injEq] at hci
      simp only [List.cons_append, startsWithCI, Bool.and_eq_true]
      exact ⟨beq_iff_eq.mpr hci.1, ih cs rest hci.2⟩

/-- A keyword does match an identifier run that is case-insensitively
equal to it, given a word boundary after the run. -/
theorem matchKeyword_of_ciEq (kw tw rest2 : List Char)
    (hci : kw.map Char.toLower = tw.map Char.toLower)
    (hrest : rest2 = [] ∨ ∃ d ds, rest2 = d :: ds ∧ isWordChar d = false) :
    matchKeyword kw (tw ++ rest2) = true := by
  unfold matchKeyword
  rw [Bool.and_eq_true]
  refine ⟨startsWithCI_of_ciEq kw tw rest2 hci, ?_⟩
  have hlen : kw.length = tw.length := by
    have := congrArg List.length hci
    simpa using this
  unfold hasWordBoundaryAfter
  rw [hlen, List.drop_left]
  rcases hrest with rfl | ⟨d, ds, rfl, hd⟩
  · rfl
  · simp [hd]

/-- Inversion of one step of the pattern loop: either the head pattern
fired and produced the token, or it failed and the tail produced it. -/
theorem tsNextTokenAux_cons_some (p : TokenPattern) (ps : List TokenPattern)
    (s : List Char) (pos : Nat) (tok : TSToken) (len : Nat)
    (h : tsNextTokenAux (p :: ps) s pos = .ok (some tok, len)) :
    (∃ ty, p.type = some ty ∧ p.matchLen s = some len ∧
      tok = ⟨ty, normalizeValue ty ⟨s.take len⟩, pos, len⟩)
    ∨ (p.matchLen s = none ∧ tsNextTokenAux ps s pos = .ok (some tok, len)) := by
  simp only [tsNextTokenAux] at h
  cases hm : p.matchLen s with
  | none =>
    rw [hm] at h
    exact Or.inr ⟨rfl, h⟩
  | some l =>
    rw [hm] at h
    cases ht : p.type with
    | none =>
      rw [ht] at h
      simp at h
    | some ty =>
      rw [ht] at h
      simp only [Except.ok.injEq, Prod.mk.injEq, Option.some.injEq] at h
      obtain ⟨h1, h2⟩ := h
      subst h2
      exact Or.inl ⟨ty, rfl, rfl, h1.symm⟩
/-- Any produced token type is the type of some pattern in the list. -/
theorem tsNextTokenAux_type_mem (ps : List TokenPattern) :
    ∀ (s : List Char) (pos : Nat) (tok : TSToken) (len : Nat),
      tsNextTokenAux ps s pos = .ok (some tok, len) →
      ∃ p ∈ ps, p.type = some tok.type := by
  induction ps with
  | nil =>
    intro s pos tok len h
    simp [tsNextTokenAux] at h
  | cons p ps ih =>
    intro s pos tok len h
    rcases tsNextTokenAux_cons_some p ps s pos tok len h with
      ⟨ty, ht, hm, htok⟩ | ⟨hm, h2⟩
    · refine ⟨p, List.mem_cons_self p ps, ?_⟩
      rw [htok]
      exact ht
    · obtain ⟨q, hq, hqt⟩ := ih s pos tok len h2
      exact ⟨q, List.mem_cons_of_mem p hq, hqt⟩

/-- An uppercased word-character run headed by a letter and distinct
(case-insensitively) from every keyword is a well-shaped name. -/
theorem goodName_of_run (c : Char) (cs2 : List Char)
    (ha : c.isAlpha = true)
    (hall : ∀ x ∈ c :: cs2, isWordChar x = true)
    (hq1 : (c :: cs2).map Char.toLower ≠ "xnor".data)
    (hq2 : (c :: cs2).map Char.toLower ≠ "nand".data)
    (hq3 : (c :: cs2).map Char.toLower ≠ "nor".data)
    (hq4 : (c :: cs2).map Char.toLower ≠ "xor".data)
    (hq5 : (c :: cs2).map Char.toLower ≠ "and".data)
    (hq6 : (c :: cs2).map Char.toLower ≠ "or".data)
    (hq7 : (c :: cs2).map Char.toLower ≠ "not".data)
    (hq8 : (c :: cs2).map Char.toLower ≠ "true".data)
    (hq9 : (c :: cs2).map Char.toLower ≠ "false".data) :
    goodName (jsToUpperCase ⟨c :: cs2⟩) = true := by
  have hmaps : (jsToLowerCase (jsToUpperCase ⟨c :: cs2⟩)).data =
      (c :: cs2).map Char.toLower := by
    show ((c :: cs2).map Char.toUpper).map Char.toLower = (c :: cs2).map Char.toLower
    rw [List.map_map]
    have hfun : Char.toLower ∘ Char.toUpper = Char.toLower :=
      funext fun x => toLower_toUpper x
    rw [hfun]
  have hlow : ∀ (w : String), (c :: cs2).map Char.toLower ≠ w.data →
      ¬ jsToLowerCase (jsToUpperCase ⟨c :: cs2⟩) = w := by
    intro w hw heq
    apply hw
    rw [← hmaps, heq]
  unfold goodName
  have hnd : (jsToUpperCase ⟨c :: cs2⟩).data =
      c.toUpper :: cs2.map Char.toUpper := rfl
  rw [hnd]
  simp only [Bool.and_eq_true, Bool.not_eq_true', Bool.or_eq_false_iff,
    beq_iff_eq, beq_eq_false_iff_ne, ne_eq]
  refine ⟨⟨⟨isAlpha_toUpper c ha, ?_⟩, jsToUpperCase_idem _⟩,
    ⟨⟨⟨⟨⟨⟨⟨⟨hlow _ hq1, hlow _ hq2⟩, hlow _ hq3⟩, hlow _ hq4⟩, hlow _ hq5⟩,
      hlow _ hq6⟩, hlow _ hq7⟩, hlow _ hq8⟩, hlow _ hq9⟩⟩
  rw [List.all_eq_true]
  intro x hx
  rcases List.mem_cons.mp hx with rfl | hx2
  · exact isWordChar_toUpper c (hall c (List.mem_cons_self c cs2))
  · obtain ⟨y, hy, rfl⟩ := List.mem_map.mp hx2
    exact isWordChar_toUpper y (hall y (List.mem_cons_of_mem c hy))

/-- Every VARIABLE token a single TS-lexer step produces carries a
well-shaped identifier. -/
theorem tsNextToken_var_good (s : List Char) (pos : Nat) (tok : TSToken)
    (len : Nat) (h : tsNextToken s pos = .ok (some tok, len))
    (hty : tok.type = TSTokenType.VARIABLE) :
    goodName tok.value = true := by
  unfold tsNextToken TOKEN_PATTERNS at h
  replace h := tsNextTokenAux_cons_some _ _ _ _ _ _ h
  rcases h with ⟨ty, hty2, hm, htok⟩ | ⟨hmw, h⟩
  · exact Option.noConfusion (show (none : Option TSTokenType) = some ty from hty2)
  replace h := tsNextTokenAux_cons_some _ _ _ _ _ _ h
  rcases h with ⟨ty, hty2, hm, htok⟩ | ⟨hm1, h⟩
  · exfalso
    have hty3 : some TSTokenType.XNOR = some ty := hty2
    injection hty3 with hty4
    rw [htok] at hty
    have hty5 : ty = TSTokenType.VARIABLE := hty
    rw [← hty4] at hty5
    exact TSTokenType.noConfusion hty5
  have hk1 : matchKeyword "XNOR".data s = false := by
    have h2 : (if matchKeyword "XNOR".data s then some (4 : Nat) else none) = none := hm1
    by_cases hb : matchKeyword "XNOR".data s = true
    · rw [if_pos hb] at h2
      exact Option.noConfusion h2
    · simpa using hb
  replace h := tsNextTokenAux_cons_some _ _ _ _ _ _ h
  rcases h with ⟨ty, hty2, hm, htok⟩ | ⟨hm2, h⟩
  · exfalso
    have hty3 : some TSTokenType.NAND = some ty := hty2
    injection hty3 with hty4
    rw [htok] at hty
    have hty5 : ty = TSTokenType.VARIABLE := hty
    rw [← hty4] at hty5
    exact TSTokenType.noConfusion hty5
  have hk2 : matchKeyword "NAND".data s = false := by
    have h2 : (if matchKeyword "NAND".data s then some (4 : Nat) else none) = none := hm2
    by_cases hb : matchKeyword "NAND".data s = true
    · rw [if_pos hb] at h2
      exact Option.noConfusion h2
    · simpa using hb
  replace h := tsNextTokenAux_cons_some _ _ _ _ _ _ h
  rcases h with ⟨ty, hty2, hm, htok⟩ | ⟨hm3, h⟩
  · exfalso
    have hty3 : some TSTokenType.NOR = some ty := hty2
    injection hty3 with hty4
    rw [htok] at hty
    have hty5 : ty = TSTokenType.VARIABLE := hty
    rw [← hty4] at hty5
    exact TSTokenType.noConfusion hty5
  have hk3 : matchKeyword "NOR".data s = false := by
    have h2 : (if matchKeyword "NOR".data s then some (3 : Nat) else none) = none := hm3
    by_cases hb : matchKeyword "NOR".data s = true
    · rw [if_pos hb] at h2
      exact Option.noConfusion h2
    · simpa using hb
  replace h := tsNextTokenAux_cons_some _ _ _ _ _ _ h
  rcases h with ⟨ty, hty2, hm, htok⟩ | ⟨hm4, h⟩
  · exfalso
    have hty3 : some TSTokenType.XOR = some ty := hty2
    injection hty3 with hty4
    rw [htok] at hty
    have hty5 : ty = TSTokenType.VARIABLE := hty
    rw [← hty4] at hty5
    exact TSTokenType.noConfusion hty5
  have hk4 : matchKeyword "XOR".data s = false := by
    have h2 : (if matchKeyword "XOR".data s then some (3 : Nat) else none) = none := hm4
    by_cases hb : matchKeyword "XOR".data s = true
    · rw [if_pos hb] at h2
      exact Option.noConfusion h2
    · simpa using hb
  replace h := tsNextTokenAux_cons_some _ _ _ _ _ _ h
  rcases h with ⟨ty, hty2, hm, htok⟩ | ⟨hm5, h⟩
  · exfalso
    have hty3 : some TSTokenType.AND = some ty := hty2
    injection hty3 with hty4
    rw [htok] at hty
    have hty5 : ty = TSTokenType.VARIABLE := hty
    rw [← hty4] at hty5
    exact TSTokenType.noConfusion hty5
  have hk5 : matchKeyword "AND".data s = false := by
    have h2 : (if matchKeyword "AND".data s then some (3 : Nat) else none) = none := hm5
    by_cases hb : matchKeyword "AND".data s = true
    · rw [if_pos hb] at h2
      exact Option.noConfusion h2
    · simpa using hb
  replace h := tsNextTokenAux_cons_some _ _ _ _ _ _ h
  rcases h with ⟨ty, hty2, hm, htok⟩ | ⟨hm6, h⟩
  · exfalso
    have hty3 : some TSTokenType.OR = some ty := hty2
    injection hty3 with hty4
    rw [htok] at hty
    have hty5 : ty = TSTokenType.VARIABLE := hty
    rw [← hty4] at hty5
    exact TSTokenType.noConfusion hty5
  have hk6 : matchKeyword "OR".data s = false := by
    have h2 : (if matchKeyword "OR".data s then some (2 : Nat) else none) = none := hm6
    by_cases hb : matchKeyword "OR".data s = true
    · rw [if_pos hb] at h2
      exact Option.noConfusion h2
    · simpa using hb
  replace h := tsNextTokenAux_cons_some _ _ _ _ _ _ h
  rcases h with ⟨ty, hty2, hm, htok⟩ | ⟨hm7, h⟩
  · exfalso
    have hty3 : some TSTokenType.NOT = some ty := hty2
    injection hty3 with hty4
    rw [htok] at hty
    have hty5 : ty = TSTokenType.VARIABLE := hty
    rw [← hty4] at hty5
    exact TSTokenType.noConfusion hty5
  have hk7 : matchKeyword "NOT".data s = false := by
    have h2 : (if matchKeyword "NOT".data s then some (3 : Nat) else none) = none := hm7
    by_cases hb : matchKeyword "NOT".data s = true
    · rw [if_pos hb] at h2
      exact Option.noConfusion h2
    · simpa using hb
  replace h := tsNextTokenAux_cons_some _ _ _ _ _ _ h
  rcases h with ⟨ty, hty2, hm, htok⟩ | ⟨hm8, h⟩
  · exfalso
    have hty3 : some TSTokenType.LITERAL = some ty := hty2
    injection hty3 with hty4
    rw [htok] at hty
    have hty5 : ty = TSTokenType.VARIABLE := hty
    rw [← hty4] at hty5
    exact TSTokenType.noConfusion hty5
  replace h := tsNextTokenAux_cons_some _ _ _ _ _ _ h
  rcases h with ⟨ty, hty2, hm, htok⟩ | ⟨hm9, h⟩
  · exfalso
    have hty3 : some TSTokenType.LITERAL = some ty := hty2
    injection hty3 with hty4
    rw [htok] at hty
    have hty5 : ty = TSTokenType.VARIABLE := hty
    rw [← hty4] at hty5
    exact TSTokenType.noConfusion hty5
  have hk89 : matchKeyword "true".data s = false ∧
      matchKeyword "false".data s = false := by
    have h2 : (if matchKeyword "true".data s then some (4 : Nat)
        else if matchKeyword "false".data s then some 5 else none) = none := hm9
    by_cases hb1 : matchKeyword "true".data s = true
    · rw [if_pos hb1] at h2
      exact Option.noConfusion h2
    · rw [if_neg hb1] at h2
      by_cases hb2 : matchKeyword "false".data s = true
      · rw [if_pos hb2] at h2
        exact Option.noConfusion h2
      · exact ⟨by simpa using hb1, by simpa using hb2⟩
  replace h := tsNextTokenAux_cons_some _ _ _ _ _ _ h
  rcases h with ⟨ty, hty2, hm, htok⟩ | ⟨hmv, h⟩
  · have hty3 : some TSTokenType.VARIABLE = some ty := hty2
    injection hty3 with hty4
    cases s with
    | nil => exact Option.noConfusion (show (none : Option Nat) = some len from hm)
    | cons c cs =>
      have hm3 : (if c.isAlpha then
          some (((c :: cs).takeWhile isWordChar).length) else none) = some len := hm
      by_cases ha : c.isAlpha = true
      · rw [if_pos ha] at hm3
        injection hm3 with hlen
        rw [htok, ← hty4, ← hlen]
        show goodName (jsToUpperCase
          ⟨(c :: cs).take (((c :: cs).takeWhile isWordChar).length)⟩) = true
        rw [tw_take isWordChar (c :: cs)]
        have hwc : isWordChar c = true := isWordChar_of_alpha c ha
        have htw : (c :: cs).takeWhile isWordChar = c :: cs.takeWhile isWordChar := by
          rw [List.takeWhile_cons, if_pos hwc]
        have hrest : (c :: cs).dropWhile isWordChar = [] ∨
            ∃ d ds, (c :: cs).dropWhile isWordChar = d :: ds ∧ isWordChar d = false := by
          cases hdw : (c :: cs).dropWhile isWordChar with
          | nil => exact Or.inl rfl
          | cons d ds => exact Or.inr ⟨d, ds, rfl, dw_head isWordChar (c :: cs) d ds hdw⟩
        have hne : ∀ kw : List Char, matchKeyword kw (c :: cs) = false →
            ((c :: cs).takeWhile isWordChar).map Char.toLower ≠ kw.map Char.toLower := by
          intro kw hkf hcon
          have hmk := matchKeyword_of_ciEq kw ((c :: cs).takeWhile isWordChar)
            ((c :: cs).dropWhile isWordChar) hcon.symm hrest
          rw [List.takeWhile_append_dropWhile] at hmk
          rw [hkf] at hmk
          exact Bool.noConfusion hmk
        rw [htw]
        apply goodName_of_run c (cs.takeWhile isWordChar) ha
        · intro x hx
          rcases List.mem_cons.mp hx with rfl | hx2
          · exact hwc
          · exact List.mem_takeWhile_imp hx2
        · rw [← htw]
          intro hcon
          exact hne "XNOR".data hk1 (hcon.trans (by decide))
        · rw [← htw]
          intro hcon
          exact hne "NAND".data hk2 (hcon.trans (by decide))
        · rw [← htw]
          intro hcon
          exact hne "NOR".data hk3 (hcon.trans (by decide))
        · rw [← htw]
          intro hcon
          exact hne "XOR".data hk4 (hcon.trans (by decide))
        · rw [← htw]
          intro hcon
          exact hne "AND".data hk5 (hcon.trans (by decide))
        · rw [← htw]
          intro hcon
          exact hne "OR".data hk6 (hcon.trans (by decide))
        · rw [← htw]
          intro hcon
          exact hne "NOT".data hk7 (hcon.trans (by decide))
        · rw [← htw]
          intro hcon
          exact hne "true".data hk89.1 (hcon.trans (by decide))
        · rw [← htw]
          intro hcon
          exact hne "false".data hk89.2 (hcon.trans (by decide))
      · rw [if_neg ha] at hm3
        exact Option.noConfusion hm3
  obtain ⟨p, hp, hpt⟩ := tsNextTokenAux_type_mem _ s pos tok len h
  rw [hty] at hpt
  simp only [List.mem_cons, List.not_mem_nil, or_false] at hp
  rcases hp with rfl | rfl | rfl | rfl | rfl | rfl | rfl | rfl | rfl | rfl | rfl | rfl | rfl
  all_goals (injection hpt with he; exact TSTokenType.noConfusion he)

/-- Every VARIABLE token of the TS tokenize loop carries a well-shaped
identifier (given the invariant for the accumulator). -/
theorem tsTokenizeLoop_good :
    ∀ (fuel : Nat) (chars : List Char) (pos : Nat) (toks0 : List TSToken),
      TokGood toks0 →
      ∀ toks, tsTokenizeLoop fuel chars pos toks0 = .ok toks →
        TokGood toks := by
  intro fuel
  induction fuel with
  | zero => intro chars pos toks0 _ toks h; simp [tsTokenizeLoop] at h
  | succ fuel ih =>
    intro chars pos toks0 hinv toks h tok htok hv
    cases chars with
    | nil =>
      simp only [tsTokenizeLoop] at h
      cases h
      rcases List.mem_append.mp htok with h1 | h1
      · exact hinv tok h1 hv
      · simp only [List.mem_singleton] at h1
        subst h1
        simp at hv
    | cons c cs =>
      simp only [tsTokenizeLoop] at h
      cases hn : tsNextToken (c :: cs) pos with
      | error e => rw [hn] at h; cases h
      | ok r =>
        rw [hn] at h
        obtain ⟨otok, len⟩ := r
        cases otok with
        | none =>
          exact ih _ _ _ hinv toks h tok htok hv
        | some newTok =>
          refine ih _ _ _ ?_ toks h tok htok hv
          intro t ht htv
          rcases List.mem_append.mp ht with h1 | h1
          · exact hinv t h1 htv
          · simp only [List.mem_singleton] at h1
            subst h1
            exact tsNextToken_var_good _ _ _ _ hn htv

/-- Every VARIABLE token of a successful TS tokenization carries a
well-shaped identifier. -/
theorem tsTokenize_good (s : String) (toks : List TSToken)
    (h : tsTokenize s = .ok toks) : TokGood toks := by
  refine tsTokenizeLoop_good _ _ _ [] ?_ toks h
  intro tok htok
  exact absurd htok (List.not_mem_nil tok)

/-- The token invariant restricts to the tail. -/
theorem TokGood_tail (ts : List TSToken) (h : TokGood ts) : TokGood ts.tail := by
  intro tok htok hv
  exact h tok (List.mem_of_mem_tail htok) hv

/-- A successful `match` consumes exactly the head token. -/
theorem tsMatch_some_tail (ts : List TSToken) (types : List TSTokenType)
    (op : TSToken) (ts1 : List TSToken) (h : tsMatch ts types = some (op, ts1)) :
    ts1 = ts.tail := by
  unfold tsMatch at h
  by_cases hc : (types.any fun ty => tsCheck ts ty) = true
  · rw [if_pos hc] at h
    injection h with h1
    injection h1 with h2 h3
    exact h3.symm
  · rw [if_neg hc] at h
    exact Option.noConfusion h

/-- Inversion of a successful single-type `match`: the stream starts
with the returned token, which has the requested type. -/
theorem tsMatch_single_spec (ts : List TSToken) (ty0 : TSTokenType)
    (op : TSToken) (ts1 : List TSToken)
    (h : tsMatch ts [ty0] = some (op, ts1)) :
    ∃ rest, ts = op :: rest ∧ ts1 = rest ∧ op.type = ty0 := by
  unfold tsMatch at h
  by_cases hc : ([ty0].any fun ty => tsCheck ts ty) = true
  · rw [if_pos hc] at h
    injection h with h1
    injection h1 with h2 h3
    simp only [List.any_cons, List.any_nil, Bool.or_false] at hc
    unfold tsCheck tsAtEnd at hc
    rw [Bool.and_eq_true] at hc
    cases ts with
    | nil =>
      exfalso
      have hpk : tsPeek ([] : List TSToken) = ⟨.EOF, "", 0, 0⟩ := rfl
      rw [hpk] at hc
      simp at hc
    | cons t rest =>
      have hpk : tsPeek (t :: rest) = t := rfl
      rw [hpk] at hc h2
      refine ⟨rest, by rw [h2], h3.symm, ?_⟩
      rw [← h2]
      exact beq_iff_eq.mp hc.2
  · rw [if_neg hc] at h
    exact Option.noConfusion h

/-- The postfix-prime loop preserves name well-shapedness and the token
invariant. -/
theorem tsPostLoop_good :
    ∀ (ts : List TSToken) (node : CoreAST), wfNames node = true → TokGood ts →
      wfNames (tsPostLoop ts node).1 = true ∧ TokGood (tsPostLoop ts node).2 := by
  intro ts
  induction ts with
  | nil => intro node hn hts; exact ⟨hn, hts⟩
  | cons t rest ih =>
    intro node hn hts
    unfold tsPostLoop
    by_cases hc : (t.type == TSTokenType.NOT ∧ t.value == "\x27")
    · rw [if_pos hc]
      exact ih (.notN node) hn (TokGood_tail (t :: rest) hts)
    · rw [if_neg hc]
      exact ⟨hn, hts⟩

/-- Joint fuel induction over the nine mutual parser functions: parsing
a token stream whose VARIABLE tokens are all well shaped yields an AST
whose names are all well shaped, and the unconsumed stream keeps the
invariant. -/
theorem tsParsers_good : ∀ fuel : Nat,
    (∀ ts ast ts2, TokGood ts → tsParseExpression fuel ts = .ok (ast, ts2) →
      wfNames ast = true ∧ TokGood ts2) ∧
    (∀ left ts ast ts2, wfNames left = true → TokGood ts →
      tsOrLoop fuel left ts = .ok (ast, ts2) →
      wfNames ast = true ∧ TokGood ts2) ∧
    (∀ ts ast ts2, TokGood ts → tsParseTerm fuel ts = .ok (ast, ts2) →
      wfNames ast = true ∧ TokGood ts2) ∧
    (∀ left ts ast ts2, wfNames left = true → TokGood ts →
      tsXorLoop fuel left ts = .ok (ast, ts2) →
      wfNames ast = true ∧ TokGood ts2) ∧
    (∀ ts ast ts2, TokGood ts → tsParseFactor fuel ts = .ok (ast, ts2) →
      wfNames ast = true ∧ TokGood ts2) ∧
    (∀ left ts ast ts2, wfNames left = true → TokGood ts →
      tsAndLoop fuel left ts = .ok (ast, ts2) →
      wfNames ast = true ∧ TokGood ts2) ∧
    (∀ left ts ast ts2, wfNames left = true → TokGood ts →
      tsImplicitLoop fuel left ts = .ok (ast, ts2) →
      wfNames ast = true ∧ TokGood ts2) ∧
    (∀ ts ast ts2, TokGood ts → tsParseUnary fuel ts = .ok (ast, ts2) →
      wfNames ast = true ∧ TokGood ts2) ∧
    (∀ ts ast ts2, TokGood ts → tsParsePrimary fuel ts = .ok (ast, ts2) →
      wfNames ast = true ∧ TokGood ts2) := by
  intro fuel
  induction fuel with
  | zero =>
    refine ⟨?_, ?_, ?_, ?_, ?_, ?_, ?_, ?_, ?_⟩
    · intro ts ast ts2 _ h; simp [tsParseExpression] at h
    · intro left ts ast ts2 _ _ h; simp [tsOrLoop] at h
    · intro ts ast ts2 _ h; simp [tsParseTerm] at h
    · intro left ts ast ts2 _ _ h; simp [tsXorLoop] at h
    · intro ts ast ts2 _ h; simp [tsParseFactor] at h
    · intro left ts ast ts2 _ _ h; simp [tsAndLoop] at h
    · intro left ts ast ts2 _ _ h; simp [tsImplicitLoop] at h
    · intro ts ast ts2 _ h; simp [tsParseUnary] at h
    · intro ts ast ts2 _ h; simp [tsParsePrimary] at h
  | succ fuel ih =>
    obtain ⟨ihE, ihO, ihT, ihX, ihF, ihA, ihI, ihU, ihP⟩ := ih
    refine ⟨?_, ?_, ?_, ?_, ?_, ?_, ?_, ?_, ?_⟩
    · intro ts ast ts2 hts h
      unfold tsParseExpression at h
      simp only [Bind.bind, Except.bind] at h
      cases hx : tsParseTerm fuel ts with
      | error e => rw [hx] at h; exact Except.noConfusion h
      | ok p =>
        rw [hx] at h
        obtain ⟨left, ts1⟩ := p
        obtain ⟨hl, hts1⟩ := ihT ts left ts1 hts hx
        exact ihO left ts1 ast ts2 hl hts1 h
    · intro left ts ast ts2 hleft hts h
      unfold tsOrLoop at h
      cases hm : tsMatch ts [TSTokenType.OR, TSTokenType.NOR] with
      | none =>
        rw [hm] at h
        injection h with h1
        injection h1 with h2 h3
        subst h2
        subst h3
        exact ⟨hleft, hts⟩
      | some p =>
        rw [hm] at h
        obtain ⟨op, ts1⟩ := p
        simp only [Bind.bind, Except.bind] at h
        cases hx : tsParseTerm fuel ts1 with
        | error e => rw [hx] at h; exact Except.noConfusion h
        | ok q =>
          rw [hx] at h
          obtain ⟨right, ts1b⟩ := q
          have hts1 : TokGood ts1 := by
            rw [tsMatch_some_tail ts _ op ts1 hm]
            exact TokGood_tail ts hts
          obtain ⟨hr, hts1b⟩ := ihT ts1 right ts1b hts1 hx
          refine ihO _ ts1b ast ts2 ?_ hts1b h
          show (wfNames left && wfNames right) = true
          rw [hleft, hr]
          rfl
    · intro ts ast ts2 hts h
      unfold tsParseTerm at h
      simp only [Bind.bind, Except.bind] at h
      cases hx : tsParseFactor fuel ts with
      | error e => rw [hx] at h; exact Except.noConfusion h
      | ok p =>
        rw [hx] at h
        obtain ⟨left, ts1⟩ := p
        obtain ⟨hl, hts1⟩ := ihF ts left ts1 hts hx
        exact ihX left ts1 ast ts2 hl hts1 h
    · intro left ts ast ts2 hleft hts h
      unfold tsXorLoop at h
      cases hm : tsMatch ts [TSTokenType.XOR, TSTokenType.XNOR] with
      | none =>
        rw [hm] at h
        injection h with h1
        injection h1 with h2 h3
        subst h2
        subst h3
        exact ⟨hleft, hts⟩
      | some p =>
        rw [hm] at h
        obtain ⟨op, ts1⟩ := p
        simp only [Bind.bind, Except.bind] at h
        cases hx : tsParseFactor fuel ts1 with
        | error e => rw [hx] at h; exact Except.noConfusion h
        | ok q =>
          rw [hx] at h
          obtain ⟨right, ts1b⟩ := q
          have hts1 : TokGood ts1 := by
            rw [tsMatch_some_tail ts _ op ts1 hm]
            exact TokGood_tail ts hts
          obtain ⟨hr, hts1b⟩ := ihF ts1 right ts1b hts1 hx
          refine ihX _ ts1b ast ts2 ?_ hts1b h
          show (wfNames left && wfNames right) = true
          rw [hleft, hr]
          rfl
    · intro ts ast ts2 hts h
      unfold tsParseFactor at h
      simp only [Bind.bind, Except.bind] at h
      cases hx : tsParseUnary fuel ts with
      | error e => rw [hx] at h; exact Except.noConfusion h
      | ok p =>
        obtain ⟨left, ts1⟩ := p
        rw [hx] at h
        obtain ⟨hl, hts1⟩ := ihU ts left ts1 hts hx
        cases hy : tsAndLoop fuel left ts1 with
        | error e =>
          simp only [hy] at h
          exact Except.noConfusion h
        | ok q =>
          obtain ⟨left2, ts2a⟩ := q
          simp only [hy] at h
          obtain ⟨hl2, hts2a⟩ := ihA left ts1 left2 ts2a hl hts1 hy
          exact ihI left2 ts2a ast ts2 hl2 hts2a h
    · intro left ts ast ts2 hleft hts h
      unfold tsAndLoop at h
      cases hm : tsMatch ts [TSTokenType.AND, TSTokenType.NAND] with
      | none =>
        rw [hm] at h
        injection h with h1
        injection h1 with h2 h3
        subst h2
        subst h3
        exact ⟨hleft, hts⟩
      | some p =>
        rw [hm] at h
        obtain ⟨op, ts1⟩ := p
        simp only [Bind.bind, Except.bind] at h
        cases hx : tsParseUnary fuel ts1 with
        | error e => rw [hx] at h; exact Except.noConfusion h
        | ok q =>
          rw [hx] at h
          obtain ⟨right, ts1b⟩ := q
          have hts1 : TokGood ts1 := by
            rw [tsMatch_some_tail ts _ op ts1 hm]
            exact TokGood_tail ts hts
          obtain ⟨hr, hts1b⟩ := ihU ts1 right ts1b hts1 hx
          refine ihA _ ts1b ast ts2 ?_ hts1b h
          show (wfNames left && wfNames right) = true
          rw [hleft, hr]
          rfl
    · intro left ts ast ts2 hleft hts h
      unfold tsImplicitLoop at h
      by_cases hc : (tsCheck ts .VARIABLE ∨ tsCheck ts .LPAREN ∨
          tsCheck ts .NOT ∨ tsCheck ts .LITERAL)
      · rw [if_pos hc] at h
        simp only [Bind.bind, Except.bind] at h
        cases hx : tsParseUnary fuel ts with
        | error e => rw [hx] at h; exact Except.noConfusion h
        | ok q =>
          rw [hx] at h
          obtain ⟨right, ts1⟩ := q
          obtain ⟨hr, hts1⟩ := ihU ts right ts1 hts hx
          refine ihI _ ts1 ast ts2 ?_ hts1 h
          show (wfNames left && wfNames right) = true
          rw [hleft, hr]
          rfl
      · rw [if_neg hc] at h
        injection h with h1
        injection h1 with h2 h3
        subst h2
        subst h3
        exact ⟨hleft, hts⟩
    · intro ts ast ts2 hts h
      unfold tsParseUnary at h
      cases hm : tsMatch ts [TSTokenType.NOT] with
      | some p =>
        rw [hm] at h
        obtain ⟨op, ts1⟩ := p
        simp only [Bind.bind, Except.bind] at h
        cases hx : tsParseUnary fuel ts1 with
        | error e => rw [hx] at h; exact Except.noConfusion h
        | ok q =>
          rw [hx] at h
          obtain ⟨operand, ts2a⟩ := q
          have hts1 : TokGood ts1 := by
            rw [tsMatch_some_tail ts _ op ts1 hm]
            exact TokGood_tail ts hts
          obtain ⟨ho, hts2a⟩ := ihU ts1 operand ts2a hts1 hx
          injection h with h1
          injection h1 with h2 h3
          subst h2
          subst h3
          exact ⟨ho, hts2a⟩
      | none =>
        rw [hm] at h
        simp only [Bind.bind, Except.bind] at h
        cases hx : tsParsePrimary fuel ts with
        | error e => rw [hx] at h; exact Except.noConfusion h
        | ok q =>
          rw [hx] at h
          obtain ⟨node, ts1⟩ := q
          obtain ⟨hn, hts1⟩ := ihP ts node ts1 hts hx
          injection h with h1
          obtain ⟨hw, hg⟩ := tsPostLoop_good ts1 node hn hts1
          rw [h1] at hw hg
          exact ⟨hw, hg⟩
    · intro ts ast ts2 hts h
      unfold tsParsePrimary at h
      cases hm1 : tsMatch ts [TSTokenType.LITERAL] with
      | some p =>
        rw [hm1] at h
        obtain ⟨t, ts1⟩ := p
        injection h with h1
        injection h1 with h2 h3
        subst h2
        subst h3
        refine ⟨rfl, ?_⟩
        rw [tsMatch_some_tail ts _ t ts1 hm1]
        exact TokGood_tail ts hts
      | none =>
        rw [hm1] at h
        cases hm2 : tsMatch ts [TSTokenType.VARIABLE] with
        | some p =>
          rw [hm2] at h
          obtain ⟨t, ts1⟩ := p
          injection h with h1
          injection h1 with h2 h3
          subst h2
          subst h3
          obtain ⟨rest, hts_eq, hts1_eq, htyp⟩ := tsMatch_single_spec ts _ t ts1 hm2
          constructor
          · show goodName t.value = true
            exact hts t (by rw [hts_eq]; exact List.mem_cons_self t rest) htyp
          · subst hts1_eq
            rw [hts_eq] at hts
            exact TokGood_tail _ hts
        | none =>
          rw [hm2] at h
          cases hm3 : tsMatch ts [TSTokenType.LPAREN] with
          | some p =>
            rw [hm3] at h
            obtain ⟨t, ts1⟩ := p
            simp only [Bind.bind, Except.bind] at h
            cases hx : tsParseExpression fuel ts1 with
            | error e => rw [hx] at h; exact Except.noConfusion h
            | ok q =>
              obtain ⟨expr, ts2a⟩ := q
              rw [hx] at h
              have hts1 : TokGood ts1 := by
                rw [tsMatch_some_tail ts _ t ts1 hm3]
                exact TokGood_tail ts hts
              obtain ⟨he, hts2a⟩ := ihE ts1 expr ts2a hts1 hx
              cases hm4 : tsMatch ts2a [TSTokenType.RPAREN] with
              | some r =>
                obtain ⟨t3, ts3⟩ := r
                simp only [hm4] at h
                injection h with h1
                injection h1 with h2 h3
                subst h2
                subst h3
                refine ⟨he, ?_⟩
                rw [tsMatch_some_tail ts2a _ t3 ts3 hm4]
                exact TokGood_tail ts2a hts2a
              | none =>
                simp only [hm4] at h
                exact Except.noConfusion h
          | none =>
            rw [hm3] at h
            exact Except.noConfusion h

/-- Inversion of a successful `parse`: the AST names are well shaped
and the variable list is the sorted de-duplicated occurrence list. -/
theorem tsParse_inv (s : String) (t : CoreAST) (vs : List String)
    (h : tsParse s = .ok (t, vs)) :
    wfNames t = true ∧ vs = sortDedupStr (varOccurrences t) := by
  unfold tsParse at h
  by_cases hws : (s.data.all isWSChar) = true
  · rw [if_pos hws] at h
    exact Except.noConfusion h
  · rw [if_neg hws] at h
    simp only [Bind.bind, Except.bind] at h
    cases htk : tsTokenize s with
    | error e =>
      rw [htk] at h
      exact Except.noConfusion h
    | ok tokens =>
      simp only [htk] at h
      cases hp : tsParseExpression (tsParserFuel tokens) tokens with
      | error e =>
        simp only [hp] at h
        exact Except.noConfusion h
      | ok q =>
        obtain ⟨ast, ts⟩ := q
        simp only [hp] at h
        by_cases hend : (!(tsAtEnd ts)) = true
        · rw [if_pos hend] at h
          exact Except.noConfusion h
        · rw [if_neg hend] at h
          injection h with h1
          injection h1 with h2 h3
          subst h2
          subst h3
          exact ⟨((tsParsers_good (tsParserFuel tokens)).1 tokens ast ts
            (tsTokenize_good s tokens htk) hp).1, rfl⟩

/-- C7: for every input string that TS `parse` accepts, rendering the
resulting AST back to an infix string with `astToString` and re-parsing
that string succeeds and yields the identical AST together with the
identical sorted variable list — in particular a semantically equivalent
tree with the same truth table over the same variables. -/
theorem parse_print_round_trip (s : String) (t : CoreAST) (vs : List String)
    (h : tsParse s = .ok (t, vs)) :
    tsParse (astToString t) = .ok (t, vs) := by
  obtain ⟨hwf, hvs⟩ := tsParse_inv s t vs h
  obtain ⟨toks, p, htok, hsh⟩ := tsTokenize_render t hwf
  have hnws : ((astToString t).data.all isWSChar) = false := by
    obtain ⟨c, cs, hd, hc⟩ := render_head t hwf
    rw [hd]
    simp [List.all_cons, hc]
  have hle : nsize t ≤ toks.length := by
    rw [Shaped_length toks (utoks t) hsh]
    exact utoks_length_ge t
  have hE : tsParseExpression
      (tsParserFuel (toks ++ [(⟨.EOF, "", p, 0⟩ : TSToken)]))
      (toks ++ [(⟨.EOF, "", p, 0⟩ : TSToken)]) =
      .ok (t, [(⟨.EOF, "", p, 0⟩ : TSToken)]) := by
    apply parseExpr_of_unary t (parseUnary_render t hwf)
    · show 8 * nsize t + 3 ≤
        10 * (toks ++ [(⟨.EOF, "", p, 0⟩ : TSToken)]).length + 10
      rw [List.length_append]
      simp only [List.length_singleton]
      omega
    · exact hsh
    · exact Or.inr rfl
  unfold tsParse
  rw [if_neg (show ¬ ((astToString t).data.all isWSChar = true) by
    rw [hnws]; intro hc; exact Bool.noConfusion hc)]
  simp only [Bind.bind, Except.bind, htok]
  rw [hE]
  rw [hvs]
  rfl

/-- Witness for C7 at the accepted input "A AND B". -/
theorem parse_print_round_trip_witness :
    tsParse "A AND B" = .ok (.bin .and (.var "A") (.var "B"), ["A", "B"]) ∧
    tsParse (astToString (.bin .and (.var "A") (.var "B"))) =
      .ok (.bin .and (.var "A") (.var "B"), ["A", "B"]) :=
  ⟨rfl, parse_print_round_trip "A AND B" (.bin .and (.var "A") (.var "B"))
    ["A", "B"] rfl⟩
